import Mathlib

/-!
Verification of the N2-diagram layout engine (`Layout.js`).

The definitions below are a shallow embedding of the layout pipeline of
`src/openmdao/visualization/n2_viewer/gen/Layout.js`:

* `computeLeaves`        embeds `Layout._computeLeaves` (lines 187-208),
* `updateTextWidths`     embeds `Layout._updateTextWidths` (lines 169-180),
* `setColumnWidthsFromWidestText` embeds lines 219-240,
* `computeColumnWidths`  embeds `Layout._computeColumnWidths` (lines 246-265),
* `setColumnLocations`   embeds `Layout._setColumnLocations` (lines 268-275),
* `computeNormalizedPositions` embeds lines 287-331,
* `setTransitionPermission` embeds lines 74-105,
* `updateScaleValues` / `preservePreviousScaleValues` embed lines 461-483.

JavaScript numbers are modelled by `ℚ` (the pipeline only ever adds,
multiplies, divides, and compares; every claim settled here either avoids
a zero denominator or hypothesises it away, and `undefined`/`NaN`
propagation - which matters for `setTransitionPermission` - is modelled
explicitly with `Option`).  Node objects of the external model
(`TreeNode`) are modelled by the mutual inductive `Tree`/`Forest`; the
methods of `TreeNode` that `Layout.js` calls but that live outside the
given sources (`isVisible`, `isVisibleLeaf`, `minimize`,
`minimizeIfLarge`, `preserveDims`, `parentComponent`) are modelled from
the specification and carry a `Modelled from the spec:` doc comment.
The zoomed element (a reference held by the diagram) is identified by
its child-index path from the model root, which is the structural
counterpart of the `node === this.zoomedElement` reference test.

The two final writes of `_computeColumnWidths` are member writes through
an indexed load (`this.cols[i].width = w`): when the index is outside
`0..maxDepth` the load yields `undefined` and the assignment throws a
`TypeError` - which happens on line 263 whenever the zoomed element is
the model root, where the index is `-1`.  They are modelled by
`jsSetWidth`, which returns `none` for an out-of-range index, and the
failure propagates: `computeColumnWidths` and the whole `layoutPipeline`
return `Option` results, `none` standing for the aborted layout pass.
-/

namespace N2Layout

/-- Normalized box of one node (`node.draw.dims`): x, y, width, height. -/
structure Dims where
  x : ℚ := 0
  y : ℚ := 0
  width : ℚ := 0
  height : ℚ := 0
deriving Repr, DecidableEq

/-- Mutable draw state of one node (`node.draw`, plus the
`textOpacity`/`prevTextOpacity` properties that `Layout` stores on the
node object itself).  `textOpacity` is `none` while the property has
never been assigned (`node.propExists('textOpacity')` is false). -/
structure Draw where
  hidden : Bool := false
  filtered : Bool := false
  minimized : Bool := false
  manuallyExpanded : Bool := false
  numLeaves : ℚ := 0
  nameWidthPx : ℚ := 0
  textOpacity : Option ℚ := none
  prevTextOpacity : ℚ := 0
  dims : Dims := {}
  prevDims : Dims := {}
deriving Repr, DecidableEq

/-- Static data of one model node.  `isInputOrOutput` and `isFilterNode`
model the external `TreeNode.isInputOrOutput()` / `isFilter()` tests,
which depend only on the node kind fixed by model preprocessing. -/
structure NodeData where
  name : String := ""
  absPathName : String := ""
  promotedName : Option String := none
  depth : ℕ := 0
  isInputOrOutput : Bool := false
  isFilterNode : Bool := false
  draw : Draw := {}
deriving Repr, DecidableEq

mutual
/-- A model tree node: its data and its ordered children. -/
inductive Tree where
  | node : NodeData → Forest → Tree
deriving DecidableEq, Repr
/-- An ordered sequence of sibling subtrees (`node.children`). -/
inductive Forest where
  | nil : Forest
  | cons : Tree → Forest → Forest
deriving DecidableEq, Repr
end

/-- Static and draw data of the root of a subtree. -/
def Tree.data : Tree → NodeData
  | .node d _ => d

/-- Children forest of the root of a subtree. -/
def Tree.children : Tree → Forest
  | .node _ cs => cs

/-- Whether a forest is empty (`node.children.length == 0`). -/
def Forest.isEmpty : Forest → Bool
  | .nil => true
  | .cons _ _ => false

/-- Number of trees in a forest. -/
def Forest.length : Forest → ℕ
  | .nil => 0
  | .cons _ fs => 1 + fs.length

/-- Sum of `child.draw.numLeaves` over a forest (the accumulation
performed by the loop in `_computeLeaves`, lines 199-202). -/
def Forest.sumLeaves : Forest → ℚ
  | .nil => 0
  | .cons t fs => t.data.draw.numLeaves + fs.sumLeaves

/-- The external `TreeNode.hasChildren()` test. -/
def Tree.hasChildren (t : Tree) : Bool := !t.children.isEmpty

/-- Modelled from the spec: `TreeNode.isVisible()` is missing from the
given sources; per the spec a hidden or filtered node is not visible and
contributes nothing to the layout. -/
def isVisible (d : Draw) : Bool := !(d.hidden || d.filtered)

/-- Modelled from the spec: `TreeNode.isVisibleLeaf()` is missing from
the given sources; per the spec a "leaf" is a node with no rendered
children under the current collapse state - a true leaf or a minimized
internal node - and it must be visible. -/
def isVisibleLeaf (d : NodeData) (cs : Forest) : Bool :=
  isVisible d.draw && (cs.isEmpty || d.draw.minimized)

/-- Input of the size-based auto-minimize test: the per-node attributes
the heuristic may consult (they are all stable across a layout pass). -/
structure AutoMinInput where
  depth : ℕ
  childCount : ℕ
  manuallyExpanded : Bool
  depthCountAtDepth : ℕ
deriving Repr, DecidableEq

/-- Configuration and model-level inputs of one layout pass: the `size`
sub-records read by `Layout.js`, the model-wide counts consumed by the
auto-collapse policy, the external text-measurement service, and the
auto-minimize heuristic.  Per the spec the exact constants of the
heuristic are configuration, so the test itself is a configuration
function. -/
structure Config where
  matrixHeight : ℚ := 0
  fontSize : ℚ := 0
  minColumnWidth : ℚ := 0
  rightTextMargin : ℚ := 0
  parentNodeWidth : ℚ := 0
  maxDepth : ℕ := 0
  nodeCount : ℕ := 0
  minimumNodes : ℕ := 0
  depthCount : List ℕ := []
  measureText : String → ℚ := fun _ => 0
  autoMinimizeTest : AutoMinInput → Bool := fun _ => false

/-- Collapse-policy step of `_computeLeaves` (lines 191-196): an
`_auto_ivc` node that was not manually expanded is force-minimized
(`node.minimize()`, modelled from the spec as setting the `minimized`
flag); otherwise, if the model node count exceeds the threshold, the
size-based auto-minimize test may set the flag
(`node.minimizeIfLarge(this.model.depthCount[node.depth])`, modelled
from the spec); otherwise the flag is unchanged. -/
def updateMinimized (cfg : Config) (d : NodeData) (cs : Forest) : Bool :=
  if d.name == "_auto_ivc" && !d.draw.manuallyExpanded then true
  else if cfg.nodeCount > cfg.minimumNodes then
    d.draw.minimized ||
      cfg.autoMinimizeTest
        ⟨d.depth, cs.length, d.draw.manuallyExpanded,
         cfg.depthCount.getD d.depth 0⟩
  else d.draw.minimized

mutual
/-- Embedding of `Layout._computeLeaves` (lines 187-208).  The node's
`numLeaves` is first reset to 0; a hidden or filtered node keeps it and
its children are not entered.  Otherwise the collapse policy
`updateMinimized` may set the `minimized` flag; an expanded node then
sums its children's recomputed `numLeaves`; any other node gets
`numLeaves = 1`. -/
def computeLeaves (cfg : Config) (t : Tree) : Tree :=
  match t with
  | .node d cs =>
    if d.draw.hidden || d.draw.filtered then
      .node { d with draw := { d.draw with numLeaves := 0 } } cs
    else
      let minimized' := updateMinimized cfg d cs
      if (!cs.isEmpty) && !minimized' then
        let cs' := computeLeavesForest cfg cs
        .node { d with draw :=
          { d.draw with minimized := minimized', numLeaves := cs'.sumLeaves } } cs'
      else
        .node { d with draw :=
          { d.draw with minimized := minimized', numLeaves := 1 } } cs
termination_by structural t

/-- Children loop of `_computeLeaves` (lines 199-202). -/
def computeLeavesForest (cfg : Config) (fs : Forest) : Forest :=
  match fs with
  | .nil => .nil
  | .cons t ts => .cons (computeLeaves cfg t) (computeLeavesForest cfg ts)
termination_by structural fs
end

/-- Embedding of `Layout.getText` (lines 148-163): the display text of a
node - its name, unless it is the auto-IVC aggregate, a filter node, or
a promoted auto-IVC variable. -/
def getText (d : NodeData) : String :=
  if d.name == "_auto_ivc" then "Auto-IVC"
  else if d.isFilterNode then
    (if d.name.endsWith "_N2_FILTER_inputs" then "Filtered Inputs"
     else "Filtered Outputs")
  else if d.absPathName.startsWith "_auto_ivc" && d.promotedName.isSome then
    d.promotedName.getD d.name
  else d.name

mutual
/-- Embedding of `Layout._updateTextWidths` (lines 169-180): starting
from the zoomed element, set `nameWidthPx` to the measured text width
plus twice the right text margin, skipping hidden nodes entirely and not
entering the children of a minimized node.  The text measurement cache
is invisible here because the external measurement service is modelled
as a pure function. -/
def updateTextWidths (cfg : Config) (t : Tree) : Tree :=
  match t with
  | .node d cs =>
    if d.draw.hidden then .node d cs
    else
      let nw := cfg.measureText (getText d) + 2 * cfg.rightTextMargin
      let cs' :=
        if (!cs.isEmpty) && !d.draw.minimized then updateTextWidthsForest cfg cs
        else cs
      .node { d with draw := { d.draw with nameWidthPx := nw } } cs'
termination_by structural t

/-- Children loop of `_updateTextWidths` (lines 176-178). -/
def updateTextWidthsForest (cfg : Config) (fs : Forest) : Forest :=
  match fs with
  | .nil => .nil
  | .cons t ts => .cons (updateTextWidths cfg t) (updateTextWidthsForest cfg ts)
termination_by structural fs
end

/-- The `i`-th tree of a forest, if any (`node.children[i]`). -/
def forestGet : Forest → ℕ → Option Tree
  | .nil, _ => none
  | .cons t _, 0 => some t
  | .cons _ fs, i + 1 => forestGet fs i

/-- The subtree of `t` reached by following the given child-index path.
This identifies the zoomed element structurally, standing in for the
JavaScript object reference held in `this.zoomedElement`. -/
def subtreeAt (t : Tree) : List ℕ → Option Tree
  | [] => some t
  | i :: rest =>
    match forestGet t.children i with
    | some c => subtreeAt c rest
    | none => none

/-- Replace the `i`-th tree of a forest by applying `g` to it. -/
def forestModify (fs : Forest) (i : ℕ) (g : Tree → Tree) : Forest :=
  match fs, i with
  | .nil, _ => .nil
  | .cons t ts, 0 => .cons (g t) ts
  | .cons t ts, i + 1 => .cons t (forestModify ts i g)

/-- Apply `f` to the subtree at the given child-index path (identity
when the path leaves the tree). -/
def modifyAt (t : Tree) (p : List ℕ) (f : Tree → Tree) : Tree :=
  match p with
  | [] => f t
  | i :: rest =>
    .node t.data (forestModify t.children i (fun c => modifyAt c rest f))

/-- One per-depth column (`this.cols[d]`): pixel width and cumulative
pixel location. -/
structure Col where
  width : ℚ := 0
  location : ℚ := 0
deriving Repr, DecidableEq

/-- Mutable state threaded through the column-width walk: the column
array, the per-depth leaf text widths, and `this.greatestDepth`. -/
structure ColState where
  cols : List Col
  leafWidthsPx : List ℚ
  greatestDepth : ℕ
deriving Repr

/-- Apply `g` to the `i`-th entry of a list, identity when out of
range.  The JavaScript arrays indexed here always have length
`maxDepth + 1` and are indexed by node depths, which a well-formed model
keeps within `0..maxDepth`. -/
def listModify {α : Type} (l : List α) (i : ℕ) (g : α → α) : List α :=
  match l, i with
  | [], _ => []
  | a :: rest, 0 => g a :: rest
  | a :: rest, i + 1 => a :: listModify rest i g

mutual
/-- Embedding of `Layout._setColumnWidthsFromWidestText` (lines
219-240): skip hidden nodes; compute the would-be row height of the node
relative to the zoomed element's leaves, set `textOpacity` (saving the
previous value, 0 when the property never existed), pick the required
width (measured text width when the label shows, else a minimal
placeholder), raise `greatestDepth`, and contribute the width to the
node's column (expanded node, then recurse) or to the per-depth leaf
width (non-filtered leaf). -/
def setColumnWidthsFromWidestText (cfg : Config) (zoomedLeaves : ℚ)
    (t : Tree) (st : ColState) : Tree × ColState :=
  match t with
  | .node d cs =>
    if d.draw.hidden then (.node d cs, st)
    else
      let height := cfg.matrixHeight * d.draw.numLeaves / zoomedLeaves
      let prevOp : ℚ := d.draw.textOpacity.getD 0
      let newOp : ℚ := if height > cfg.fontSize then 1 else 0
      let hasVisibleDetail := height ≥ 2
      let width0 : ℚ := if hasVisibleDetail then cfg.minColumnWidth else 1 / 1000
      let width : ℚ := if newOp > 1 / 2 then d.draw.nameWidthPx else width0
      let st1 := { st with greatestDepth := max st.greatestDepth d.depth }
      let d' := { d with draw :=
        { d.draw with textOpacity := some newOp, prevTextOpacity := prevOp } }
      if (!cs.isEmpty) && !d.draw.minimized then
        let cols' :=
          listModify st1.cols d.depth (fun c => { c with width := max c.width width })
        let (cs', st3) := setColumnWidthsForest cfg zoomedLeaves cs { st1 with cols := cols' }
        (.node d' cs', st3)
      else if !d.draw.filtered then
        let leafW' := listModify st1.leafWidthsPx d.depth (fun w => max w width)
        (.node d' cs, { st1 with leafWidthsPx := leafW' })
      else (.node d' cs, st1)
termination_by structural t

/-- Children loop of `_setColumnWidthsFromWidestText` (lines 233-235). -/
def setColumnWidthsForest (cfg : Config) (zoomedLeaves : ℚ)
    (fs : Forest) (st : ColState) : Forest × ColState :=
  match fs with
  | .nil => (.nil, st)
  | .cons t ts =>
    let (t', st') := setColumnWidthsFromWidestText cfg zoomedLeaves t st
    let (ts', st'') := setColumnWidthsForest cfg zoomedLeaves ts st'
    (.cons t' ts', st'')
termination_by structural fs
end

/-- The member write `this.cols[i].width = w` of lines 263-264.
JavaScript first evaluates the indexed load `this.cols[i]`; at an index
outside `0..length-1` that load yields `undefined`, and assigning to a
property of `undefined` throws a `TypeError` - which happens on line 263
when the zoomed element is the model root, where the index is `-1`.  The
throw is modelled as `none`; at a valid index the width is stored. -/
def jsSetWidth (l : List Col) (i : ℤ) (w : ℚ) : Option (List Col) :=
  if 0 ≤ i ∧ i.toNat < l.length then
    some (listModify l i.toNat (fun c => { c with width := w }))
  else none

/-- Embedding of `Layout._computeColumnWidths` (lines 246-265): run the
width walk from the zoomed element over fresh arrays of length
`maxDepth + 1`, then scan depths from `maxDepth` down to the zoomed
element's depth accumulating column widths and deriving the minimum
rightmost-column width so no leaf label clips, then force the column
left of the zoomed element to the configured parent width and the
greatest-depth column to the derived width.  Each of the two final
writes is a member write through `this.cols[...]` and throws (here:
`none`) when its index is outside the column array - in particular the
parent-width write of line 263 throws whenever the zoomed element is the
model root, whose index `depth - 1` is `-1`.  On success the result is
the updated zoomed subtree (text opacities), the columns, the leaf
widths, and `greatestDepth`. -/
def computeColumnWidths (cfg : Config) (zoomed : Tree) :
    Option (Tree × List Col × List ℚ × ℕ) :=
  let st0 : ColState :=
    ⟨List.replicate (cfg.maxDepth + 1) {}, List.replicate (cfg.maxDepth + 1) 0, 0⟩
  let wr := setColumnWidthsFromWidestText cfg zoomed.data.draw.numLeaves zoomed st0
  let zt := wr.1
  let st := wr.2
  let idxs := ((List.range (cfg.maxDepth + 1)).drop zoomed.data.depth).reverse
  let scan := idxs.foldl
    (fun (acc : ℚ × ℚ) i =>
      let sum := acc.1 + (st.cols.getD i {}).width
      let lastWidthNeeded := st.leafWidthsPx.getD i 0 - sum
      (sum, max lastWidthNeeded acc.2))
    (0, 0)
  match jsSetWidth st.cols ((zoomed.data.depth : ℤ) - 1) cfg.parentNodeWidth with
  | none => none
  | some cols1 =>
    match jsSetWidth cols1 (st.greatestDepth : ℤ) scan.2 with
    | none => none
    | some cols2 => some (zt, cols2, st.leafWidthsPx, st.greatestDepth)

/-- Location-setting loop of `_setColumnLocations` (lines 271-274),
expressed as a traversal of the columns at depths `1..maxDepth` (the
tail of the column list) carrying the running width `obj.width`.
Returns the final running width and the updated columns. -/
def setColLocsAux (acc : ℚ) : List Col → ℚ × List Col
  | [] => (acc, [])
  | c :: rest =>
    let r := setColLocsAux (acc + c.width) rest
    (r.1, { c with location := acc } :: r.2)

/-- Embedding of `Layout._setColumnLocations` (lines 268-275): reset the
partition-tree width to 0, then for each depth `1..maxDepth` set the
column's location to the running width and add the column's width to it.
The first component of the result is the final `obj.width` (the new
`size.partitionTree.width`); column 0 is never visited by the loop. -/
def setColumnLocations (cols : List Col) : ℚ × List Col :=
  match cols with
  | [] => (0, [])
  | c0 :: rest =>
    let r := setColLocsAux 0 rest
    (r.1, c0 :: r.2)

/-- The data of `workNode` (line 303) needed by the dims formulas: the
depth, the already-computed `draw.dims.x`, and the `draw.numLeaves` of
the effective node (the node itself, or its earliest minimized
ancestor). -/
structure WorkInfo where
  depth : ℕ
  dimsX : ℚ
  numLeaves : ℚ
deriving Repr, DecidableEq

/-- Fixed inputs of the position pass: the columns, the partition-tree
pixel width set by `_setColumnLocations`, and `model.root.draw.numLeaves`. -/
structure PosEnv where
  cols : List Col
  treeWidth : ℚ
  rootLeaves : ℚ
deriving Repr

/-- The `zoomedNodes` and `visibleNodes` sequences collected by the
position pass, as absolute path names. -/
structure PosAcc where
  zoomedNodes : List String
  visibleNodes : List String
deriving Repr, DecidableEq

/-- Location of column `i` (`this.cols[i].location`). -/
def colLoc (env : PosEnv) (i : ℕ) : ℚ := (env.cols.getD i {}).location

/-- Width of column `i` (`this.cols[i].width`). -/
def colWidth (env : PosEnv) (i : ℕ) : ℚ := (env.cols.getD i {}).width

mutual
/-- Embedding of `Layout._computeNormalizedPositions` (lines 287-331).
Arguments mirror the source: the running leaf counter, whether an
ancestor (or the node itself) is the zoomed element, the earliest
minimized ancestor (as its `WorkInfo`), and additionally the depth and
the freshly computed normalized y of the parent component (modelled from
the spec: `node.parentComponent` is missing from the given sources; per
the spec an input/output leaving view is positioned at its parent
component, the node's parent, whose dims were just computed because the
traversal is pre-order).  `zrem` is the remaining child-index path to
the zoomed element (`some []` exactly at the zoomed element itself,
mirroring `node === this.zoomedElement`).  `node.preserveDims` is
modelled from the spec as snapshotting the current dims into the
previous dims. -/
def computeNormalizedPositions (env : PosEnv) (t : Tree) (leafCounter : ℚ)
    (isChildOfZoomed : Bool) (emp : Option WorkInfo) (pDepth : ℕ) (pY : ℚ)
    (zrem : Option (List ℕ)) (acc : PosAcc) : Tree × PosAcc :=
  match t with
  | .node d cs =>
    let icz := isChildOfZoomed || zrem == some ([] : List ℕ)
    let selfWork : WorkInfo :=
      ⟨d.depth, colLoc env d.depth / env.treeWidth, d.draw.numLeaves⟩
    let stepAcc : Option WorkInfo × PosAcc :=
      if emp.isNone && icz && isVisible d.draw then
        let acc1 := { acc with zoomedNodes := acc.zoomedNodes ++ [d.absPathName] }
        if isVisibleLeaf d cs then
          let acc2 :=
            if !d.draw.hidden then
              { acc1 with visibleNodes := acc1.visibleNodes ++ [d.absPathName] }
            else acc1
          (some selfWork, acc2)
        else (none, acc1)
      else (emp, acc)
    let emp' := stepAcc.1
    let acc' := stepAcc.2
    let dims : Dims :=
      if !isVisible d.draw then
        { x := colLoc env (pDepth + 1) / env.treeWidth, y := pY,
          width := 1 / 1000000, height := 1 / 1000000 }
      else
        let w := emp'.getD selfWork
        { x := colLoc env w.depth / env.treeWidth,
          y := leafCounter / env.rootLeaves,
          width :=
            if (!cs.isEmpty) && !d.draw.minimized && !d.draw.filtered then
              colWidth env w.depth / env.treeWidth
            else 1 - w.dimsX,
          height := w.numLeaves / env.rootLeaves }
    let d' := { d with draw := { d.draw with dims := dims, prevDims := d.draw.dims } }
    let r := computeNormalizedPositionsForest env cs leafCounter icz emp'
      d.depth dims.y zrem 0 acc'
    (.node d' r.1, r.2)
termination_by structural t

/-- Children loop of `_computeNormalizedPositions` (lines 320-330): a
child that is an input/output and minimized is skipped entirely (its
dims stay whatever they were); the leaf counter advances by the child's
`numLeaves` only while no earliest minimized ancestor is active.  `i` is
the index of the first tree of `fs` among its siblings, used to compute
the remaining zoomed path of each child. -/
def computeNormalizedPositionsForest (env : PosEnv) (fs : Forest)
    (leafCounter : ℚ) (icz : Bool) (emp : Option WorkInfo) (pDepth : ℕ)
    (pY : ℚ) (zrem : Option (List ℕ)) (i : ℕ) (acc : PosAcc) :
    Forest × PosAcc :=
  match fs with
  | .nil => (.nil, acc)
  | .cons c rest =>
    if !(c.data.isInputOrOutput && c.data.draw.minimized) then
      let zremc : Option (List ℕ) :=
        match zrem with
        | some (j :: r) => if j == i then some r else none
        | _ => none
      let rc := computeNormalizedPositions env c leafCounter icz emp pDepth pY zremc acc
      let leafCounter' :=
        if emp.isNone then leafCounter + c.data.draw.numLeaves else leafCounter
      let rr := computeNormalizedPositionsForest env rest leafCounter' icz emp
        pDepth pY zrem (i + 1) rc.2
      (.cons rc.1 rr.1, rr.2)
    else
      let rr := computeNormalizedPositionsForest env rest leafCounter icz emp
        pDepth pY zrem (i + 1) acc
      (.cons c rr.1, rr.2)
termination_by structural fs
end

/-- Result of one geometry pass of `Layout._init` (lines 43-65, up to
and including `_computeNormalizedPositions`): the fully updated model
tree, the columns with widths and locations, the per-depth leaf widths,
`greatestDepth`, the new partition-tree width, and the collected node
sequences. -/
structure LayoutState where
  tree : Tree
  cols : List Col
  leafWidthsPx : List ℚ
  greatestDepth : ℕ
  partitionTreeWidth : ℚ
  zoomedNodes : List String
  visibleNodes : List String

/-- Embedding of the geometry portion of `Layout._init` (lines 43-53):
`_computeLeaves` from the model root, `_updateTextWidths` from the
zoomed element, `_computeColumnWidths` from the zoomed element,
`_setColumnLocations`, then `_computeNormalizedPositions` from the model
root; finally the zoomed element's parent is appended to `zoomedNodes`
when it exists.  `zpath` is the child-index path of the zoomed element
below the model root.  When `_computeColumnWidths` throws (a `TypeError`
from a member write at an out-of-range column index, notably with a
depth-0 zoomed element), the exception propagates: the whole pass
aborts with `none` and the later stages never run. -/
def layoutPipeline (cfg : Config) (zpath : List ℕ) (t : Tree) :
    Option LayoutState :=
  let t1 := computeLeaves cfg t
  let t2 := modifyAt t1 zpath (updateTextWidths cfg)
  let zoomed := (subtreeAt t2 zpath).getD t2
  match computeColumnWidths cfg zoomed with
  | none => none
  | some cw =>
    let t3 := modifyAt t2 zpath (fun _ => cw.1)
    let locs := setColumnLocations cw.2.1
    let env : PosEnv := ⟨locs.2, locs.1, t3.data.draw.numLeaves⟩
    let r := computeNormalizedPositions env t3 0 false none 0 0 (some zpath) ⟨[], []⟩
    let zoomedNodes :=
      if zpath.isEmpty then r.2.zoomedNodes
      else
        match subtreeAt r.1 zpath.dropLast with
        | some p => r.2.zoomedNodes ++ [p.data.absPathName]
        | none => r.2.zoomedNodes
    some ⟨r.1, locs.2, cw.2.2.1, cw.2.2.2, locs.1, zoomedNodes, r.2.visibleNodes⟩

/-- Dims of the node at a child-index path in a computed layout. -/
def dimsAt (st : LayoutState) (p : List ℕ) : Option Dims :=
  (subtreeAt st.tree p).map (fun s => s.data.draw.dims)

/-- Value of `numLeaves` of the node at a child-index path. -/
def numLeavesAt (t : Tree) (p : List ℕ) : Option ℚ :=
  (subtreeAt t p).map (fun s => s.data.draw.numLeaves)

/-- State read and written by `setTransitionPermission`.  JavaScript
numbers that may still be `undefined` are `Option ℕ`:
`this.visibleNodeCount` is never initialized by the constructor (which
initializes the differently named `curVisibleNodeCount` instead), so it
is `undefined` until the first call assigns it.  `transitionAllowed`
models `d3.selection.prototype.transitionAllowed`, which starts out
undefined (falsy). -/
structure TransState where
  curVisibleNodeCount : ℕ
  prevVisibleNodeCount : Option ℕ
  visibleNodeCount : Option ℕ
  transitionAllowed : Bool
deriving Repr, DecidableEq

/-- The fields of a freshly constructed `Layout` relevant to
`setTransitionPermission` (constructor lines 33-34): the constructor
assigns `curVisibleNodeCount = 0` and `prevVisibleNodeCount = 0` but
never `visibleNodeCount`. -/
def initialTransState : TransState :=
  { curVisibleNodeCount := 0, prevVisibleNodeCount := some 0,
    visibleNodeCount := none, transitionAllowed := false }

/-- JavaScript `Math.max(a, cur) >= m` where `a` may be `undefined`:
`Math.max(undefined, cur)` is `NaN`, and every comparison against `NaN`
is false. -/
def jsHighWaterAtLeast (a : Option ℕ) (cur m : ℕ) : Bool :=
  match a with
  | none => false
  | some p => m ≤ max p cur

/-- Embedding of `Layout.setTransitionPermission` (lines 74-105):
`prevVisibleNodeCount` is overwritten with the (possibly undefined)
`visibleNodeCount`, `visibleNodeCount` becomes the current number of
visible nodes, and the high-water mark of the two is compared against
`N2TransitionDefaults.maxNodes`: at or above the maximum transitions are
denied, otherwise (including the `NaN` comparison on the first call)
they are enabled.  The d3 method swapping is represented by the final
value of the `transitionAllowed` flag, which the early returns in both
branches leave exactly at `false` when denied and `true` when
allowed. -/
def setTransitionPermission (maxNodes : ℕ) (visibleNodesLen : ℕ)
    (st : TransState) : TransState :=
  let prev := st.visibleNodeCount
  if jsHighWaterAtLeast prev visibleNodesLen maxNodes then
    { st with prevVisibleNodeCount := prev,
              visibleNodeCount := some visibleNodesLen,
              transitionAllowed := false }
  else
    { st with prevVisibleNodeCount := prev,
              visibleNodeCount := some visibleNodesLen,
              transitionAllowed := true }

/-- Modelled from the spec: the external `Scale` class keeps linear x/y
mappings as domain/range interval endpoints; `preserve` copies the
current mapping into the previous one. -/
structure LinMap where
  domLo : ℚ := 0
  domHi : ℚ := 0
  rangeLo : ℚ := 0
  rangeHi : ℚ := 0
deriving Repr, DecidableEq

/-- Modelled from the spec: the `this.scales` record - current and
previous x/y linear mappings plus the first-run marker set by
`_init`. -/
structure ScalesState where
  x : LinMap := {}
  y : LinMap := {}
  prevX : LinMap := {}
  prevY : LinMap := {}
  firstRun : Bool := true
deriving Repr, DecidableEq

/-- Modelled from the spec: the `this.transitCoords` record - current
and previous x/y transit coordinates (`Dimensions` instances whose
`preserve` copies current into previous). -/
structure TransitState where
  x : ℚ := 0
  y : ℚ := 0
  prevX : ℚ := 0
  prevY : ℚ := 0
deriving Repr, DecidableEq

/-- Embedding of `Layout.preservePreviousScaleValues` (lines 461-464):
copy the current transit coordinates and linear scalers into the
previous ones. -/
def preservePreviousScaleValues (s : ScalesState) (tc : TransitState) :
    ScalesState × TransitState :=
  ({ s with prevX := s.x, prevY := s.y },
   { tc with prevX := tc.x, prevY := tc.y })

/-- Embedding of `Layout.updateScaleValues` (lines 466-483): preserve
the previous mappings unless this is the first run, then recompute the
transit coordinates and the x/y mappings from the zoomed element's dims
and the partition-tree pixel size.  The JavaScript truthiness test
`elemDims.x ? ... : ...` is `x ≠ 0`. -/
def updateScaleValues (parentNodeWidth treeW treeH : ℚ) (elemDims : Dims)
    (s : ScalesState) (tc : TransitState) : ScalesState × TransitState :=
  let p := if !s.firstRun then preservePreviousScaleValues s tc else (s, tc)
  let s1 := p.1
  let tc1 := p.2
  let tcx := (if elemDims.x ≠ 0 then treeW - parentNodeWidth else treeW) /
    (1 - elemDims.x)
  let tcy := treeH / elemDims.height
  let sx : LinMap :=
    { domLo := elemDims.x, domHi := 1,
      rangeLo := if elemDims.x ≠ 0 then parentNodeWidth else 0, rangeHi := treeW }
  let sy : LinMap :=
    { domLo := elemDims.y, domHi := elemDims.y + elemDims.height,
      rangeLo := 0, rangeHi := treeH }
  ({ s1 with x := sx, y := sy }, { tc1 with x := tcx, y := tcy })

/-- C2 witness columns: three columns of width zero. -/
def c2WitnessCols : List Col := [⟨0, 0⟩, ⟨0, 0⟩, ⟨0, 0⟩]

/-- C4 counterexample state: a layout whose previous pass recorded 5
visible nodes. -/
def c4State : TransState :=
  { curVisibleNodeCount := 5, prevVisibleNodeCount := some 0,
    visibleNodeCount := some 5, transitionAllowed := true }

mutual
/-- Invariant that `_computeLeaves` establishes on every node it
actually visits: a hidden/filtered node has `numLeaves = 0`; a visible
expanded node has `numLeaves` equal to the sum of its children's
`numLeaves` and its children are visited in turn; a visible node that is
a leaf, or minimized, has `numLeaves = 1`.  Nothing is asserted below a
hidden/filtered node or inside a minimized subtree, whose nodes the pass
never enters. -/
def VisitedInv : Tree → Prop
  | .node d cs =>
    (isVisible d.draw = false → d.draw.numLeaves = 0) ∧
    (isVisible d.draw = true → cs.isEmpty = false → d.draw.minimized = false →
      d.draw.numLeaves = cs.sumLeaves ∧ VisitedInvForest cs) ∧
    (isVisible d.draw = true → (cs.isEmpty = true ∨ d.draw.minimized = true) →
      d.draw.numLeaves = 1)

/-- `VisitedInv` for every tree of a forest. -/
def VisitedInvForest : Forest → Prop
  | .nil => True
  | .cons t fs => VisitedInv t ∧ VisitedInvForest fs
end

/-- The draw-state write `node.draw.numLeaves = q` (with a possibly
updated `minimized` flag), used to state unfoldings of `computeLeaves`
without nested structure-update literals. -/
def withLeaves (d : NodeData) (m : Bool) (q : ℚ) : NodeData :=
  { d with draw := { d.draw with minimized := m, numLeaves := q } }

/-- The draw-state write `node.draw.numLeaves = 0` alone. -/
def withZeroLeaves (d : NodeData) : NodeData :=
  { d with draw := { d.draw with numLeaves := 0 } }

/-- C1 counterexample input: an `_auto_ivc` root (never manually
expanded, hence force-minimized by the pass) with a visible true-leaf
child whose stale `numLeaves` is 0. -/
def c1Tree : Tree :=
  .node { name := "_auto_ivc", absPathName := "_auto_ivc", depth := 0 }
    (.cons (.node { name := "a", absPathName := "_auto_ivc.a", depth := 1 } .nil) .nil)

/-- Concrete configuration for the C7 counterexample model: matrix
height 100, font threshold 10, margin 0, parent width 10, maximum depth
2, every label measured 10px wide. -/
def exCfg : Config :=
  { matrixHeight := 100, fontSize := 10, minColumnWidth := 5,
    rightTextMargin := 0, parentNodeWidth := 10, maxDepth := 2,
    measureText := fun _ => 10 }

/-- Shared configuration for the concrete counterexample model `mTree`:
matrix height 100, font threshold 10, margin 0, reserved parent width
50, maximum depth 2, every label measured 10px wide. -/
def mCfg : Config :=
  { matrixHeight := 100, fontSize := 10, minColumnWidth := 5,
    rightTextMargin := 0, parentNodeWidth := 50, maxDepth := 2,
    measureText := fun _ => 10 }

/-- Shared counterexample model, laid out zoomed at the depth-1
component "c" (child path `[0]`, a crash-free zoom: the parent-width
write of line 263 lands at the valid column index 0): the root "r"
holds the component "c" - with a visible leaf "a" and a hidden input
"v" - and a minimized group "m" with two leaf children "u" and "w". -/
def mTree : Tree :=
  .node { name := "r", absPathName := "r", depth := 0 }
    (.cons
      (.node { name := "c", absPathName := "r.c", depth := 1 }
        (.cons (.node { name := "a", absPathName := "r.c.a", depth := 2 } .nil)
          (.cons
            (.node { name := "v", absPathName := "r.c.v", depth := 2,
                     isInputOrOutput := true, draw := { hidden := true } }
              .nil)
            .nil)))
      (.cons
        (.node { name := "m", absPathName := "r.m", depth := 1,
                 draw := { minimized := true } }
          (.cons (.node { name := "u", absPathName := "r.m.u", depth := 2 } .nil)
            (.cons (.node { name := "w", absPathName := "r.m.w", depth := 2 } .nil)
              .nil)))
        .nil))

/-- `mTree` after `computeLeaves`: the hidden "v" counts 0, the
minimized "m" counts 1 despite its two descendant leaves (which are not
visited and keep their stale counts), the root totals 2. -/
def mT1 : Tree :=
  .node { name := "r", absPathName := "r", depth := 0, draw := { numLeaves := 2 } }
    (.cons
      (.node { name := "c", absPathName := "r.c", depth := 1,
               draw := { numLeaves := 1 } }
        (.cons
          (.node { name := "a", absPathName := "r.c.a", depth := 2,
                   draw := { numLeaves := 1 } }
            .nil)
          (.cons
            (.node { name := "v", absPathName := "r.c.v", depth := 2,
                     isInputOrOutput := true, draw := { hidden := true } }
              .nil)
            .nil)))
      (.cons
        (.node { name := "m", absPathName := "r.m", depth := 1,
                 draw := { minimized := true, numLeaves := 1 } }
          (.cons (.node { name := "u", absPathName := "r.m.u", depth := 2 } .nil)
            (.cons (.node { name := "w", absPathName := "r.m.w", depth := 2 } .nil)
              .nil)))
        .nil))

/-- `mT1` after `_updateTextWidths` from the zoomed element "c" (the
hidden "v" is skipped, nodes outside the zoomed subtree untouched). -/
def mT2 : Tree :=
  .node { name := "r", absPathName := "r", depth := 0, draw := { numLeaves := 2 } }
    (.cons
      (.node { name := "c", absPathName := "r.c", depth := 1,
               draw := { numLeaves := 1, nameWidthPx := 10 } }
        (.cons
          (.node { name := "a", absPathName := "r.c.a", depth := 2,
                   draw := { numLeaves := 1, nameWidthPx := 10 } }
            .nil)
          (.cons
            (.node { name := "v", absPathName := "r.c.v", depth := 2,
                     isInputOrOutput := true, draw := { hidden := true } }
              .nil)
            .nil)))
      (.cons
        (.node { name := "m", absPathName := "r.m", depth := 1,
                 draw := { minimized := true, numLeaves := 1 } }
          (.cons (.node { name := "u", absPathName := "r.m.u", depth := 2 } .nil)
            (.cons (.node { name := "w", absPathName := "r.m.w", depth := 2 } .nil)
              .nil)))
        .nil))

/-- The zoomed subtree of `mT2` (rooted at "c"). -/
def mG2 : Tree :=
  .node { name := "c", absPathName := "r.c", depth := 1,
          draw := { numLeaves := 1, nameWidthPx := 10 } }
    (.cons
      (.node { name := "a", absPathName := "r.c.a", depth := 2,
               draw := { numLeaves := 1, nameWidthPx := 10 } }
        .nil)
      (.cons
        (.node { name := "v", absPathName := "r.c.v", depth := 2,
                 isInputOrOutput := true, draw := { hidden := true } }
          .nil)
        .nil))

/-- `mG2` after the column-width walk (text opacities set on the
non-hidden nodes). -/
def mG3 : Tree :=
  .node { name := "c", absPathName := "r.c", depth := 1,
          draw := { numLeaves := 1, nameWidthPx := 10, textOpacity := some 1 } }
    (.cons
      (.node { name := "a", absPathName := "r.c.a", depth := 2,
               draw := { numLeaves := 1, nameWidthPx := 10, textOpacity := some 1 } }
        .nil)
      (.cons
        (.node { name := "v", absPathName := "r.c.v", depth := 2,
                 isInputOrOutput := true, draw := { hidden := true } }
          .nil)
        .nil))

/-- The full tree fed to the position pass of the zoomed-at-"c" layout:
`mT2` with the zoomed subtree replaced by `mG3`. -/
def mT3 : Tree :=
  .node { name := "r", absPathName := "r", depth := 0, draw := { numLeaves := 2 } }
    (.cons mG3
      (.cons
        (.node { name := "m", absPathName := "r.m", depth := 1,
                 draw := { minimized := true, numLeaves := 1 } }
          (.cons (.node { name := "u", absPathName := "r.m.u", depth := 2 } .nil)
            (.cons (.node { name := "w", absPathName := "r.m.w", depth := 2 } .nil)
              .nil)))
        .nil))

/-- `mT3` after `_computeNormalizedPositions` with columns of widths
`[50, 10, 10]` and locations `[0, 0, 10]`, tree width 20, 2 root
leaves: the root's normalized width is `50/20 = 5/2` (column 0 is not
part of the cumulative tree width), the hidden "v" sits at the column
of depth `parent.depth + 1 = 2` (normalized x `1/2`, not its parent's
0), and the minimized "m" spans one leaf row of height `1/2`. -/
def mT4 : Tree :=
  .node
    { name := "r", absPathName := "r", depth := 0,
      draw := { numLeaves := 2,
                dims := { x := 0, y := 0, width := 5/2, height := 1 } } }
    (.cons
      (.node
        { name := "c", absPathName := "r.c", depth := 1,
          draw := { numLeaves := 1, nameWidthPx := 10, textOpacity := some 1,
                    dims := { x := 0, y := 0, width := 1/2, height := 1/2 } } }
        (.cons
          (.node
            { name := "a", absPathName := "r.c.a", depth := 2,
              draw := { numLeaves := 1, nameWidthPx := 10, textOpacity := some 1,
                        dims := { x := 1/2, y := 0, width := 1/2, height := 1/2 } } }
            .nil)
          (.cons
            (.node
              { name := "v", absPathName := "r.c.v", depth := 2,
                isInputOrOutput := true,
                draw := { hidden := true,
                          dims := { x := 1/2, y := 0, width := 1/1000000,
                                    height := 1/1000000 } } }
              .nil)
            .nil)))
      (.cons
        (.node
          { name := "m", absPathName := "r.m", depth := 1,
            draw := { minimized := true, numLeaves := 1,
                      dims := { x := 0, y := 1/2, width := 1, height := 1/2 } } }
          (.cons
            (.node
              { name := "u", absPathName := "r.m.u", depth := 2,
                draw := { dims := { x := 1/2, y := 1/2, width := 1/2,
                                    height := 0 } } }
              .nil)
            (.cons
              (.node
                { name := "w", absPathName := "r.m.w", depth := 2,
                  draw := { dims := { x := 1/2, y := 1/2, width := 1/2,
                                      height := 0 } } }
                .nil)
              .nil)))
        .nil))

/-- The full layout state produced by `layoutPipeline mCfg [0] mTree`. -/
def mState : LayoutState :=
  ⟨mT4, [⟨50, 0⟩, ⟨10, 0⟩, ⟨10, 10⟩], [0, 0, 10], 2, 20,
   ["r.c", "r.c.a", "r"], ["r.c.a"]⟩

/-- C7 counterexample model: root "r" holding a group "g" with one leaf
"l"; the layout is zoomed at "g" (child path `[0]`), which is not the
root. -/
def c7Tree : Tree :=
  .node { name := "r", absPathName := "r", depth := 0 }
    (.cons
      (.node { name := "g", absPathName := "r.g", depth := 1 }
        (.cons (.node { name := "l", absPathName := "r.g.l", depth := 2 } .nil) .nil))
      .nil)

/-- `c7Tree` after `computeLeaves`. -/
def c7T1 : Tree :=
  .node { name := "r", absPathName := "r", depth := 0, draw := { numLeaves := 1 } }
    (.cons
      (.node { name := "g", absPathName := "r.g", depth := 1, draw := { numLeaves := 1 } }
        (.cons
          (.node { name := "l", absPathName := "r.g.l", depth := 2,
                   draw := { numLeaves := 1 } }
            .nil)
          .nil))
      .nil)

/-- The zoomed subtree of `c7T1` (rooted at "g") after
`_updateTextWidths`; the root "r" outside the zoomed subtree keeps its
pristine name width. -/
def c7G2 : Tree :=
  .node
    { name := "g", absPathName := "r.g", depth := 1,
      draw := { numLeaves := 1, nameWidthPx := 10 } }
    (.cons
      (.node
        { name := "l", absPathName := "r.g.l", depth := 2,
          draw := { numLeaves := 1, nameWidthPx := 10 } }
        .nil)
      .nil)

/-- `c7G2` after the column-width walk. -/
def c7G3 : Tree :=
  .node
    { name := "g", absPathName := "r.g", depth := 1,
      draw := { numLeaves := 1, nameWidthPx := 10, textOpacity := some 1 } }
    (.cons
      (.node
        { name := "l", absPathName := "r.g.l", depth := 2,
          draw := { numLeaves := 1, nameWidthPx := 10, textOpacity := some 1 } }
        .nil)
      .nil)

/-- The full tree fed to the position pass for the zoomed-at-"g"
layout: the pristine root with the column-walked zoomed subtree. -/
def c7T3 : Tree :=
  .node { name := "r", absPathName := "r", depth := 0, draw := { numLeaves := 1 } }
    (.cons c7G3 .nil)

/-- `c7T3` after `_computeNormalizedPositions`: the zoomed element "g"
has normalized `x = 0` although it is not the root (its column location
`cols[1].location` is 0). -/
def c7T4 : Tree :=
  .node
    { name := "r", absPathName := "r", depth := 0,
      draw := { numLeaves := 1,
                dims := { x := 0, y := 0, width := 1/2, height := 1 } } }
    (.cons
      (.node
        { name := "g", absPathName := "r.g", depth := 1,
          draw := { numLeaves := 1, nameWidthPx := 10, textOpacity := some 1,
                    dims := { x := 0, y := 0, width := 1/2, height := 1 } } }
        (.cons
          (.node
            { name := "l", absPathName := "r.g.l", depth := 2,
              draw := { numLeaves := 1, nameWidthPx := 10, textOpacity := some 1,
                        dims := { x := 1/2, y := 0, width := 1/2, height := 1 } } }
            .nil)
          .nil))
      .nil)

/-- `c7T1` with the zoomed subtree replaced by its text-width update:
the tree after `_updateTextWidths` runs from the zoomed element "g". -/
def c7T2 : Tree :=
  .node { name := "r", absPathName := "r", depth := 0, draw := { numLeaves := 1 } }
    (.cons c7G2 .nil)

/-- The full layout state produced by `layoutPipeline exCfg [0] c7Tree`
(a crash-free zoom at depth 1: the parent-width write lands at column
0). -/
def c7State : LayoutState :=
  ⟨c7T4, [⟨10, 0⟩, ⟨10, 0⟩, ⟨10, 10⟩], [0, 0, 10], 2, 20,
   ["r.g", "r.g.l", "r"], ["r.g.l"]⟩

/-! Machinery for the idempotence analysis (C8): projection views of a
tree that keep exactly the fields one family of passes reads or leaves
alone, so that "two trees agree on those fields" is an equality of
views, and the plumbing lemmas relating the views to `subtreeAt` and
`modifyAt`. -/

/-- The collapse-relevant data of a node: the static fields plus the
draw flags and `numLeaves` - everything `_computeLeaves` reads or
writes; the text, opacity and geometry fields are scrubbed. -/
def coreData (d : NodeData) : NodeData :=
  { name := d.name, absPathName := d.absPathName,
    promotedName := d.promotedName, depth := d.depth,
    isInputOrOutput := d.isInputOrOutput, isFilterNode := d.isFilterNode,
    draw := { hidden := d.draw.hidden, filtered := d.draw.filtered,
              minimized := d.draw.minimized,
              manuallyExpanded := d.draw.manuallyExpanded,
              numLeaves := d.draw.numLeaves } }

/-- `coreData` plus `nameWidthPx`: everything the column-width walk's
state output depends on. -/
def textData (d : NodeData) : NodeData :=
  { name := d.name, absPathName := d.absPathName,
    promotedName := d.promotedName, depth := d.depth,
    isInputOrOutput := d.isInputOrOutput, isFilterNode := d.isFilterNode,
    draw := { hidden := d.draw.hidden, filtered := d.draw.filtered,
              minimized := d.draw.minimized,
              manuallyExpanded := d.draw.manuallyExpanded,
              numLeaves := d.draw.numLeaves,
              nameWidthPx := d.draw.nameWidthPx } }

/-- Only the computed dims of a node - the geometry the position pass
writes; every other field is scrubbed. -/
def dimsData (d : NodeData) : NodeData :=
  { draw := { dims := d.draw.dims } }

mutual
/-- Collapse-relevant view of a whole tree (`coreData` nodewise). -/
def coreView (t : Tree) : Tree :=
  match t with
  | .node d cs => .node (coreData d) (coreViewF cs)
termination_by structural t
/-- Collapse-relevant view of a forest. -/
def coreViewF (fs : Forest) : Forest :=
  match fs with
  | .nil => .nil
  | .cons t ts => .cons (coreView t) (coreViewF ts)
termination_by structural fs
end

mutual
/-- Column-relevant view of a whole tree (`textData` nodewise). -/
def textView (t : Tree) : Tree :=
  match t with
  | .node d cs => .node (textData d) (textViewF cs)
termination_by structural t
/-- Column-relevant view of a forest. -/
def textViewF (fs : Forest) : Forest :=
  match fs with
  | .nil => .nil
  | .cons t ts => .cons (textView t) (textViewF ts)
termination_by structural fs
end

mutual
/-- Geometry view of a whole tree (`dimsData` nodewise). -/
def dimsView (t : Tree) : Tree :=
  match t with
  | .node d cs => .node (dimsData d) (dimsViewF cs)
termination_by structural t
/-- Geometry view of a forest. -/
def dimsViewF (fs : Forest) : Forest :=
  match fs with
  | .nil => .nil
  | .cons t ts => .cons (dimsView t) (dimsViewF ts)
termination_by structural fs
end

/-- Opacity update that `_setColumnWidthsFromWidestText` performs on one
visited node: the new `textOpacity` and the saved previous one. -/
def walkNodeData (cfg : Config) (zl : ℚ) (d : NodeData) : NodeData :=
  { d with draw := { d.draw with
      textOpacity :=
        some (if cfg.matrixHeight * d.draw.numLeaves / zl > cfg.fontSize then (1 : ℚ) else 0),
      prevTextOpacity := d.draw.textOpacity.getD 0 } }

/-- Candidate width the walk derives for one visited node. -/
def walkWidth (cfg : Config) (zl : ℚ) (d : NodeData) : ℚ :=
  if (if cfg.matrixHeight * d.draw.numLeaves / zl > cfg.fontSize then (1 : ℚ) else 0) > 1 / 2
  then d.draw.nameWidthPx
  else if cfg.matrixHeight * d.draw.numLeaves / zl ≥ 2 then cfg.minColumnWidth
  else 1 / 1000

/-- State after one visited node's `greatestDepth` bookkeeping. -/
def walkSt1 (d : NodeData) (st : ColState) : ColState :=
  { st with greatestDepth := max st.greatestDepth d.depth }

/-- State passed to the children of an expanded visited node: its
column widened to the node's candidate width. -/
def walkStExp (cfg : Config) (zl : ℚ) (d : NodeData) (st : ColState) : ColState :=
  let cols' := listModify (walkSt1 d st).cols d.depth
    (fun c => { c with width := max c.width (walkWidth cfg zl d) })
  { walkSt1 d st with cols := cols' }

/-- State after a non-filtered visited leaf: its per-depth leaf width
raised to the node's candidate width. -/
def walkStLeaf (cfg : Config) (zl : ℚ) (d : NodeData) (st : ColState) : ColState :=
  let lw' := listModify (walkSt1 d st).leafWidthsPx d.depth
    (fun w => max w (walkWidth cfg zl d))
  { walkSt1 d st with leafWidthsPx := lw' }

/-- The structure-update write of `_updateTextWidths` on one node. -/
def withNameWidth (d : NodeData) (v : ℚ) : NodeData :=
  { d with draw := { d.draw with nameWidthPx := v } }

mutual
/-- A tree is collapse-stable when every node `_computeLeaves` would
visit already holds the flag and count the pass would store: running the
pass on such a tree is the identity, and the pass always produces such a
tree. -/
def LeavesStable (cfg : Config) (t : Tree) : Prop :=
  match t with
  | .node d cs =>
    ((d.draw.hidden || d.draw.filtered) = true → d.draw.numLeaves = 0) ∧
    ((d.draw.hidden || d.draw.filtered) = false →
      updateMinimized cfg d cs = d.draw.minimized ∧
      (((!cs.isEmpty) && !d.draw.minimized) = true →
        d.draw.numLeaves = cs.sumLeaves ∧ LeavesStableF cfg cs) ∧
      (((!cs.isEmpty) && !d.draw.minimized) = false → d.draw.numLeaves = 1))
termination_by structural t
/-- Collapse stability of every tree of a forest. -/
def LeavesStableF (cfg : Config) (fs : Forest) : Prop :=
  match fs with
  | .nil => True
  | .cons t ts => LeavesStable cfg t ∧ LeavesStableF cfg ts
termination_by structural fs
end

mutual
/-- A tree is text-stable when every node `_updateTextWidths` would
visit already holds the measured name width the pass would store. -/
def TextStable (cfg : Config) (t : Tree) : Prop :=
  match t with
  | .node d cs =>
    d.draw.hidden = false →
      d.draw.nameWidthPx = cfg.measureText (getText d) + 2 * cfg.rightTextMargin ∧
      (((!cs.isEmpty) && !d.draw.minimized) = true → TextStableF cfg cs)
termination_by structural t
/-- Text stability of every tree of a forest. -/
def TextStableF (cfg : Config) (fs : Forest) : Prop :=
  match fs with
  | .nil => True
  | .cons t ts => TextStable cfg t ∧ TextStableF cfg ts
termination_by structural fs
end

/-- Stage 1 of `layoutPipeline`: the collapse pass from the root. -/
def pipeT1 (cfg : Config) (t : Tree) : Tree := computeLeaves cfg t

/-- Stage 2 of `layoutPipeline`: text widths from the zoomed element. -/
def pipeT2 (cfg : Config) (zpath : List ℕ) (t : Tree) : Tree :=
  modifyAt (pipeT1 cfg t) zpath (updateTextWidths cfg)

/-- The zoomed element as `layoutPipeline` resolves it. -/
def pipeZ2 (cfg : Config) (zpath : List ℕ) (t : Tree) : Tree :=
  (subtreeAt (pipeT2 cfg zpath t) zpath).getD (pipeT2 cfg zpath t)

/-- Stage 3 of `layoutPipeline`: the column-width computation (`none`
when one of its member writes throws). -/
def pipeCW (cfg : Config) (zpath : List ℕ) (t : Tree) :
    Option (Tree × List Col × List ℚ × ℕ) :=
  computeColumnWidths cfg (pipeZ2 cfg zpath t)

/-- The model tree after the zoomed subtree's opacity updates, given
the successful column-width result `cw`. -/
def pipeT3 (cfg : Config) (zpath : List ℕ) (t : Tree)
    (cw : Tree × List Col × List ℚ × ℕ) : Tree :=
  modifyAt (pipeT2 cfg zpath t) zpath (fun _ => cw.1)

/-- Stage 4 of `layoutPipeline`: the column locations, given the
successful column-width result `cw`. -/
def pipeLocs (cw : Tree × List Col × List ℚ × ℕ) : ℚ × List Col :=
  setColumnLocations cw.2.1

/-- The environment of the position pass of `layoutPipeline`, given the
successful column-width result `cw`. -/
def pipeEnv (cfg : Config) (zpath : List ℕ) (t : Tree)
    (cw : Tree × List Col × List ℚ × ℕ) : PosEnv :=
  ⟨(pipeLocs cw).2, (pipeLocs cw).1, (pipeT3 cfg zpath t cw).data.draw.numLeaves⟩

/-- Stage 5 of `layoutPipeline`: the position pass from the root, given
the successful column-width result `cw`. -/
def pipeR (cfg : Config) (zpath : List ℕ) (t : Tree)
    (cw : Tree × List Col × List ℚ × ℕ) : Tree × PosAcc :=
  computeNormalizedPositions (pipeEnv cfg zpath t cw) (pipeT3 cfg zpath t cw) 0
    false none 0 0 (some zpath) ⟨[], []⟩

/-- The layout state `layoutPipeline` assembles when its column-width
stage succeeds with `cw`. -/
def pipeState (cfg : Config) (zpath : List ℕ) (t : Tree)
    (cw : Tree × List Col × List ℚ × ℕ) : LayoutState :=
  ⟨(pipeR cfg zpath t cw).1, (pipeLocs cw).2, cw.2.2.1, cw.2.2.2,
   (pipeLocs cw).1,
   (if zpath.isEmpty then (pipeR cfg zpath t cw).2.zoomedNodes
    else
      match subtreeAt (pipeR cfg zpath t cw).1 zpath.dropLast with
      | some p => (pipeR cfg zpath t cw).2.zoomedNodes ++ [p.data.absPathName]
      | none => (pipeR cfg zpath t cw).2.zoomedNodes),
   (pipeR cfg zpath t cw).2.visibleNodes⟩

/-- The child-of-zoomed flag the position pass computes at a node. -/
def posIcz (icz : Bool) (zr : Option (List ℕ)) : Bool := icz || zr == some []

/-- The earliest-minimized-ancestor state after one node of the
position pass. -/
def posEmp (env : PosEnv) (d : NodeData) (cs : Forest) (icz' : Bool)
    (emp : Option WorkInfo) : Option WorkInfo :=
  if emp.isNone && icz' && isVisible d.draw then
    if isVisibleLeaf d cs then
      some ⟨d.depth, colLoc env d.depth / env.treeWidth, d.draw.numLeaves⟩
    else none
  else emp

/-- The dims the position pass writes at one node. -/
def posDims (env : PosEnv) (d : NodeData) (cs : Forest) (lc : ℚ)
    (emp' : Option WorkInfo) (pd : ℕ) (py : ℚ) : Dims :=
  if !isVisible d.draw then
    { x := colLoc env (pd + 1) / env.treeWidth, y := py,
      width := 1 / 1000000, height := 1 / 1000000 }
  else
    let w := emp'.getD ⟨d.depth, colLoc env d.depth / env.treeWidth, d.draw.numLeaves⟩
    { x := colLoc env w.depth / env.treeWidth, y := lc / env.rootLeaves,
      width :=
        if (!cs.isEmpty) && !d.draw.minimized && !d.draw.filtered then
          colWidth env w.depth / env.treeWidth
        else 1 - w.dimsX,
      height := w.numLeaves / env.rootLeaves }

/-- The accumulator update of the position pass at one node. -/
def posAccStep (d : NodeData) (cs : Forest) (icz' : Bool)
    (emp : Option WorkInfo) (acc : PosAcc) : PosAcc :=
  if emp.isNone && icz' && isVisible d.draw then
    let acc1 := { acc with zoomedNodes := acc.zoomedNodes ++ [d.absPathName] }
    if isVisibleLeaf d cs then
      if !d.draw.hidden then
        { acc1 with visibleNodes := acc1.visibleNodes ++ [d.absPathName] }
      else acc1
    else acc1
  else acc

/-- All roots of a forest are invisible. -/
def forestRootsInvisible : Forest → Prop
  | .nil => True
  | .cons t ts => isVisible t.data.draw = false ∧ forestRootsInvisible ts

mutual
/-- Soundness of the collapse counts consumed by the position pass, as
`_computeLeaves` leaves them on a model whose stale subtrees started
from zeroed counts: an invisible node counts zero leaves and roots an
entirely invisible subtree; a visible node has a nonnegative count at
least the sum of its children's counts; a visible minimized node with
children does not sit at depth 0 (the model root is not minimized). -/
def TreeOk (t : Tree) : Prop :=
  match t with
  | .node d cs =>
    (isVisible d.draw = false → d.draw.numLeaves = 0 ∧ forestRootsInvisible cs) ∧
    (isVisible d.draw = true →
      0 ≤ d.draw.numLeaves ∧ cs.sumLeaves ≤ d.draw.numLeaves ∧
      (cs.isEmpty = false → d.draw.minimized = true → 1 ≤ d.depth)) ∧
    TreeOkF cs
termination_by structural t
/-- `TreeOk` for every tree of a forest. -/
def TreeOkF (fs : Forest) : Prop :=
  match fs with
  | .nil => True
  | .cons t ts => TreeOk t ∧ TreeOkF ts
termination_by structural fs
end

mutual
/-- Normalized-position bounds at every node of an output subtree,
skipping the subtrees the children loop never enters (a minimized
input/output child): `0 ≤ x ≤ 1`, `0 ≤ y ≤ 1`,
`y + height ≤ 1 + 1/1000000`, and - for nodes of depth at least 1 -
`x + width ≤ 1 + 1/1000000`. -/
def BoundsOk (t : Tree) : Prop :=
  match t with
  | .node d cs =>
    (0 ≤ d.draw.dims.x ∧ d.draw.dims.x ≤ 1 ∧
     0 ≤ d.draw.dims.y ∧ d.draw.dims.y ≤ 1 ∧
     d.draw.dims.y + d.draw.dims.height ≤ 1 + 1 / 1000000 ∧
     (1 ≤ d.depth → d.draw.dims.x + d.draw.dims.width ≤ 1 + 1 / 1000000)) ∧
    BoundsOkF cs
termination_by structural t
/-- `BoundsOk` for the entered trees of a forest. -/
def BoundsOkF (fs : Forest) : Prop :=
  match fs with
  | .nil => True
  | .cons c rest =>
    ((c.data.isInputOrOutput && c.data.draw.minimized) = false → BoundsOk c) ∧
    BoundsOkF rest
termination_by structural fs
end

/-! Auxiliary lemmas about `setColLocsAux`, used to characterise the
column locations produced by `_setColumnLocations`. -/

/-- The location loop does not change any column's width. -/
theorem setColLocsAux_width (l : List Col) (a : ℚ) (i : ℕ) :
    ((setColLocsAux a l).2.getD i ⟨0, 0⟩).width = (l.getD i ⟨0, 0⟩).width := by
  induction l generalizing a i with
  | nil => rfl
  | cons c rest ih =>
    cases i with
    | zero => rfl
    | succ j => simpa [setColLocsAux, List.getD] using ih (a + c.width) j

/-- The location loop preserves the list length. -/
theorem setColLocsAux_length (l : List Col) (a : ℚ) :
    (setColLocsAux a l).2.length = l.length := by
  induction l generalizing a with
  | nil => rfl
  | cons c rest ih => simpa [setColLocsAux] using ih (a + c.width)

/-- Each visited column's location is the accumulator plus the partial
sum of the widths of the columns before it. -/
theorem setColLocsAux_loc (l : List Col) (a : ℚ) (i : ℕ) (hi : i < l.length) :
    ((setColLocsAux a l).2.getD i ⟨0, 0⟩).location =
      a + ∑ j ∈ Finset.range i, (l.getD j ⟨0, 0⟩).width := by
  induction l generalizing a i with
  | nil => simp at hi
  | cons c rest ih =>
    cases i with
    | zero => simp [setColLocsAux]
    | succ j =>
      have hj : j < rest.length := by simpa using hi
      have := ih (a + c.width) j hj
      rw [Finset.sum_range_succ']
      simpa [setColLocsAux, List.getD, add_comm, add_assoc, add_left_comm] using this

/-- C2 support: the final accumulator is the starting one plus all the
widths. -/
theorem setColLocsAux_total (l : List Col) (a : ℚ) :
    (setColLocsAux a l).1 = a + ∑ j ∈ Finset.range l.length, (l.getD j ⟨0, 0⟩).width := by
  induction l generalizing a with
  | nil => simp [setColLocsAux]
  | cons c rest ih =>
    rw [List.length_cons, Finset.sum_range_succ']
    simpa [setColLocsAux, List.getD, add_comm, add_assoc, add_left_comm] using
      ih (a + c.width)

/-- C2: after `_setColumnLocations` runs, adjacent columns in depth
range `1..maxDepth` tile exactly - each location is the previous
location plus the previous width - locations are exactly the cumulative
sums of the widths of columns at depths `1..d-1`, widths are unchanged,
and (widths being nonnegative) locations are monotonically
non-decreasing with depth. -/
theorem C2_column_locations_exact (cols : List Col) (maxD : ℕ)
    (hlen : cols.length = maxD + 1)
    (hw : ∀ c ∈ cols, 0 ≤ c.width) :
    (∀ d, 1 ≤ d → d + 1 ≤ maxD →
      ((setColumnLocations cols).2.getD (d + 1) ⟨0, 0⟩).location =
        ((setColumnLocations cols).2.getD d ⟨0, 0⟩).location +
          ((setColumnLocations cols).2.getD d ⟨0, 0⟩).width) ∧
    (∀ d, 1 ≤ d → d ≤ maxD →
      ((setColumnLocations cols).2.getD d ⟨0, 0⟩).location =
        ∑ i ∈ Finset.Ico 1 d, (cols.getD i ⟨0, 0⟩).width) ∧
    (∀ d, ((setColumnLocations cols).2.getD d ⟨0, 0⟩).width =
      (cols.getD d ⟨0, 0⟩).width) ∧
    (∀ d, 1 ≤ d → d + 1 ≤ maxD →
      ((setColumnLocations cols).2.getD d ⟨0, 0⟩).location ≤
        ((setColumnLocations cols).2.getD (d + 1) ⟨0, 0⟩).location) := by
  obtain ⟨c0, rest, rfl⟩ : ∃ c0 rest, cols = c0 :: rest := by
    cases cols with
    | nil => simp at hlen
    | cons c0 rest => exact ⟨c0, rest, rfl⟩
  have hrest : rest.length = maxD := by simpa using hlen
  have hgetc : ∀ d : ℕ, ((c0 :: rest).getD (d + 1) ⟨0, 0⟩) = rest.getD d ⟨0, 0⟩ := by
    intro d; simp [List.getD]
  have hres : ∀ d : ℕ, 1 ≤ d →
      (setColumnLocations (c0 :: rest)).2.getD d ⟨0, 0⟩ =
        (setColLocsAux 0 rest).2.getD (d - 1) ⟨0, 0⟩ := by
    intro d hd
    obtain ⟨e, rfl⟩ : ∃ e, d = e + 1 := ⟨d - 1, (Nat.succ_pred_eq_of_pos hd).symm⟩
    simp [setColumnLocations, List.getD]
  have hloc : ∀ d, 1 ≤ d → d ≤ maxD →
      ((setColumnLocations (c0 :: rest)).2.getD d ⟨0, 0⟩).location =
        ∑ i ∈ Finset.Ico 1 d, ((c0 :: rest).getD i ⟨0, 0⟩).width := by
    intro d hd hdm
    rw [hres d hd]
    obtain ⟨e, rfl⟩ : ∃ e, d = e + 1 := ⟨d - 1, (Nat.succ_pred_eq_of_pos hd).symm⟩
    have he : e < rest.length := by omega
    rw [show e + 1 - 1 = e from rfl, setColLocsAux_loc rest 0 e he, zero_add]
    rw [Finset.sum_Ico_eq_sum_range]
    refine Finset.sum_congr (by simp) ?_
    intro j _
    rw [show 1 + j = j + 1 from Nat.add_comm 1 j, hgetc j]
  have hwidth : ∀ d, ((setColumnLocations (c0 :: rest)).2.getD d ⟨0, 0⟩).width =
      ((c0 :: rest).getD d ⟨0, 0⟩).width := by
    intro d
    cases d with
    | zero => simp [setColumnLocations, List.getD]
    | succ e =>
      have h1 : (1 : ℕ) ≤ e + 1 := by omega
      rw [hres (e + 1) h1, show e + 1 - 1 = e from rfl, setColLocsAux_width, hgetc]
  have hadj : ∀ d, 1 ≤ d → d + 1 ≤ maxD →
      ((setColumnLocations (c0 :: rest)).2.getD (d + 1) ⟨0, 0⟩).location =
        ((setColumnLocations (c0 :: rest)).2.getD d ⟨0, 0⟩).location +
          ((setColumnLocations (c0 :: rest)).2.getD d ⟨0, 0⟩).width := by
    intro d hd hdm
    rw [hloc (d + 1) (by omega) hdm, hloc d hd (by omega), hwidth d]
    rw [Finset.sum_Ico_succ_top hd]
  refine ⟨hadj, hloc, hwidth, ?_⟩
  intro d hd hdm
  rw [hadj d hd hdm]
  have hnn : 0 ≤ ((setColumnLocations (c0 :: rest)).2.getD d ⟨0, 0⟩).width := by
    rw [hwidth d]
    rcases Nat.lt_or_ge d (maxD + 1) with hlt | hge
    · have hd2 : d < (c0 :: rest).length := by
        rw [hlen]; exact hlt
      rw [List.getD_eq_getElem?_getD, List.getElem?_eq_getElem hd2, Option.getD_some]
      exact hw _ (List.getElem_mem hd2)
    · have hds : (c0 :: rest).length ≤ d := by
        rw [hlen]; exact hge
      rw [List.getD_eq_default _ _ hds]
  exact le_add_of_nonneg_right hnn

/-- C2 witness: the column-location invariant holds for a concrete
three-column configuration. -/
theorem C2_column_locations_exact_witness :
    (∀ d, 1 ≤ d → d + 1 ≤ 2 →
      ((setColumnLocations c2WitnessCols).2.getD (d + 1) ⟨0, 0⟩).location =
        ((setColumnLocations c2WitnessCols).2.getD d ⟨0, 0⟩).location +
          ((setColumnLocations c2WitnessCols).2.getD d ⟨0, 0⟩).width) ∧
    (∀ d, 1 ≤ d → d ≤ 2 →
      ((setColumnLocations c2WitnessCols).2.getD d ⟨0, 0⟩).location =
        ∑ i ∈ Finset.Ico 1 d, (c2WitnessCols.getD i ⟨0, 0⟩).width) ∧
    (∀ d, ((setColumnLocations c2WitnessCols).2.getD d ⟨0, 0⟩).width =
      (c2WitnessCols.getD d ⟨0, 0⟩).width) ∧
    (∀ d, 1 ≤ d → d + 1 ≤ 2 →
      ((setColumnLocations c2WitnessCols).2.getD d ⟨0, 0⟩).location ≤
        ((setColumnLocations c2WitnessCols).2.getD (d + 1) ⟨0, 0⟩).location) :=
  C2_column_locations_exact c2WitnessCols 2 rfl
    (by intro c hc; fin_cases hc <;> exact le_refl 0)

/-- C9: on the first call after construction `setTransitionPermission`
reads the never-assigned `visibleNodeCount` (the constructor initialized
`curVisibleNodeCount` instead), so the high-water mark is `NaN`, the
`>=` comparison is false, and the transitions-enabled branch is taken
regardless of the current number of visible nodes; the previous-count
field ends up undefined as well. -/
theorem C9_first_call_always_enables_transitions (maxNodes n : ℕ) :
    (setTransitionPermission maxNodes n initialTransState).transitionAllowed = true ∧
    initialTransState.visibleNodeCount = none ∧
    initialTransState.curVisibleNodeCount = 0 ∧
    (setTransitionPermission maxNodes n initialTransState).prevVisibleNodeCount = none := by
  refine ⟨?_, rfl, rfl, ?_⟩ <;>
    simp [setTransitionPermission, initialTransState, jsHighWaterAtLeast]

/-- C4 counterexample: with the configured maximum 5 and previous and
current visible-node counts both 5, the high-water mark is not strictly
above the maximum (the claim then requires animations re-enabled), yet
the code suppresses transitions because its comparison is `>=`. -/
theorem C4_boundary_counterexample :
    max 5 5 ≤ 5 ∧
    (setTransitionPermission 5 5 c4State).transitionAllowed = false := by
  exact ⟨by decide, by decide⟩

/-- C4 (amended): when the previous-count field holds a number `p`,
`setTransitionPermission` re-enables animated transitions exactly when
the high-water mark `max p cur` is strictly below the configured
maximum, and suppresses them when it is at or above the maximum. -/
theorem C4_amended_high_water_threshold (maxNodes cur p : ℕ) (st : TransState)
    (h : st.visibleNodeCount = some p) :
    ((setTransitionPermission maxNodes cur st).transitionAllowed = true ↔
      max p cur < maxNodes) := by
  rcases Nat.lt_or_ge (max p cur) maxNodes with hlt | hge
  · simp [setTransitionPermission, jsHighWaterAtLeast, h, Nat.not_le.mpr hlt, hlt]
  · simp [setTransitionPermission, jsHighWaterAtLeast, h, hge, Nat.not_lt.mpr hge]

/-- C4 amended witness: at maximum 7 with previous count 5 and current
count 3 the theorem applies and transitions are enabled. -/
theorem C4_amended_high_water_threshold_witness :
    ((setTransitionPermission 7 3 c4State).transitionAllowed = true ↔
      max 5 3 < 7) :=
  C4_amended_high_water_threshold 7 3 5 c4State rfl

/-- Unfolding of `computeLeaves` at a hidden or filtered node. -/
theorem computeLeaves_not_visible (cfg : Config) (d : NodeData) (cs : Forest)
    (hv : (d.draw.hidden || d.draw.filtered) = true) :
    computeLeaves cfg (.node d cs) = .node (withZeroLeaves d) cs := by
  simp [computeLeaves, hv, withZeroLeaves]

/-- Unfolding of `computeLeaves` at a visible node that ends up
expanded. -/
theorem computeLeaves_expanded (cfg : Config) (d : NodeData) (cs : Forest)
    (hv : (d.draw.hidden || d.draw.filtered) = false)
    (hcs : cs.isEmpty = false) (hm : updateMinimized cfg d cs = false) :
    computeLeaves cfg (.node d cs) =
      .node (withLeaves d false (computeLeavesForest cfg cs).sumLeaves)
        (computeLeavesForest cfg cs) := by
  simp [computeLeaves, hv, hcs, hm, withLeaves]

/-- Unfolding of `computeLeaves` at a visible node that is a leaf or
ends up minimized. -/
theorem computeLeaves_leafish (cfg : Config) (d : NodeData) (cs : Forest)
    (hv : (d.draw.hidden || d.draw.filtered) = false)
    (hlm : cs.isEmpty = true ∨ updateMinimized cfg d cs = true) :
    computeLeaves cfg (.node d cs) =
      .node (withLeaves d (updateMinimized cfg d cs) 1) cs := by
  rcases hlm with h | h <;> simp [computeLeaves, hv, h, withLeaves]

/-- `computeLeavesForest` preserves forest emptiness. -/
theorem computeLeavesForest_isEmpty (cfg : Config) (cs : Forest) :
    (computeLeavesForest cfg cs).isEmpty = cs.isEmpty := by
  cases cs <;> simp [computeLeavesForest, Forest.isEmpty]

mutual
/-- Every tree produced by `computeLeaves` satisfies `VisitedInv`. -/
theorem computeLeaves_visitedInv (cfg : Config) (t : Tree) :
    VisitedInv (computeLeaves cfg t) := by
  cases t with
  | node d cs =>
    by_cases hv : (d.draw.hidden || d.draw.filtered) = true
    · rw [computeLeaves_not_visible cfg d cs hv]
      have hvis : isVisible (withZeroLeaves d).draw = false := by
        simp only [isVisible, withZeroLeaves]
        simp only [Bool.or_eq_true] at hv
        rcases hv with h | h <;> simp [h]
      refine ⟨fun _ => rfl, fun hvt => ?_, fun hvt => ?_⟩ <;>
        · rw [hvis] at hvt
          simp at hvt
    · have hv' : (d.draw.hidden || d.draw.filtered) = false := by simpa using hv
      have hvis : ∀ m q, isVisible (withLeaves d m q).draw = true := by
        intro m q
        simp only [isVisible, withLeaves]
        simp only [Bool.or_eq_true] at hv'
        simp [hv']
      by_cases hcs : cs.isEmpty = true
      · rw [computeLeaves_leafish cfg d cs hv' (Or.inl hcs)]
        refine ⟨fun hvt => ?_, fun _ hne => ?_, fun _ _ => rfl⟩
        · rw [hvis] at hvt; simp at hvt
        · rw [hcs] at hne; exact absurd hne (by simp)
      · have hcs' : cs.isEmpty = false := by simpa using hcs
        by_cases hm : updateMinimized cfg d cs = true
        · rw [computeLeaves_leafish cfg d cs hv' (Or.inr hm)]
          refine ⟨fun hvt => ?_, fun _ _ hmin => ?_, fun _ _ => rfl⟩
          · rw [hvis] at hvt; simp at hvt
          · simp [withLeaves, hm] at hmin
        · have hm' : updateMinimized cfg d cs = false := by simpa using hm
          rw [computeLeaves_expanded cfg d cs hv' hcs' hm']
          refine ⟨fun hvt => ?_, fun _ _ _ => ⟨rfl, ?_⟩, fun _ hlm => ?_⟩
          · rw [hvis] at hvt; simp at hvt
          · exact computeLeavesForest_visitedInv cfg cs
          · rcases hlm with h | h
            · rw [computeLeavesForest_isEmpty cfg cs, hcs'] at h
              exact absurd h (by simp)
            · simp [withLeaves] at h

/-- Every forest produced by `computeLeavesForest` satisfies
`VisitedInvForest`. -/
theorem computeLeavesForest_visitedInv (cfg : Config) (fs : Forest) :
    VisitedInvForest (computeLeavesForest cfg fs) := by
  cases fs with
  | nil => trivial
  | cons t ts =>
    exact ⟨computeLeaves_visitedInv cfg t, computeLeavesForest_visitedInv cfg ts⟩
end

/-- C1 (amended): after `computeLeaves` runs, the claimed relations hold
for every node the pass visits (`VisitedInv`): hidden/filtered nodes get
`numLeaves = 0` with their children left untouched and not entered,
visible expanded nodes sum their children, and visible leaves or
minimized nodes get `numLeaves = 1`.  Nodes strictly inside a minimized
or hidden/filtered subtree are not visited, so their stale `numLeaves`
values are not constrained. -/
theorem C1_amended_computeLeaves_invariant (cfg : Config) (t : Tree) :
    VisitedInv (computeLeaves cfg t) ∧
    ((t.data.draw.hidden || t.data.draw.filtered) = true →
      computeLeaves cfg t =
        .node { t.data with draw := { t.data.draw with numLeaves := 0 } } t.children) := by
  refine ⟨computeLeaves_visitedInv cfg t, fun hv => ?_⟩
  cases t with
  | node d cs =>
    simp only [Tree.data] at hv
    rw [computeLeaves_not_visible cfg d cs hv]
    rfl

/-- C1 counterexample: after `computeLeaves` on `c1Tree` the child `a`
is non-hidden, non-filtered and a true leaf, yet its `numLeaves` is 0,
not 1 as the claim requires of every such node: the pass force-minimized
the `_auto_ivc` root and never visited `a`. -/
theorem C1_unvisited_leaf_counterexample :
    numLeavesAt (computeLeaves {} c1Tree) [0] = some 0 ∧
    (subtreeAt (computeLeaves {} c1Tree) [0]).map
      (fun s => (s.data.draw.hidden, s.data.draw.filtered, s.children.isEmpty)) =
      some (false, false, true) ∧
    (computeLeaves {} c1Tree).data.draw.minimized = true ∧
    (0 : ℚ) ≠ 1 := by
  refine ⟨by with_unfolding_all decide, by with_unfolding_all decide,
    by with_unfolding_all decide, by norm_num⟩

/-- C1 amended witness: `c1Tree`'s root has its `hidden` and `filtered`
flags clear, and on the tree consisting of a single hidden node the
hidden branch of the theorem applies. -/
theorem C1_amended_computeLeaves_invariant_witness :
    VisitedInv (computeLeaves {} (Tree.node { name := "h", draw := { hidden := true } } .nil)) ∧
    computeLeaves {} (Tree.node { name := "h", draw := { hidden := true } } .nil) =
      .node { name := "h", draw := { hidden := true, numLeaves := 0 } } .nil :=
  ⟨(C1_amended_computeLeaves_invariant {} (Tree.node { name := "h", draw := { hidden := true } } .nil)).1,
   (C1_amended_computeLeaves_invariant {} (Tree.node { name := "h", draw := { hidden := true } } .nil)).2 rfl⟩

/-- C10: `_computeColumnWidths` writes the configured parent width at
column index `zoomedElement.depth - 1` unconditionally; with a depth-0
zoomed element that index is `-1`, outside the valid range `0..maxDepth`,
and indeed no column receives the parent width from that assignment -
but not because the write is benign: `this.cols[-1]` is `undefined`, the
member write throws a `TypeError`, and the whole column computation
aborts, so the layout pass never reaches `_setColumnLocations`.  Any
member write at a negative index throws, while a write at a valid index
does land. -/
theorem C10_root_zoom_parent_write_throws (cfg : Config) (zoomed : Tree)
    (h0 : zoomed.data.depth = 0) :
    computeColumnWidths cfg zoomed = none ∧
    (∀ (l : List Col) (i : ℤ) (w : ℚ), i < 0 → jsSetWidth l i w = none) ∧
    (∀ (l : List Col) (d : ℕ) (w : ℚ), d < l.length →
      (jsSetWidth l (d : ℤ) w).map (fun l2 => (l2.getD d ⟨0, 0⟩).width) =
        some w) := by
  have hj : ∀ (l : List Col) (i : ℤ) (w : ℚ), i < 0 → jsSetWidth l i w = none := by
    intro l i w hi
    have hni : ¬ (0 ≤ i ∧ i.toNat < l.length) := fun hc => absurd hc.1 (by omega)
    simp [jsSetWidth, hni]
  refine ⟨?_, hj, fun l d w hd => ?_⟩
  · simp only [computeColumnWidths]
    rw [hj _ _ _ (by rw [h0]; norm_num)]
  · have h0i : ((d : ℤ)).toNat = d := Int.toNat_natCast d
    have hcond : (0 : ℤ) ≤ (d : ℤ) ∧ ((d : ℤ)).toNat < l.length := by
      refine ⟨Int.ofNat_nonneg d, ?_⟩
      rw [h0i]
      exact hd
    simp only [jsSetWidth]
    rw [if_pos hcond, Option.map_some', h0i]
    clear hcond h0i
    induction l generalizing d with
    | nil => simp at hd
    | cons c rest ih =>
      cases d with
      | zero => simp [listModify, List.getD]
      | succ e =>
        have he : e < rest.length := by simpa using hd
        simpa [listModify, List.getD] using ih e he

/-- C10 witness: with the model root zoomed the column computation
aborts, a write at index `-1` throws, and a write at index 0 of a
one-column list lands. -/
theorem C10_root_zoom_parent_write_throws_witness :
    computeColumnWidths {} (Tree.node {} .nil) = none ∧
    jsSetWidth [⟨1, 2⟩] (-1) 5 = none ∧
    (jsSetWidth [⟨1, 2⟩] ((0 : ℕ) : ℤ) 5).map (fun l2 => (l2.getD 0 ⟨0, 0⟩).width) =
      some 5 :=
  ⟨(C10_root_zoom_parent_write_throws {} (Tree.node {} .nil) rfl).1,
   (C10_root_zoom_parent_write_throws {} (Tree.node {} .nil) rfl).2.1 [⟨1, 2⟩] (-1) 5
     (by norm_num),
   (C10_root_zoom_parent_write_throws {} (Tree.node {} .nil) rfl).2.2 [⟨1, 2⟩] 0 5
     (by norm_num)⟩

/-- `layoutPipeline` in terms of its stages when the column-width
computation succeeds. -/
theorem layoutPipeline_eq (cfg : Config) (zpath : List ℕ) (t : Tree)
    (cw : Tree × List Col × List ℚ × ℕ)
    (hcw : pipeCW cfg zpath t = some cw) :
    layoutPipeline cfg zpath t = some (pipeState cfg zpath t cw) := by
  simp only [pipeCW, pipeZ2, pipeT2, pipeT1] at hcw
  simp only [layoutPipeline]
  rw [hcw]
  rfl

/-- `layoutPipeline` aborts exactly when its column-width computation
throws. -/
theorem layoutPipeline_none (cfg : Config) (zpath : List ℕ) (t : Tree)
    (hcw : pipeCW cfg zpath t = none) :
    layoutPipeline cfg zpath t = none := by
  simp only [pipeCW, pipeZ2, pipeT2, pipeT1] at hcw
  simp only [layoutPipeline]
  rw [hcw]

set_option maxRecDepth 6000 in
set_option maxHeartbeats 1000000 in
/-- Full evaluation of the layout pipeline on the shared counterexample
model `mTree` zoomed at the depth-1 component "c": both member writes
of `_computeColumnWidths` hit valid indices (0 and 2), so the pass
completes with the state `mState`. -/
theorem mTree_pipeline_eval : layoutPipeline mCfg [0] mTree = some mState := by
  have h1 : computeLeaves mCfg mTree = mT1 := by
    norm_num +decide [computeLeaves, computeLeavesForest, updateMinimized, Forest.isEmpty,
      Forest.length, Forest.sumLeaves, Tree.data, mCfg, mTree, mT1]
  have ht2 : modifyAt mT1 [0] (updateTextWidths mCfg) = mT2 := by
    norm_num +decide [modifyAt, forestModify, updateTextWidths, updateTextWidthsForest,
      getText, Forest.isEmpty, Tree.data, Tree.children, mCfg, mT1, mT2, mG2]
  have hz : (subtreeAt mT2 [0]).getD mT2 = mG2 := by
    norm_num [subtreeAt, forestGet, Tree.children, Option.getD, mT2, mG2]
  have h3 : computeColumnWidths mCfg mG2 =
      some (mG3, [⟨50, 0⟩, ⟨10, 0⟩, ⟨10, 0⟩], [0, 0, 10], 2) := by
    have hd : (List.range 3).drop 1 = [1, 2] := by decide
    norm_num +decide [computeColumnWidths, setColumnWidthsFromWidestText, setColumnWidthsForest,
      listModify, jsSetWidth, List.getD, Forest.isEmpty, Tree.data, mCfg, mG2, mG3,
      hd, List.foldr_cons, List.foldr_nil, sup_eq_max, max_def]
  have ht3 : modifyAt mT2 [0] (fun _ => mG3) = mT3 := by
    norm_num [modifyAt, forestModify, Tree.data, Tree.children, mT2, mT3]
  have h4 : setColumnLocations [⟨50, 0⟩, ⟨10, 0⟩, ⟨10, 0⟩] =
      (20, [⟨50, 0⟩, ⟨10, 0⟩, ⟨10, 10⟩]) := by
    norm_num +decide [setColumnLocations, setColLocsAux]
  have h5 : computeNormalizedPositions ⟨[⟨50, 0⟩, ⟨10, 0⟩, ⟨10, 10⟩], 20, 2⟩ mT3 0
      false none 0 0 (some [0]) ⟨[], []⟩ =
      (mT4, ⟨["r.c", "r.c.a"], ["r.c.a"]⟩) := by
    norm_num +decide [computeNormalizedPositions, computeNormalizedPositionsForest, colLoc,
      colWidth, isVisible, isVisibleLeaf, Tree.data, Tree.children, Forest.isEmpty,
      List.getD, mT3, mG3, mT4]
  have hcw : pipeCW mCfg [0] mTree =
      some (mG3, [⟨50, 0⟩, ⟨10, 0⟩, ⟨10, 0⟩], [0, 0, 10], 2) := by
    simp only [pipeCW, pipeZ2, pipeT2, pipeT1]
    rw [h1, ht2, hz, h3]
  have hT3 : pipeT3 mCfg [0] mTree (mG3, [⟨50, 0⟩, ⟨10, 0⟩, ⟨10, 0⟩], [0, 0, 10], 2) =
      mT3 := by
    simp only [pipeT3, pipeT2, pipeT1]
    rw [h1, ht2]
    exact ht3
  have hLocs : pipeLocs (mG3, [⟨50, 0⟩, ⟨10, 0⟩, ⟨10, 0⟩], [0, 0, 10], 2) =
      (20, [⟨50, 0⟩, ⟨10, 0⟩, ⟨10, 10⟩]) := by
    simp only [pipeLocs]
    exact h4
  have hEnv : pipeEnv mCfg [0] mTree (mG3, [⟨50, 0⟩, ⟨10, 0⟩, ⟨10, 0⟩], [0, 0, 10], 2) =
      ⟨[⟨50, 0⟩, ⟨10, 0⟩, ⟨10, 10⟩], 20, 2⟩ := by
    simp only [pipeEnv]
    rw [hLocs, hT3]
    rfl
  have hR : pipeR mCfg [0] mTree (mG3, [⟨50, 0⟩, ⟨10, 0⟩, ⟨10, 0⟩], [0, 0, 10], 2) =
      (mT4, ⟨["r.c", "r.c.a"], ["r.c.a"]⟩) := by
    simp only [pipeR]
    rw [hEnv, hT3]
    exact h5
  rw [layoutPipeline_eq mCfg [0] mTree _ hcw]
  simp only [pipeState]
  rw [hR, hLocs]
  norm_num +decide [mState, subtreeAt, Tree.data]

set_option maxHeartbeats 400000 in
/-- C3 counterexample: in the layout of `mTree` zoomed at the depth-1
component "c" (a crash-free zoom: both column writes hit valid
indices), the computed dims of the root have `x + width = 5/2`,
breaking `x + width <= 1 + epsilon`: the root's column 0 (forced to the
50px reserved parent width) is excluded from the cumulative tree width
20 (only columns `1..maxDepth` are summed), so the root's normalized
width is `50/20 = 5/2`. -/
theorem C3_root_width_exceeds_one_counterexample :
    (layoutPipeline mCfg [0] mTree).map (fun s => dimsAt s []) =
      some (some { x := 0, y := 0, width := 5/2, height := 1 }) ∧
    ¬ ((0 : ℚ) + 5/2 ≤ 1 + 1 / 1000000) := by
  constructor
  · rw [mTree_pipeline_eval]
    norm_num +decide [Option.map, dimsAt, mState, mT4, subtreeAt, Tree.data]
  · norm_num

set_option maxHeartbeats 400000 in
/-- C5 counterexample: in the layout of `mTree` zoomed at the depth-1
component "c" (a crash-free zoom), the hidden input "v" gets `x = 1/2`,
the location of the column one to the right of its parent component's,
while the parent component "c" sits at column location 0; the claim's
"parent component's column x" (0 here) is not what the code assigns. -/
theorem C5_own_column_not_parent_counterexample :
    (layoutPipeline mCfg [0] mTree).map (fun s => dimsAt s [0]) =
      some (some { x := 0, y := 0, width := 1/2, height := 1/2 }) ∧
    (layoutPipeline mCfg [0] mTree).map (fun s => dimsAt s [0, 1]) =
      some (some { x := 1/2, y := 0, width := 1/1000000, height := 1/1000000 }) ∧
    (1/2 : ℚ) ≠ 0 := by
  refine ⟨?_, ?_, by norm_num⟩ <;>
    · rw [mTree_pipeline_eval]
      norm_num +decide [Option.map, dimsAt, mState, mT4, subtreeAt, forestGet,
        Tree.data, Tree.children]

/-- C5 (amended): a node that is not visible when the position pass
reaches it has its dims set to the location of the column at its parent
component's depth plus one (its own column, one to the right of the
parent's) normalized by the tree width, its parent component's y, and
width and height equal to the sentinel `1e-6`, which is strictly
positive and not exactly 0. -/
theorem C5_amended_invisible_node_dims (env : PosEnv) (d : NodeData) (cs : Forest)
    (lc : ℚ) (icz : Bool) (emp : Option WorkInfo) (pd : ℕ) (py : ℚ)
    (zrem : Option (List ℕ)) (acc : PosAcc)
    (h : isVisible d.draw = false) :
    ((computeNormalizedPositions env (.node d cs) lc icz emp pd py zrem acc).1).data.draw.dims =
      { x := colLoc env (pd + 1) / env.treeWidth, y := py,
        width := 1 / 1000000, height := 1 / 1000000 } ∧
    (0 : ℚ) < 1 / 1000000 ∧ ((1 / 1000000 : ℚ) ≠ 0) := by
  refine ⟨?_, by norm_num, by norm_num⟩
  simp [computeNormalizedPositions, h, Tree.data]

/-- C5 amended witness: the theorem applied to a concrete hidden leaf
with a one-column environment. -/
theorem C5_amended_invisible_node_dims_witness :
    ((computeNormalizedPositions ⟨[⟨1, 0⟩, ⟨2, 5⟩], 10, 1⟩
        (.node { name := "v", draw := { hidden := true } } .nil)
        0 true none 0 (3/4) none ⟨[], []⟩).1).data.draw.dims =
      { x := colLoc ⟨[⟨1, 0⟩, ⟨2, 5⟩], 10, 1⟩ 1 / 10, y := 3/4,
        width := 1 / 1000000, height := 1 / 1000000 } ∧
    (0 : ℚ) < 1 / 1000000 ∧ ((1 / 1000000 : ℚ) ≠ 0) :=
  C5_amended_invisible_node_dims ⟨[⟨1, 0⟩, ⟨2, 5⟩], 10, 1⟩
    { name := "v", draw := { hidden := true } } .nil 0 true none 0 (3/4) none ⟨[], []⟩
    (by decide)

set_option maxHeartbeats 400000 in
/-- C6 counterexample: in the layout of `mTree` zoomed at the depth-1
component "c" (a crash-free zoom), the minimized subtree "m" has N = 2
descendant leaves ("u" and "w"), yet its computed normalized height is
`1/2` - one leaf row out of the 2 post-collapse total leaves - not
`N/totalLeaves`, which would be `2/2 = 1` against the post-collapse
total or `2/3` against the pre-collapse total of 3 leaves. -/
theorem C6_minimized_row_height_counterexample :
    (layoutPipeline mCfg [0] mTree).map (fun s => dimsAt s [1]) =
      some (some { x := 0, y := 1/2, width := 1, height := 1/2 }) ∧
    (layoutPipeline mCfg [0] mTree).map (fun s => numLeavesAt s.tree []) =
      some (some 2) ∧
    ((1 : ℚ)/2 ≠ 2/2 ∧ (1 : ℚ)/2 ≠ 2/3) := by
  refine ⟨?_, ?_, by norm_num, by norm_num⟩ <;>
    · rw [mTree_pipeline_eval]
      norm_num +decide [Option.map, dimsAt, numLeavesAt, mState, mT4, subtreeAt,
        forestGet, Tree.data, Tree.children]

set_option maxHeartbeats 1000000 in
/-- Full evaluation of the layout pipeline on the C7 model `c7Tree`
zoomed at the depth-1 group "g": both member writes of
`_computeColumnWidths` hit valid indices (0 and 2), so the pass
completes with the state `c7State`. -/
theorem c7_pipeline_eval : layoutPipeline exCfg [0] c7Tree = some c7State := by
  have h1 : computeLeaves exCfg c7Tree = c7T1 := by
    norm_num +decide [computeLeaves, computeLeavesForest, updateMinimized, Forest.isEmpty,
      Forest.length, Forest.sumLeaves, Tree.data, exCfg, c7Tree, c7T1]
  have ht2 : modifyAt c7T1 [0] (updateTextWidths exCfg) = c7T2 := by
    norm_num +decide [modifyAt, forestModify, updateTextWidths, updateTextWidthsForest,
      getText, Forest.isEmpty, Tree.data, Tree.children, exCfg, c7T1, c7T2, c7G2]
  have hz : (subtreeAt c7T2 [0]).getD c7T2 = c7G2 := by
    norm_num [subtreeAt, forestGet, Tree.children, Option.getD, c7T2]
  have h3 : computeColumnWidths exCfg c7G2 =
      some (c7G3, [⟨10, 0⟩, ⟨10, 0⟩, ⟨10, 0⟩], [0, 0, 10], 2) := by
    have hd : (List.range 3).drop 1 = [1, 2] := by decide
    norm_num +decide [computeColumnWidths, setColumnWidthsFromWidestText, setColumnWidthsForest,
      listModify, jsSetWidth, List.getD, Forest.isEmpty, Tree.data, exCfg, c7G2, c7G3,
      hd, List.foldr_cons, List.foldr_nil, sup_eq_max, max_def]
  have ht3 : modifyAt c7T2 [0] (fun _ => c7G3) = c7T3 := by
    norm_num [modifyAt, forestModify, Tree.data, Tree.children, c7T2, c7T3]
  have h4 : setColumnLocations [⟨10, 0⟩, ⟨10, 0⟩, ⟨10, 0⟩] =
      (20, [⟨10, 0⟩, ⟨10, 0⟩, ⟨10, 10⟩]) := by
    norm_num +decide [setColumnLocations, setColLocsAux]
  have h5 : computeNormalizedPositions ⟨[⟨10, 0⟩, ⟨10, 0⟩, ⟨10, 10⟩], 20, 1⟩ c7T3 0
      false none 0 0 (some [0]) ⟨[], []⟩ =
      (c7T4, ⟨["r.g", "r.g.l"], ["r.g.l"]⟩) := by
    norm_num +decide [computeNormalizedPositions, computeNormalizedPositionsForest, colLoc,
      colWidth, isVisible, isVisibleLeaf, Tree.data, Tree.children, Forest.isEmpty,
      List.getD, c7T3, c7G3, c7T4]
  have hnl : c7T3.data.draw.numLeaves = 1 := by norm_num [c7T3, Tree.data]
  have hcw : pipeCW exCfg [0] c7Tree =
      some (c7G3, [⟨10, 0⟩, ⟨10, 0⟩, ⟨10, 0⟩], [0, 0, 10], 2) := by
    simp only [pipeCW, pipeZ2, pipeT2, pipeT1]
    rw [h1, ht2, hz, h3]
  have hT3 : pipeT3 exCfg [0] c7Tree (c7G3, [⟨10, 0⟩, ⟨10, 0⟩, ⟨10, 0⟩], [0, 0, 10], 2) =
      c7T3 := by
    simp only [pipeT3, pipeT2, pipeT1]
    rw [h1, ht2]
    exact ht3
  have hLocs : pipeLocs (c7G3, [⟨10, 0⟩, ⟨10, 0⟩, ⟨10, 0⟩], [0, 0, 10], 2) =
      (20, [⟨10, 0⟩, ⟨10, 0⟩, ⟨10, 10⟩]) := by
    simp only [pipeLocs]
    exact h4
  have hEnv : pipeEnv exCfg [0] c7Tree (c7G3, [⟨10, 0⟩, ⟨10, 0⟩, ⟨10, 0⟩], [0, 0, 10], 2) =
      ⟨[⟨10, 0⟩, ⟨10, 0⟩, ⟨10, 10⟩], 20, 1⟩ := by
    simp only [pipeEnv]
    rw [hLocs, hT3]
    rfl
  have hR : pipeR exCfg [0] c7Tree (c7G3, [⟨10, 0⟩, ⟨10, 0⟩, ⟨10, 0⟩], [0, 0, 10], 2) =
      (c7T4, ⟨["r.g", "r.g.l"], ["r.g.l"]⟩) := by
    simp only [pipeR]
    rw [hEnv, hT3]
    exact h5
  rw [layoutPipeline_eq exCfg [0] c7Tree _ hcw]
  simp only [pipeState]
  rw [hR, hLocs]
  norm_num +decide [c7State, subtreeAt, Tree.data]

set_option maxHeartbeats 400000 in
/-- C7 counterexample: zoomed at the non-root element "g" (path `[0]`,
a crash-free zoom), the pipeline completes and computes `g.x = 0`, and
`updateScaleValues` then gives the x mapping the range lower bound 0 -
the claim's "0 exactly when the zoomed element is the root" fails,
because a non-root zoomed element can also have `x = 0` (its column's
location is 0). -/
theorem C7_nonroot_zero_range_counterexample :
    (([0] : List ℕ) ≠ []) ∧
    (layoutPipeline exCfg [0] c7Tree).map (fun s => dimsAt s [0]) =
      some (some { x := 0, y := 0, width := 1/2, height := 1 }) ∧
    (updateScaleValues exCfg.parentNodeWidth 20 100
        { x := 0, y := 0, width := 1/2, height := 1 }
        { firstRun := true } {}).1.x.rangeLo = 0 ∧
    exCfg.parentNodeWidth ≠ 0 := by
  refine ⟨by simp, ?_, by norm_num [updateScaleValues, preservePreviousScaleValues],
    by norm_num [exCfg]⟩
  rw [c7_pipeline_eval]
  norm_num +decide [Option.map, dimsAt, c7State, c7T4, subtreeAt, forestGet,
    Tree.data, Tree.children]

/-- C7 (amended): `updateScaleValues` preserves the previous x/y
mappings before recomputing them except on the first run; the new x
mapping has domain `[zoomedElement.x, 1]` and range from the reserved
parent width - or 0 exactly when `zoomedElement.x = 0`, which holds for
the root but also for any zoomed element whose column location is 0 -
to the tree pixel width; the y mapping has domain
`[zoomedElement.y, zoomedElement.y + height]` and range
`[0, tree pixel height]`. -/
theorem C7_amended_scale_update (pnw treeW treeH : ℚ) (e : Dims)
    (s : ScalesState) (tc : TransitState) :
    ((updateScaleValues pnw treeW treeH e s tc).1.x =
      { domLo := e.x, domHi := 1,
        rangeLo := if e.x ≠ 0 then pnw else 0, rangeHi := treeW }) ∧
    ((updateScaleValues pnw treeW treeH e s tc).1.y =
      { domLo := e.y, domHi := e.y + e.height, rangeLo := 0, rangeHi := treeH }) ∧
    (s.firstRun = false →
      (updateScaleValues pnw treeW treeH e s tc).1.prevX = s.x ∧
      (updateScaleValues pnw treeW treeH e s tc).1.prevY = s.y ∧
      (updateScaleValues pnw treeW treeH e s tc).2.prevX = tc.x ∧
      (updateScaleValues pnw treeW treeH e s tc).2.prevY = tc.y) ∧
    (s.firstRun = true →
      (updateScaleValues pnw treeW treeH e s tc).1.prevX = s.prevX ∧
      (updateScaleValues pnw treeW treeH e s tc).1.prevY = s.prevY ∧
      (updateScaleValues pnw treeW treeH e s tc).2.prevX = tc.prevX ∧
      (updateScaleValues pnw treeW treeH e s tc).2.prevY = tc.prevY) := by
  cases hf : s.firstRun <;>
    simp [updateScaleValues, preservePreviousScaleValues, hf]

/-- C7 amended witness: the theorem applied on a non-first-run state
with a concrete zoomed-element box. -/
theorem C7_amended_scale_update_witness :
    ((updateScaleValues 10 500 300 ⟨1/4, 1/8, 1/2, 1/2⟩
        { x := ⟨1, 2, 3, 4⟩, firstRun := false } ⟨5, 6, 7, 8⟩).1.x =
      { domLo := 1/4, domHi := 1,
        rangeLo := if (1/4 : ℚ) ≠ 0 then 10 else 0, rangeHi := 500 }) ∧
    ((updateScaleValues 10 500 300 ⟨1/4, 1/8, 1/2, 1/2⟩
        { x := ⟨1, 2, 3, 4⟩, firstRun := false } ⟨5, 6, 7, 8⟩).1.y =
      { domLo := 1/8, domHi := 1/8 + 1/2, rangeLo := 0, rangeHi := 300 }) ∧
    ((false : Bool) = false →
      (updateScaleValues 10 500 300 ⟨1/4, 1/8, 1/2, 1/2⟩
          { x := ⟨1, 2, 3, 4⟩, firstRun := false } ⟨5, 6, 7, 8⟩).1.prevX = ⟨1, 2, 3, 4⟩ ∧
      (updateScaleValues 10 500 300 ⟨1/4, 1/8, 1/2, 1/2⟩
          { x := ⟨1, 2, 3, 4⟩, firstRun := false } ⟨5, 6, 7, 8⟩).1.prevY = {} ∧
      (updateScaleValues 10 500 300 ⟨1/4, 1/8, 1/2, 1/2⟩
          { x := ⟨1, 2, 3, 4⟩, firstRun := false } ⟨5, 6, 7, 8⟩).2.prevX = 5 ∧
      (updateScaleValues 10 500 300 ⟨1/4, 1/8, 1/2, 1/2⟩
          { x := ⟨1, 2, 3, 4⟩, firstRun := false } ⟨5, 6, 7, 8⟩).2.prevY = 6) ∧
    ((false : Bool) = true →
      (updateScaleValues 10 500 300 ⟨1/4, 1/8, 1/2, 1/2⟩
          { x := ⟨1, 2, 3, 4⟩, firstRun := false } ⟨5, 6, 7, 8⟩).1.prevX = {} ∧
      (updateScaleValues 10 500 300 ⟨1/4, 1/8, 1/2, 1/2⟩
          { x := ⟨1, 2, 3, 4⟩, firstRun := false } ⟨5, 6, 7, 8⟩).1.prevY = {} ∧
      (updateScaleValues 10 500 300 ⟨1/4, 1/8, 1/2, 1/2⟩
          { x := ⟨1, 2, 3, 4⟩, firstRun := false } ⟨5, 6, 7, 8⟩).2.prevX = 7 ∧
      (updateScaleValues 10 500 300 ⟨1/4, 1/8, 1/2, 1/2⟩
          { x := ⟨1, 2, 3, 4⟩, firstRun := false } ⟨5, 6, 7, 8⟩).2.prevY = 8) :=
  C7_amended_scale_update 10 500 300 ⟨1/4, 1/8, 1/2, 1/2⟩
    { x := ⟨1, 2, 3, 4⟩, firstRun := false } ⟨5, 6, 7, 8⟩

/-- Field equalities carried by an equality of `coreData`. -/
theorem coreData_inj {d d' : NodeData} (h : coreData d = coreData d') :
    d.name = d'.name ∧ d.absPathName = d'.absPathName ∧
    d.promotedName = d'.promotedName ∧ d.depth = d'.depth ∧
    d.isInputOrOutput = d'.isInputOrOutput ∧
    d.isFilterNode = d'.isFilterNode ∧
    d.draw.hidden = d'.draw.hidden ∧ d.draw.filtered = d'.draw.filtered ∧
    d.draw.minimized = d'.draw.minimized ∧
    d.draw.manuallyExpanded = d'.draw.manuallyExpanded ∧
    d.draw.numLeaves = d'.draw.numLeaves := by
  simp only [coreData, NodeData.mk.injEq, Draw.mk.injEq] at h
  exact ⟨h.1, h.2.1, h.2.2.1, h.2.2.2.1, h.2.2.2.2.1, h.2.2.2.2.2.1,
    h.2.2.2.2.2.2.1, h.2.2.2.2.2.2.2.1, h.2.2.2.2.2.2.2.2.1,
    h.2.2.2.2.2.2.2.2.2.1, h.2.2.2.2.2.2.2.2.2.2.1⟩

/-- Field equalities carried by an equality of `textData`. -/
theorem textData_inj {d d' : NodeData} (h : textData d = textData d') :
    d.name = d'.name ∧ d.absPathName = d'.absPathName ∧
    d.promotedName = d'.promotedName ∧ d.depth = d'.depth ∧
    d.isInputOrOutput = d'.isInputOrOutput ∧
    d.isFilterNode = d'.isFilterNode ∧
    d.draw.hidden = d'.draw.hidden ∧ d.draw.filtered = d'.draw.filtered ∧
    d.draw.minimized = d'.draw.minimized ∧
    d.draw.manuallyExpanded = d'.draw.manuallyExpanded ∧
    d.draw.numLeaves = d'.draw.numLeaves ∧
    d.draw.nameWidthPx = d'.draw.nameWidthPx := by
  simp only [textData, NodeData.mk.injEq, Draw.mk.injEq] at h
  exact ⟨h.1, h.2.1, h.2.2.1, h.2.2.2.1, h.2.2.2.2.1, h.2.2.2.2.2.1,
    h.2.2.2.2.2.2.1, h.2.2.2.2.2.2.2.1, h.2.2.2.2.2.2.2.2.1,
    h.2.2.2.2.2.2.2.2.2.1, h.2.2.2.2.2.2.2.2.2.2.1,
    h.2.2.2.2.2.2.2.2.2.2.2.1⟩

/-- `coreData` of the root of an equal `coreView` pair. -/
theorem coreView_data_eq {s s' : Tree} (h : coreView s = coreView s') :
    coreData s.data = coreData s'.data := by
  cases s with
  | node d cs =>
    cases s' with
    | node d' cs' =>
      simp only [coreView, Tree.node.injEq] at h
      exact h.1

/-- `textData` of the root of an equal `textView` pair. -/
theorem textView_data_eq {s s' : Tree} (h : textView s = textView s') :
    textData s.data = textData s'.data := by
  cases s with
  | node d cs =>
    cases s' with
    | node d' cs' =>
      simp only [textView, Tree.node.injEq] at h
      exact h.1

/-- A forest and its core view are empty together. -/
theorem coreViewF_isEmpty (fs : Forest) : (coreViewF fs).isEmpty = fs.isEmpty := by
  cases fs <;> simp [coreViewF, Forest.isEmpty]

/-- A forest and its text view are empty together. -/
theorem textViewF_isEmpty (fs : Forest) : (textViewF fs).isEmpty = fs.isEmpty := by
  cases fs <;> simp [textViewF, Forest.isEmpty]

/-- A forest and its core view have the same length. -/
theorem coreViewF_length (fs : Forest) : (coreViewF fs).length = fs.length := by
  cases fs with
  | nil => rfl
  | cons t ts => simp [coreViewF, Forest.length, coreViewF_length ts]

/-- A forest and its core view have the same leaf sum. -/
theorem coreViewF_sumLeaves (fs : Forest) :
    (coreViewF fs).sumLeaves = fs.sumLeaves := by
  cases fs with
  | nil => rfl
  | cons t ts =>
    cases t with
    | node d cs =>
      simp [coreViewF, coreView, Forest.sumLeaves, Tree.data, coreData,
        coreViewF_sumLeaves ts]

/-- Children of the core view are the core view of the children. -/
theorem coreView_children (t : Tree) :
    (coreView t).children = coreViewF t.children := by
  cases t with
  | node d cs => rfl

/-- Indexing commutes with the core view of a forest. -/
theorem forestGet_coreViewF (fs : Forest) (i : ℕ) :
    forestGet (coreViewF fs) i = (forestGet fs i).map coreView := by
  cases fs with
  | nil => rfl
  | cons t ts =>
    cases i with
    | zero => rfl
    | succ j => simpa [coreViewF, forestGet] using forestGet_coreViewF ts j

/-- Indexing commutes with the text view of a forest. -/
theorem forestGet_textViewF (fs : Forest) (i : ℕ) :
    forestGet (textViewF fs) i = (forestGet fs i).map textView := by
  cases fs with
  | nil => rfl
  | cons t ts =>
    cases i with
    | zero => rfl
    | succ j => simpa [textViewF, forestGet] using forestGet_textViewF ts j

/-- Indexing commutes with the geometry view of a forest. -/
theorem forestGet_dimsViewF (fs : Forest) (i : ℕ) :
    forestGet (dimsViewF fs) i = (forestGet fs i).map dimsView := by
  cases fs with
  | nil => rfl
  | cons t ts =>
    cases i with
    | zero => rfl
    | succ j => simpa [dimsViewF, forestGet] using forestGet_dimsViewF ts j

/-- Taking the subtree at a path commutes with the core view. -/
theorem subtreeAt_coreView (p : List ℕ) (t : Tree) :
    subtreeAt (coreView t) p = (subtreeAt t p).map coreView := by
  induction p generalizing t with
  | nil => rfl
  | cons i rest ih =>
    cases t with
    | node d cs =>
      simp only [subtreeAt, coreView, Tree.children, forestGet_coreViewF]
      cases forestGet cs i with
      | none => rfl
      | some c => simpa using ih c

/-- Taking the subtree at a path commutes with the text view. -/
theorem subtreeAt_textView (p : List ℕ) (t : Tree) :
    subtreeAt (textView t) p = (subtreeAt t p).map textView := by
  induction p generalizing t with
  | nil => rfl
  | cons i rest ih =>
    cases t with
    | node d cs =>
      simp only [subtreeAt, textView, Tree.children, forestGet_textViewF]
      cases forestGet cs i with
      | none => rfl
      | some c => simpa using ih c

/-- Taking the subtree at a path commutes with the geometry view. -/
theorem subtreeAt_dimsView (p : List ℕ) (t : Tree) :
    subtreeAt (dimsView t) p = (subtreeAt t p).map dimsView := by
  induction p generalizing t with
  | nil => rfl
  | cons i rest ih =>
    cases t with
    | node d cs =>
      simp only [subtreeAt, dimsView, Tree.children, forestGet_dimsViewF]
      cases forestGet cs i with
      | none => rfl
      | some c => simpa using ih c

/-- Indexing a modified forest at the modified index. -/
theorem forestGet_forestModify (cs : Forest) (i : ℕ) (g : Tree → Tree) :
    forestGet (forestModify cs i g) i = (forestGet cs i).map g := by
  cases cs with
  | nil => rfl
  | cons t ts =>
    cases i with
    | zero => rfl
    | succ j => simpa [forestModify, forestGet] using forestGet_forestModify ts j g

/-- An edit that fixes the indexed tree fixes the forest. -/
theorem forestModify_of_fix (cs : Forest) (i : ℕ) (g : Tree → Tree) (c : Tree)
    (hg : forestGet cs i = some c) (hgc : g c = c) : forestModify cs i g = cs := by
  cases cs with
  | nil => simp [forestGet] at hg
  | cons t ts =>
    cases i with
    | zero =>
      simp only [forestGet, Option.some.injEq] at hg
      simp [forestModify, hg, hgc]
    | succ j =>
      simp only [forestGet] at hg
      simp [forestModify, forestModify_of_fix ts j g c hg hgc]

/-- An edit at an index that holds no tree is dropped. -/
theorem forestModify_of_none (cs : Forest) (i : ℕ) (g : Tree → Tree)
    (hg : forestGet cs i = none) : forestModify cs i g = cs := by
  cases cs with
  | nil => rfl
  | cons t ts =>
    cases i with
    | zero => simp [forestGet] at hg
    | succ j =>
      simp only [forestGet] at hg
      simp [forestModify, forestModify_of_none ts j g hg]

/-- Modifying the subtree at a path, then passing through the updated
tree: what the path points at afterwards is the modified subtree. -/
theorem subtreeAt_modifyAt (p : List ℕ) (t : Tree) (f : Tree → Tree) :
    subtreeAt (modifyAt t p f) p = (subtreeAt t p).map f := by
  induction p generalizing t with
  | nil => rfl
  | cons i rest ih =>
    cases t with
    | node d cs =>
      simp only [modifyAt, subtreeAt, Tree.children, forestGet_forestModify]
      cases forestGet cs i with
      | none => rfl
      | some c => simpa using ih c

/-- Applying a function that fixes the pointed-at subtree changes
nothing. -/
theorem modifyAt_fix (p : List ℕ) (t w : Tree) (f : Tree → Tree)
    (h : subtreeAt t p = some w) (hf : f w = w) : modifyAt t p f = t := by
  induction p generalizing t with
  | nil =>
    simp only [subtreeAt, Option.some.injEq] at h
    simp [modifyAt, h, hf]
  | cons i rest ih =>
    cases t with
    | node d cs =>
      simp only [subtreeAt, Tree.children] at h
      cases hg : forestGet cs i with
      | none => rw [hg] at h; exact absurd h (by simp)
      | some c =>
        rw [hg] at h
        simp only [modifyAt, Tree.data, Tree.children]
        rw [forestModify_of_fix cs i _ c hg (ih c h)]

/-- Modifying along an invalid path changes nothing. -/
theorem modifyAt_invalid (p : List ℕ) (t : Tree) (f : Tree → Tree)
    (h : subtreeAt t p = none) : modifyAt t p f = t := by
  induction p generalizing t with
  | nil => simp [subtreeAt] at h
  | cons i rest ih =>
    cases t with
    | node d cs =>
      simp only [subtreeAt, Tree.children] at h
      cases hg : forestGet cs i with
      | none =>
        simp only [modifyAt, Tree.data, Tree.children]
        rw [forestModify_of_none cs i _ hg]
      | some c =>
        rw [hg] at h
        simp only [modifyAt, Tree.data, Tree.children]
        rw [forestModify_of_fix cs i _ c hg (ih c h)]

/-- A forest modification commutes with the core view when the edit
does. -/
theorem forestModify_coreViewF (cs : Forest) (i : ℕ) (g g' : Tree → Tree)
    (hg : ∀ c, coreView (g c) = g' (coreView c)) :
    coreViewF (forestModify cs i g) = forestModify (coreViewF cs) i g' := by
  cases cs with
  | nil => rfl
  | cons t ts =>
    cases i with
    | zero => simp [forestModify, coreViewF, hg]
    | succ j => simp [forestModify, coreViewF, forestModify_coreViewF ts j g g' hg]

/-- A forest modification commutes with the text view when the edit
does. -/
theorem forestModify_textViewF (cs : Forest) (i : ℕ) (g g' : Tree → Tree)
    (hg : ∀ c, textView (g c) = g' (textView c)) :
    textViewF (forestModify cs i g) = forestModify (textViewF cs) i g' := by
  cases cs with
  | nil => rfl
  | cons t ts =>
    cases i with
    | zero => simp [forestModify, textViewF, hg]
    | succ j => simp [forestModify, textViewF, forestModify_textViewF ts j g g' hg]

/-- A forest modification commutes with the geometry view when the edit
does. -/
theorem forestModify_dimsViewF (cs : Forest) (i : ℕ) (g g' : Tree → Tree)
    (hg : ∀ c, dimsView (g c) = g' (dimsView c)) :
    dimsViewF (forestModify cs i g) = forestModify (dimsViewF cs) i g' := by
  cases cs with
  | nil => rfl
  | cons t ts =>
    cases i with
    | zero => simp [forestModify, dimsViewF, hg]
    | succ j => simp [forestModify, dimsViewF, forestModify_dimsViewF ts j g g' hg]

/-- A path modification commutes with the core view when the edit
does. -/
theorem modifyAt_coreView (p : List ℕ) (t : Tree) (f f' : Tree → Tree)
    (hf : ∀ s, coreView (f s) = f' (coreView s)) :
    coreView (modifyAt t p f) = modifyAt (coreView t) p f' := by
  induction p generalizing t with
  | nil => simpa [modifyAt] using hf t
  | cons i rest ih =>
    cases t with
    | node d cs =>
      simp only [modifyAt, coreView, Tree.data, Tree.children]
      exact congrArg (Tree.node (coreData d))
        (forestModify_coreViewF cs i _ _ (fun c => ih c))

/-- A path modification commutes with the text view when the edit
does. -/
theorem modifyAt_textView (p : List ℕ) (t : Tree) (f f' : Tree → Tree)
    (hf : ∀ s, textView (f s) = f' (textView s)) :
    textView (modifyAt t p f) = modifyAt (textView t) p f' := by
  induction p generalizing t with
  | nil => simpa [modifyAt] using hf t
  | cons i rest ih =>
    cases t with
    | node d cs =>
      simp only [modifyAt, textView, Tree.data, Tree.children]
      exact congrArg (Tree.node (textData d))
        (forestModify_textViewF cs i _ _ (fun c => ih c))

/-- A path modification commutes with the geometry view when the edit
does. -/
theorem modifyAt_dimsView (p : List ℕ) (t : Tree) (f f' : Tree → Tree)
    (hf : ∀ s, dimsView (f s) = f' (dimsView s)) :
    dimsView (modifyAt t p f) = modifyAt (dimsView t) p f' := by
  induction p generalizing t with
  | nil => simpa [modifyAt] using hf t
  | cons i rest ih =>
    cases t with
    | node d cs =>
      simp only [modifyAt, dimsView, Tree.data, Tree.children]
      exact congrArg (Tree.node (dimsData d))
        (forestModify_dimsViewF cs i _ _ (fun c => ih c))

/-- Unfolding of the column-width walk at a hidden node. -/
theorem setColW_hidden (cfg : Config) (zl : ℚ) (d : NodeData) (cs : Forest)
    (st : ColState) (hh : d.draw.hidden = true) :
    setColumnWidthsFromWidestText cfg zl (.node d cs) st = (.node d cs, st) := by
  simp [setColumnWidthsFromWidestText, hh]

/-- Unfolding of the column-width walk at a visible expanded node. -/
theorem setColW_expanded (cfg : Config) (zl : ℚ) (d : NodeData) (cs : Forest)
    (st : ColState) (hh : d.draw.hidden = false)
    (hbr : ((!cs.isEmpty) && !d.draw.minimized) = true) :
    setColumnWidthsFromWidestText cfg zl (.node d cs) st =
      (.node (walkNodeData cfg zl d)
         (setColumnWidthsForest cfg zl cs (walkStExp cfg zl d st)).1,
       (setColumnWidthsForest cfg zl cs (walkStExp cfg zl d st)).2) := by
  simp [setColumnWidthsFromWidestText, hh, hbr, walkNodeData, walkWidth, walkSt1,
    walkStExp]

/-- Unfolding of the column-width walk at a visible non-filtered
leaf-or-minimized node. -/
theorem setColW_leaf (cfg : Config) (zl : ℚ) (d : NodeData) (cs : Forest)
    (st : ColState) (hh : d.draw.hidden = false)
    (hbr : ((!cs.isEmpty) && !d.draw.minimized) = false)
    (hfil : d.draw.filtered = false) :
    setColumnWidthsFromWidestText cfg zl (.node d cs) st =
      (.node (walkNodeData cfg zl d) cs, walkStLeaf cfg zl d st) := by
  simp [setColumnWidthsFromWidestText, hh, hbr, hfil, walkNodeData, walkWidth,
    walkSt1, walkStLeaf]

/-- Unfolding of the column-width walk at a visible filtered
leaf-or-minimized node. -/
theorem setColW_filtered (cfg : Config) (zl : ℚ) (d : NodeData) (cs : Forest)
    (st : ColState) (hh : d.draw.hidden = false)
    (hbr : ((!cs.isEmpty) && !d.draw.minimized) = false)
    (hfil : d.draw.filtered = true) :
    setColumnWidthsFromWidestText cfg zl (.node d cs) st =
      (.node (walkNodeData cfg zl d) cs, walkSt1 d st) := by
  simp [setColumnWidthsFromWidestText, hh, hbr, hfil, walkNodeData, walkWidth,
    walkSt1]

/-- `computeLeavesForest` preserves the number of children. -/
theorem computeLeavesForest_length (cfg : Config) (fs : Forest) :
    (computeLeavesForest cfg fs).length = fs.length := by
  cases fs with
  | nil => rfl
  | cons t ts =>
    simp [computeLeavesForest, Forest.length, computeLeavesForest_length cfg ts]

mutual
/-- `_updateTextWidths` changes no collapse-relevant field. -/
theorem coreView_updateTextWidths (cfg : Config) (t : Tree) :
    coreView (updateTextWidths cfg t) = coreView t := by
  cases t with
  | node d cs =>
    simp only [updateTextWidths]
    split
    · rfl
    · have hcs : coreViewF
          (if (!cs.isEmpty) && !d.draw.minimized then updateTextWidthsForest cfg cs
           else cs) = coreViewF cs := by
        split
        · exact coreViewF_updateTextWidthsForest cfg cs
        · rfl
      simp only [coreView]
      rw [hcs]
      rfl

/-- Forest version of `coreView_updateTextWidths`. -/
theorem coreViewF_updateTextWidthsForest (cfg : Config) (fs : Forest) :
    coreViewF (updateTextWidthsForest cfg fs) = coreViewF fs := by
  cases fs with
  | nil => rfl
  | cons t ts =>
    simp only [updateTextWidthsForest, coreViewF]
    rw [coreView_updateTextWidths cfg t, coreViewF_updateTextWidthsForest cfg ts]
end

mutual
/-- `_updateTextWidths` changes no geometry. -/
theorem dimsView_updateTextWidths (cfg : Config) (t : Tree) :
    dimsView (updateTextWidths cfg t) = dimsView t := by
  cases t with
  | node d cs =>
    simp only [updateTextWidths]
    split
    · rfl
    · have hcs : dimsViewF
          (if (!cs.isEmpty) && !d.draw.minimized then updateTextWidthsForest cfg cs
           else cs) = dimsViewF cs := by
        split
        · exact dimsViewF_updateTextWidthsForest cfg cs
        · rfl
      simp only [dimsView]
      rw [hcs]
      rfl

/-- Forest version of `dimsView_updateTextWidths`. -/
theorem dimsViewF_updateTextWidthsForest (cfg : Config) (fs : Forest) :
    dimsViewF (updateTextWidthsForest cfg fs) = dimsViewF fs := by
  cases fs with
  | nil => rfl
  | cons t ts =>
    simp only [updateTextWidthsForest, dimsViewF]
    rw [dimsView_updateTextWidths cfg t, dimsViewF_updateTextWidthsForest cfg ts]
end

mutual
/-- `_computeLeaves` changes no geometry. -/
theorem dimsView_computeLeaves (cfg : Config) (t : Tree) :
    dimsView (computeLeaves cfg t) = dimsView t := by
  cases t with
  | node d cs =>
    by_cases hv : (d.draw.hidden || d.draw.filtered) = true
    · rw [computeLeaves_not_visible cfg d cs hv]
      rfl
    · have hv' : (d.draw.hidden || d.draw.filtered) = false := by simpa using hv
      by_cases hcs : cs.isEmpty = true
      · rw [computeLeaves_leafish cfg d cs hv' (Or.inl hcs)]
        rfl
      · by_cases hm : updateMinimized cfg d cs = true
        · rw [computeLeaves_leafish cfg d cs hv' (Or.inr hm)]
          rfl
        · rw [computeLeaves_expanded cfg d cs hv' (by simpa using hcs)
            (by simpa using hm)]
          simp only [dimsView]
          rw [dimsViewF_computeLeavesForest cfg cs]
          rfl

/-- Forest version of `dimsView_computeLeaves`. -/
theorem dimsViewF_computeLeavesForest (cfg : Config) (fs : Forest) :
    dimsViewF (computeLeavesForest cfg fs) = dimsViewF fs := by
  cases fs with
  | nil => rfl
  | cons t ts =>
    simp only [computeLeavesForest, dimsViewF]
    rw [dimsView_computeLeaves cfg t, dimsViewF_computeLeavesForest cfg ts]
end

mutual
/-- The column-width walk changes no collapse-relevant field of the
tree it returns. -/
theorem coreView_setColumnWidths (cfg : Config) (zl : ℚ) (t : Tree)
    (st : ColState) :
    coreView (setColumnWidthsFromWidestText cfg zl t st).1 = coreView t := by
  cases t with
  | node d cs =>
    by_cases hh : d.draw.hidden = true
    · rw [setColW_hidden cfg zl d cs st hh]
    · have hh' : d.draw.hidden = false := by simpa using hh
      by_cases hbr : ((!cs.isEmpty) && !d.draw.minimized) = true
      · rw [setColW_expanded cfg zl d cs st hh' hbr]
        simp only [coreView]
        rw [coreViewF_setColumnWidthsForest cfg zl cs (walkStExp cfg zl d st)]
        rfl
      · have hbr' : ((!cs.isEmpty) && !d.draw.minimized) = false := by simpa using hbr
        by_cases hfil : d.draw.filtered = true
        · rw [setColW_filtered cfg zl d cs st hh' hbr' hfil]
          rfl
        · rw [setColW_leaf cfg zl d cs st hh' hbr' (by simpa using hfil)]
          rfl

/-- Forest version of `coreView_setColumnWidths`. -/
theorem coreViewF_setColumnWidthsForest (cfg : Config) (zl : ℚ) (fs : Forest)
    (st : ColState) :
    coreViewF (setColumnWidthsForest cfg zl fs st).1 = coreViewF fs := by
  cases fs with
  | nil => rfl
  | cons t ts =>
    rcases h1 : setColumnWidthsFromWidestText cfg zl t st with ⟨t2, st2⟩
    have ht2 : coreView t2 = coreView t := by
      rw [← coreView_setColumnWidths cfg zl t st, h1]
    rcases h2 : setColumnWidthsForest cfg zl ts st2 with ⟨ts2, st3⟩
    have hts2 : coreViewF ts2 = coreViewF ts := by
      rw [← coreViewF_setColumnWidthsForest cfg zl ts st2, h2]
    simp only [setColumnWidthsForest, h1, h2, coreViewF]
    rw [ht2, hts2]
end

mutual
/-- The column-width walk changes no column-relevant field of the tree
it returns. -/
theorem textView_setColumnWidths (cfg : Config) (zl : ℚ) (t : Tree)
    (st : ColState) :
    textView (setColumnWidthsFromWidestText cfg zl t st).1 = textView t := by
  cases t with
  | node d cs =>
    by_cases hh : d.draw.hidden = true
    · rw [setColW_hidden cfg zl d cs st hh]
    · have hh' : d.draw.hidden = false := by simpa using hh
      by_cases hbr : ((!cs.isEmpty) && !d.draw.minimized) = true
      · rw [setColW_expanded cfg zl d cs st hh' hbr]
        simp only [textView]
        rw [textViewF_setColumnWidthsForest cfg zl cs (walkStExp cfg zl d st)]
        rfl
      · have hbr' : ((!cs.isEmpty) && !d.draw.minimized) = false := by simpa using hbr
        by_cases hfil : d.draw.filtered = true
        · rw [setColW_filtered cfg zl d cs st hh' hbr' hfil]
          rfl
        · rw [setColW_leaf cfg zl d cs st hh' hbr' (by simpa using hfil)]
          rfl

/-- Forest version of `textView_setColumnWidths`. -/
theorem textViewF_setColumnWidthsForest (cfg : Config) (zl : ℚ) (fs : Forest)
    (st : ColState) :
    textViewF (setColumnWidthsForest cfg zl fs st).1 = textViewF fs := by
  cases fs with
  | nil => rfl
  | cons t ts =>
    rcases h1 : setColumnWidthsFromWidestText cfg zl t st with ⟨t2, st2⟩
    have ht2 : textView t2 = textView t := by
      rw [← textView_setColumnWidths cfg zl t st, h1]
    rcases h2 : setColumnWidthsForest cfg zl ts st2 with ⟨ts2, st3⟩
    have hts2 : textViewF ts2 = textViewF ts := by
      rw [← textViewF_setColumnWidthsForest cfg zl ts st2, h2]
    simp only [setColumnWidthsForest, h1, h2, textViewF]
    rw [ht2, hts2]
end

mutual
/-- The column-width walk changes no geometry. -/
theorem dimsView_setColumnWidths (cfg : Config) (zl : ℚ) (t : Tree)
    (st : ColState) :
    dimsView (setColumnWidthsFromWidestText cfg zl t st).1 = dimsView t := by
  cases t with
  | node d cs =>
    by_cases hh : d.draw.hidden = true
    · rw [setColW_hidden cfg zl d cs st hh]
    · have hh' : d.draw.hidden = false := by simpa using hh
      by_cases hbr : ((!cs.isEmpty) && !d.draw.minimized) = true
      · rw [setColW_expanded cfg zl d cs st hh' hbr]
        simp only [dimsView]
        rw [dimsViewF_setColumnWidthsForest cfg zl cs (walkStExp cfg zl d st)]
        rfl
      · have hbr' : ((!cs.isEmpty) && !d.draw.minimized) = false := by simpa using hbr
        by_cases hfil : d.draw.filtered = true
        · rw [setColW_filtered cfg zl d cs st hh' hbr' hfil]
          rfl
        · rw [setColW_leaf cfg zl d cs st hh' hbr' (by simpa using hfil)]
          rfl

/-- Forest version of `dimsView_setColumnWidths`. -/
theorem dimsViewF_setColumnWidthsForest (cfg : Config) (zl : ℚ) (fs : Forest)
    (st : ColState) :
    dimsViewF (setColumnWidthsForest cfg zl fs st).1 = dimsViewF fs := by
  cases fs with
  | nil => rfl
  | cons t ts =>
    rcases h1 : setColumnWidthsFromWidestText cfg zl t st with ⟨t2, st2⟩
    have ht2 : dimsView t2 = dimsView t := by
      rw [← dimsView_setColumnWidths cfg zl t st, h1]
    rcases h2 : setColumnWidthsForest cfg zl ts st2 with ⟨ts2, st3⟩
    have hts2 : dimsViewF ts2 = dimsViewF ts := by
      rw [← dimsViewF_setColumnWidthsForest cfg zl ts st2, h2]
    simp only [setColumnWidthsForest, h1, h2, dimsViewF]
    rw [ht2, hts2]
end

mutual
/-- The position pass changes no collapse-relevant field. -/
theorem coreView_positions (env : PosEnv) (t : Tree) (lc : ℚ) (icz : Bool)
    (emp : Option WorkInfo) (pd : ℕ) (py : ℚ) (zr : Option (List ℕ))
    (acc : PosAcc) :
    coreView (computeNormalizedPositions env t lc icz emp pd py zr acc).1 =
      coreView t := by
  cases t with
  | node d cs =>
    simp only [computeNormalizedPositions, coreView]
    rw [coreViewF_positionsF env cs _ _ _ _ _ _ _ _]
    rfl

/-- Forest version of `coreView_positions`. -/
theorem coreViewF_positionsF (env : PosEnv) (fs : Forest) (lc : ℚ) (icz : Bool)
    (emp : Option WorkInfo) (pd : ℕ) (py : ℚ) (zr : Option (List ℕ)) (i : ℕ)
    (acc : PosAcc) :
    coreViewF (computeNormalizedPositionsForest env fs lc icz emp pd py zr i acc).1 =
      coreViewF fs := by
  cases fs with
  | nil => rfl
  | cons c rest =>
    simp only [computeNormalizedPositionsForest]
    split
    · simp only [coreViewF]
      rw [coreView_positions env c _ _ _ _ _ _ _,
        coreViewF_positionsF env rest _ _ _ _ _ _ _ _]
    · simp only [coreViewF]
      rw [coreViewF_positionsF env rest _ _ _ _ _ _ _ _]
end

mutual
/-- The position pass changes no column-relevant field. -/
theorem textView_positions (env : PosEnv) (t : Tree) (lc : ℚ) (icz : Bool)
    (emp : Option WorkInfo) (pd : ℕ) (py : ℚ) (zr : Option (List ℕ))
    (acc : PosAcc) :
    textView (computeNormalizedPositions env t lc icz emp pd py zr acc).1 =
      textView t := by
  cases t with
  | node d cs =>
    simp only [computeNormalizedPositions, textView]
    rw [textViewF_positionsF env cs _ _ _ _ _ _ _ _]
    rfl

/-- Forest version of `textView_positions`. -/
theorem textViewF_positionsF (env : PosEnv) (fs : Forest) (lc : ℚ) (icz : Bool)
    (emp : Option WorkInfo) (pd : ℕ) (py : ℚ) (zr : Option (List ℕ)) (i : ℕ)
    (acc : PosAcc) :
    textViewF (computeNormalizedPositionsForest env fs lc icz emp pd py zr i acc).1 =
      textViewF fs := by
  cases fs with
  | nil => rfl
  | cons c rest =>
    simp only [computeNormalizedPositionsForest]
    split
    · simp only [textViewF]
      rw [textView_positions env c _ _ _ _ _ _ _,
        textViewF_positionsF env rest _ _ _ _ _ _ _ _]
    · simp only [textViewF]
      rw [textViewF_positionsF env rest _ _ _ _ _ _ _ _]
end

/-- A `withLeaves` write that stores the values the node already holds
is the identity. -/
theorem withLeaves_self (d : NodeData) (m : Bool) (q : ℚ)
    (hm : d.draw.minimized = m) (hq : d.draw.numLeaves = q) :
    withLeaves d m q = d := by
  cases d with
  | mk n a p dep io fl dr =>
    cases dr
    simp only [withLeaves] at *
    simp_all

/-- A `withZeroLeaves` write on a node whose count is already 0 is the
identity. -/
theorem withZeroLeaves_self (d : NodeData) (hq : d.draw.numLeaves = 0) :
    withZeroLeaves d = d := by
  cases d with
  | mk n a p dep io fl dr =>
    cases dr
    simp only [withZeroLeaves] at *
    simp_all

/-- A `withNameWidth` write that stores the value the node already
holds is the identity. -/
theorem withNameWidth_self (d : NodeData) (v : ℚ)
    (hv : d.draw.nameWidthPx = v) : withNameWidth d v = d := by
  cases d with
  | mk n a p dep io fl dr =>
    cases dr
    simp only [withNameWidth] at *
    simp_all

/-- `updateMinimized` reads only fields its own write leaves alone, so
applying it again to the written node (over any forest of the same
child count) returns the same flag. -/
theorem updateMinimized_withLeaves (cfg : Config) (d : NodeData)
    (cs cs' : Forest) (q : ℚ) (hlen : cs'.length = cs.length) :
    updateMinimized cfg (withLeaves d (updateMinimized cfg d cs) q) cs' =
      updateMinimized cfg d cs := by
  by_cases h1 : (d.name == "_auto_ivc" && !d.draw.manuallyExpanded) = true
  · simp [updateMinimized, withLeaves, h1]
  · have h1' : (d.name == "_auto_ivc" && !d.draw.manuallyExpanded) = false := by
      simpa using h1
    by_cases h2 : cfg.nodeCount > cfg.minimumNodes
    · simp [updateMinimized, withLeaves, h1', h2, hlen, Bool.or_assoc]
    · simp [updateMinimized, withLeaves, h1', h2]

/-- `updateMinimized` depends only on the name, the expansion flags,
the depth and the child count. -/
theorem updateMinimized_congr (cfg : Config) {d d' : NodeData}
    {cs cs' : Forest} (hn : d.name = d'.name)
    (hman : d.draw.manuallyExpanded = d'.draw.manuallyExpanded)
    (hmin : d.draw.minimized = d'.draw.minimized) (hdep : d.depth = d'.depth)
    (hlen : cs.length = cs'.length) :
    updateMinimized cfg d cs = updateMinimized cfg d' cs' := by
  simp [updateMinimized, hn, hman, hmin, hdep, hlen]

mutual
/-- `_computeLeaves` on a collapse-stable tree is the identity. -/
theorem computeLeaves_of_stable (cfg : Config) (t : Tree)
    (h : LeavesStable cfg t) : computeLeaves cfg t = t := by
  cases t with
  | node d cs =>
    simp only [LeavesStable] at h
    by_cases hv : (d.draw.hidden || d.draw.filtered) = true
    · rw [computeLeaves_not_visible cfg d cs hv, withZeroLeaves_self d (h.1 hv)]
    · have hv' : (d.draw.hidden || d.draw.filtered) = false := by simpa using hv
      obtain ⟨hum, hexp, hleaf⟩ := h.2 hv'
      by_cases hbr : ((!cs.isEmpty) && !d.draw.minimized) = true
      · have hba : cs.isEmpty = false ∧ d.draw.minimized = false := by
          simpa using hbr
        have hmin : d.draw.minimized = false := hba.2
        have hcs : cs.isEmpty = false := hba.1
        obtain ⟨hnl, hst⟩ := hexp hbr
        rw [computeLeaves_expanded cfg d cs hv' hcs (hum.trans hmin),
          computeLeavesForest_of_stable cfg cs hst,
          withLeaves_self d false cs.sumLeaves hmin hnl]
      · have hbr' : ((!cs.isEmpty) && !d.draw.minimized) = false := by simpa using hbr
        have h1 : d.draw.numLeaves = 1 := hleaf hbr'
        have hlm : cs.isEmpty = true ∨ updateMinimized cfg d cs = true := by
          by_cases hcs : cs.isEmpty = true
          · exact Or.inl hcs
          · refine Or.inr ?_
            have hcs' : cs.isEmpty = false := by simpa using hcs
            rw [hcs'] at hbr'
            simp only [Bool.not_false, Bool.true_and] at hbr'
            exact hum.trans (by simpa using hbr')
        rw [computeLeaves_leafish cfg d cs hv' hlm, hum,
          withLeaves_self d d.draw.minimized 1 rfl h1]

/-- Forest version of `computeLeaves_of_stable`. -/
theorem computeLeavesForest_of_stable (cfg : Config) (fs : Forest)
    (h : LeavesStableF cfg fs) : computeLeavesForest cfg fs = fs := by
  cases fs with
  | nil => rfl
  | cons t ts =>
    simp only [LeavesStableF] at h
    simp only [computeLeavesForest]
    rw [computeLeaves_of_stable cfg t h.1, computeLeavesForest_of_stable cfg ts h.2]
end

mutual
/-- `_computeLeaves` always produces a collapse-stable tree. -/
theorem computeLeaves_stable (cfg : Config) (t : Tree) :
    LeavesStable cfg (computeLeaves cfg t) := by
  cases t with
  | node d cs =>
    by_cases hv : (d.draw.hidden || d.draw.filtered) = true
    · rw [computeLeaves_not_visible cfg d cs hv]
      simp only [LeavesStable]
      constructor
      · intro _
        rfl
      · intro hfalse
        simp only [withZeroLeaves] at hfalse
        rw [hv] at hfalse
        exact absurd hfalse (by simp)
    · have hv' : (d.draw.hidden || d.draw.filtered) = false := by simpa using hv
      by_cases hbr : ((!cs.isEmpty) && !(updateMinimized cfg d cs)) = true
      · have hba : cs.isEmpty = false ∧ updateMinimized cfg d cs = false := by
          simpa using hbr
        have hm : updateMinimized cfg d cs = false := hba.2
        have hcs : cs.isEmpty = false := hba.1
        rw [computeLeaves_expanded cfg d cs hv' hcs hm]
        simp only [LeavesStable]
        constructor
        · intro hfalse
          simp only [withLeaves] at hfalse
          rw [hv'] at hfalse
          exact absurd hfalse (by simp)
        · intro _
          have hum2 : updateMinimized cfg
              (withLeaves d false (computeLeavesForest cfg cs).sumLeaves)
              (computeLeavesForest cfg cs) = false := by
            have := updateMinimized_withLeaves cfg d cs (computeLeavesForest cfg cs)
              (computeLeavesForest cfg cs).sumLeaves
              (computeLeavesForest_length cfg cs)
            rw [hm] at this
            simpa [hm] using this
          have hemp2 : (computeLeavesForest cfg cs).isEmpty = false := by
            rw [computeLeavesForest_isEmpty cfg cs]
            exact hcs
          refine ⟨by simpa [withLeaves] using hum2, fun _ => ?_, fun habs => ?_⟩
          · exact ⟨rfl, computeLeavesForest_stable cfg cs⟩
          · rw [hemp2] at habs
            simp [withLeaves] at habs
      · have hlm : cs.isEmpty = true ∨ updateMinimized cfg d cs = true := by
          by_cases hcs : cs.isEmpty = true
          · exact Or.inl hcs
          · have hcs' : cs.isEmpty = false := by simpa using hcs
            rw [hcs'] at hbr
            simp only [Bool.not_false, Bool.true_and, Bool.not_eq_true,
              Bool.not_eq_false] at hbr
            exact Or.inr (by simpa using hbr)
        rw [computeLeaves_leafish cfg d cs hv' hlm]
        simp only [LeavesStable]
        constructor
        · intro hfalse
          simp only [withLeaves] at hfalse
          rw [hv'] at hfalse
          exact absurd hfalse (by simp)
        · intro _
          have hum2 : updateMinimized cfg
              (withLeaves d (updateMinimized cfg d cs) 1) cs =
              updateMinimized cfg d cs :=
            updateMinimized_withLeaves cfg d cs cs 1 rfl
          refine ⟨by simpa [withLeaves] using hum2, fun habs => ?_, fun _ => rfl⟩
          · exfalso
            have hba : cs.isEmpty = false ∧
                (withLeaves d (updateMinimized cfg d cs) 1).draw.minimized = false := by
              simpa using habs
            rcases hlm with hcs | hmt
            · rw [hcs] at hba
              simp at hba
            · have := hba.2
              simp only [withLeaves] at this
              rw [hmt] at this
              simp at this

/-- Forest version of `computeLeaves_stable`. -/
theorem computeLeavesForest_stable (cfg : Config) (fs : Forest) :
    LeavesStableF cfg (computeLeavesForest cfg fs) := by
  cases fs with
  | nil => trivial
  | cons t ts =>
    simp only [computeLeavesForest, LeavesStableF]
    exact ⟨computeLeaves_stable cfg t, computeLeavesForest_stable cfg ts⟩
end

mutual
/-- Collapse stability is carried by the collapse-relevant view. -/
theorem leavesStable_congr (cfg : Config) (t t' : Tree)
    (h : coreView t = coreView t') (hs : LeavesStable cfg t) :
    LeavesStable cfg t' := by
  cases t with
  | node d cs =>
    cases t' with
    | node d' cs' =>
      simp only [coreView, Tree.node.injEq] at h
      obtain ⟨hcd, hcf⟩ := h
      obtain ⟨hn, ha, hp, hdep, hin, hif, hhid, hfil, hmin, hman, hnl⟩ :=
        coreData_inj hcd
      have hlen : cs.length = cs'.length := by
        rw [← coreViewF_length cs, ← coreViewF_length cs', hcf]
      have hemp : cs.isEmpty = cs'.isEmpty := by
        rw [← coreViewF_isEmpty cs, ← coreViewF_isEmpty cs', hcf]
      have hsum : cs.sumLeaves = cs'.sumLeaves := by
        rw [← coreViewF_sumLeaves cs, ← coreViewF_sumLeaves cs', hcf]
      have hum : updateMinimized cfg d cs = updateMinimized cfg d' cs' :=
        updateMinimized_congr cfg hn hman hmin hdep hlen
      simp only [LeavesStable] at hs ⊢
      refine ⟨fun hv => ?_, fun hv => ?_⟩
      · rw [← hnl]
        exact hs.1 (by rw [hhid, hfil]; exact hv)
      · have hv0 : (d.draw.hidden || d.draw.filtered) = false := by
          rw [hhid, hfil]; exact hv
        obtain ⟨h1, h2, h3⟩ := hs.2 hv0
        refine ⟨by rw [← hum, ← hmin]; exact h1, fun hbr => ?_, fun hbr => ?_⟩
        · have hbr0 : ((!cs.isEmpty) && !d.draw.minimized) = true := by
            rw [hemp, hmin]; exact hbr
          obtain ⟨hq, hf⟩ := h2 hbr0
          exact ⟨by rw [← hnl, ← hsum]; exact hq,
            leavesStableF_congr cfg cs cs' hcf hf⟩
        · have hbr0 : ((!cs.isEmpty) && !d.draw.minimized) = false := by
            rw [hemp, hmin]; exact hbr
          rw [← hnl]
          exact h3 hbr0

/-- Forest version of `leavesStable_congr`. -/
theorem leavesStableF_congr (cfg : Config) (fs fs' : Forest)
    (h : coreViewF fs = coreViewF fs') (hs : LeavesStableF cfg fs) :
    LeavesStableF cfg fs' := by
  cases fs with
  | nil =>
    cases fs' with
    | nil => trivial
    | cons t ts => simp [coreViewF] at h
  | cons t ts =>
    cases fs' with
    | nil => simp [coreViewF] at h
    | cons t' ts' =>
      simp only [coreViewF, Forest.cons.injEq] at h
      simp only [LeavesStableF] at hs ⊢
      exact ⟨leavesStable_congr cfg t t' h.1 hs.1,
        leavesStableF_congr cfg ts ts' h.2 hs.2⟩
end

/-- Unfolding of `_updateTextWidths` at a hidden node. -/
theorem updateTextWidths_hidden (cfg : Config) (d : NodeData) (cs : Forest)
    (hh : d.draw.hidden = true) :
    updateTextWidths cfg (.node d cs) = .node d cs := by
  simp [updateTextWidths, hh]

/-- Unfolding of `_updateTextWidths` at a non-hidden node. -/
theorem updateTextWidths_vis (cfg : Config) (d : NodeData) (cs : Forest)
    (hh : d.draw.hidden = false) :
    updateTextWidths cfg (.node d cs) =
      .node (withNameWidth d (cfg.measureText (getText d) + 2 * cfg.rightTextMargin))
        (if (!cs.isEmpty) && !d.draw.minimized then updateTextWidthsForest cfg cs
         else cs) := by
  simp [updateTextWidths, hh, withNameWidth]

/-- `updateTextWidthsForest` preserves forest emptiness. -/
theorem updateTextWidthsForest_isEmpty (cfg : Config) (fs : Forest) :
    (updateTextWidthsForest cfg fs).isEmpty = fs.isEmpty := by
  cases fs <;> simp [updateTextWidthsForest, Forest.isEmpty]

mutual
/-- `_updateTextWidths` on a text-stable tree is the identity. -/
theorem updateTextWidths_of_stable (cfg : Config) (t : Tree)
    (h : TextStable cfg t) : updateTextWidths cfg t = t := by
  cases t with
  | node d cs =>
    simp only [TextStable] at h
    by_cases hh : d.draw.hidden = true
    · exact updateTextWidths_hidden cfg d cs hh
    · have hh' : d.draw.hidden = false := by simpa using hh
      obtain ⟨hnw, hch⟩ := h hh'
      rw [updateTextWidths_vis cfg d cs hh', withNameWidth_self d _ hnw]
      by_cases hbr : ((!cs.isEmpty) && !d.draw.minimized) = true
      · rw [if_pos hbr, updateTextWidthsForest_of_stable cfg cs (hch hbr)]
      · rw [if_neg (by simpa using hbr)]

/-- Forest version of `updateTextWidths_of_stable`. -/
theorem updateTextWidthsForest_of_stable (cfg : Config) (fs : Forest)
    (h : TextStableF cfg fs) : updateTextWidthsForest cfg fs = fs := by
  cases fs with
  | nil => rfl
  | cons t ts =>
    simp only [TextStableF] at h
    simp only [updateTextWidthsForest]
    rw [updateTextWidths_of_stable cfg t h.1,
      updateTextWidthsForest_of_stable cfg ts h.2]
end

mutual
/-- `_updateTextWidths` always produces a text-stable tree. -/
theorem updateTextWidths_stable (cfg : Config) (t : Tree) :
    TextStable cfg (updateTextWidths cfg t) := by
  cases t with
  | node d cs =>
    by_cases hh : d.draw.hidden = true
    · rw [updateTextWidths_hidden cfg d cs hh]
      simp only [TextStable]
      intro hfalse
      rw [hh] at hfalse
      exact absurd hfalse (by simp)
    · have hh' : d.draw.hidden = false := by simpa using hh
      rw [updateTextWidths_vis cfg d cs hh']
      simp only [TextStable]
      intro _
      constructor
      · rfl
      · intro hbr
        by_cases hbr0 : ((!cs.isEmpty) && !d.draw.minimized) = true
        · rw [if_pos hbr0]
          exact updateTextWidthsForestStable cfg cs
        · exfalso
          rw [if_neg (by simpa using hbr0)] at hbr
          simp only [withNameWidth] at hbr
          exact hbr0 hbr

/-- Forest version of `updateTextWidths_stable`. -/
theorem updateTextWidthsForestStable (cfg : Config) (fs : Forest) :
    TextStableF cfg (updateTextWidthsForest cfg fs) := by
  cases fs with
  | nil => trivial
  | cons t ts =>
    simp only [updateTextWidthsForest, TextStableF]
    exact ⟨updateTextWidths_stable cfg t, updateTextWidthsForestStable cfg ts⟩
end

mutual
/-- Text stability is carried by the column-relevant view. -/
theorem textStable_congr (cfg : Config) (t t' : Tree)
    (h : textView t = textView t') (hs : TextStable cfg t) :
    TextStable cfg t' := by
  cases t with
  | node d cs =>
    cases t' with
    | node d' cs' =>
      simp only [textView, Tree.node.injEq] at h
      obtain ⟨hcd, hcf⟩ := h
      obtain ⟨hn, ha, hp, hdep, hin, hif, hhid, hfil, hmin, hman, hnl, hnw⟩ :=
        textData_inj hcd
      have hemp : cs.isEmpty = cs'.isEmpty := by
        rw [← textViewF_isEmpty cs, ← textViewF_isEmpty cs', hcf]
      have htext : getText d = getText d' := by
        simp [getText, hn, ha, hp, hif]
      simp only [TextStable] at hs ⊢
      intro hv
      obtain ⟨h1, h2⟩ := hs (by rw [hhid]; exact hv)
      refine ⟨by rw [← hnw, ← htext]; exact h1, fun hbr => ?_⟩
      have hbr0 : ((!cs.isEmpty) && !d.draw.minimized) = true := by
        rw [hemp, hmin]; exact hbr
      exact textStableF_congr cfg cs cs' hcf (h2 hbr0)

/-- Forest version of `textStable_congr`. -/
theorem textStableF_congr (cfg : Config) (fs fs' : Forest)
    (h : textViewF fs = textViewF fs') (hs : TextStableF cfg fs) :
    TextStableF cfg fs' := by
  cases fs with
  | nil =>
    cases fs' with
    | nil => trivial
    | cons t ts => simp [textViewF] at h
  | cons t ts =>
    cases fs' with
    | nil => simp [textViewF] at h
    | cons t' ts' =>
      simp only [textViewF, Forest.cons.injEq] at h
      simp only [TextStableF] at hs ⊢
      exact ⟨textStable_congr cfg t t' h.1 hs.1,
        textStableF_congr cfg ts ts' h.2 hs.2⟩
end

mutual
/-- The column/leaf-width state computed by the walk depends only on the
column-relevant view of the tree. -/
theorem colStateCongr (cfg : Config) (zl : ℚ) (t t' : Tree) (st : ColState)
    (h : textView t = textView t') :
    (setColumnWidthsFromWidestText cfg zl t st).2 =
      (setColumnWidthsFromWidestText cfg zl t' st).2 := by
  cases t with
  | node d cs =>
    cases t' with
    | node d' cs' =>
      simp only [textView, Tree.node.injEq] at h
      obtain ⟨hcd, hcf⟩ := h
      obtain ⟨hn, ha, hp, hdep, hInOut, hif, hhid, hfil, hmin, hman, hnl, hnw⟩ :=
        textData_inj hcd
      have hemp : cs.isEmpty = cs'.isEmpty := by
        rw [← textViewF_isEmpty cs, ← textViewF_isEmpty cs', hcf]
      have hww : walkWidth cfg zl d = walkWidth cfg zl d' := by
        simp [walkWidth, hnl, hnw]
      have hst1 : walkSt1 d st = walkSt1 d' st := by
        simp [walkSt1, hdep]
      have hstE : walkStExp cfg zl d st = walkStExp cfg zl d' st := by
        simp only [walkStExp, hst1, hww, hdep]
      have hstL : walkStLeaf cfg zl d st = walkStLeaf cfg zl d' st := by
        simp only [walkStLeaf, hst1, hww, hdep]
      by_cases hh : d.draw.hidden = true
      · rw [setColW_hidden cfg zl d cs st hh,
          setColW_hidden cfg zl d' cs' st (hhid ▸ hh)]
      · have hh' : d.draw.hidden = false := by simpa using hh
        have hh'2 : d'.draw.hidden = false := hhid ▸ hh'
        by_cases hbr : ((!cs.isEmpty) && !d.draw.minimized) = true
        · have hbr2 : ((!cs'.isEmpty) && !d'.draw.minimized) = true := by
            rw [← hemp, ← hmin]; exact hbr
          rw [setColW_expanded cfg zl d cs st hh' hbr,
            setColW_expanded cfg zl d' cs' st hh'2 hbr2]
          simp only
          rw [← hstE]
          exact colStateCongrF cfg zl cs cs' (walkStExp cfg zl d st) hcf
        · have hbr' : ((!cs.isEmpty) && !d.draw.minimized) = false := by
            simpa using hbr
          have hbr2 : ((!cs'.isEmpty) && !d'.draw.minimized) = false := by
            rw [← hemp, ← hmin]; exact hbr'
          by_cases hfc : d.draw.filtered = true
          · rw [setColW_filtered cfg zl d cs st hh' hbr' hfc,
              setColW_filtered cfg zl d' cs' st hh'2 hbr2 (hfil ▸ hfc)]
            simp only
            exact hst1
          · have hfc' : d.draw.filtered = false := by simpa using hfc
            rw [setColW_leaf cfg zl d cs st hh' hbr' hfc',
              setColW_leaf cfg zl d' cs' st hh'2 hbr2 (hfil ▸ hfc')]
            simp only
            exact hstL

/-- Forest version of `colStateCongr`. -/
theorem colStateCongrF (cfg : Config) (zl : ℚ) (fs fs' : Forest) (st : ColState)
    (h : textViewF fs = textViewF fs') :
    (setColumnWidthsForest cfg zl fs st).2 =
      (setColumnWidthsForest cfg zl fs' st).2 := by
  cases fs with
  | nil =>
    cases fs' with
    | nil => rfl
    | cons t ts => simp [textViewF] at h
  | cons t ts =>
    cases fs' with
    | nil => simp [textViewF] at h
    | cons t' ts' =>
      simp only [textViewF, Forest.cons.injEq] at h
      rcases h1 : setColumnWidthsFromWidestText cfg zl t st with ⟨t2, st2⟩
      rcases h1' : setColumnWidthsFromWidestText cfg zl t' st with ⟨t2', st2'⟩
      have hst2 : st2 = st2' := by
        have hcall := colStateCongr cfg zl t t' st h.1
        rw [h1, h1'] at hcall
        exact hcall
      rcases h2 : setColumnWidthsForest cfg zl ts st2 with ⟨ts2, st3⟩
      rcases h2' : setColumnWidthsForest cfg zl ts' st2' with ⟨ts2', st3'⟩
      have hst3 : st3 = st3' := by
        have hcall := colStateCongrF cfg zl ts ts' st2 h.2
        rw [h2] at hcall
        rw [← hst2] at h2'
        rw [h2'] at hcall
        exact hcall
      simp only [setColumnWidthsForest, h1, h1', h2, h2']
      exact hst3
end

mutual
/-- The geometry the position pass writes depends only on the
collapse-relevant view of the input and, at skipped subtrees, on the
geometry the input carries: if the input's geometry already equals the
output's geometry on the reference run, the two runs produce the same
geometry. -/
theorem dimsPositionsCongr (env : PosEnv) (t t' : Tree) (lc : ℚ) (icz : Bool)
    (emp : Option WorkInfo) (pd : ℕ) (py : ℚ) (zr : Option (List ℕ))
    (acc acc' : PosAcc) (hc : coreView t = coreView t')
    (hd : dimsView t =
      dimsView (computeNormalizedPositions env t' lc icz emp pd py zr acc').1) :
    dimsView (computeNormalizedPositions env t lc icz emp pd py zr acc).1 =
      dimsView (computeNormalizedPositions env t' lc icz emp pd py zr acc').1 := by
  cases t with
  | node d cs =>
    cases t' with
    | node d' cs' =>
      simp only [coreView, Tree.node.injEq] at hc
      obtain ⟨hcd, hcf⟩ := hc
      obtain ⟨hn, ha, hp, hdep, hInOut, hif, hhid, hfil, hmin, hman, hnl⟩ :=
        coreData_inj hcd
      have hemp : cs.isEmpty = cs'.isEmpty := by
        rw [← coreViewF_isEmpty cs, ← coreViewF_isEmpty cs', hcf]
      have hvis : isVisible d.draw = isVisible d'.draw := by
        simp [isVisible, hhid, hfil]
      have hvl : isVisibleLeaf d cs = isVisibleLeaf d' cs' := by
        simp [isVisibleLeaf, hvis, hemp, hmin]
      simp only [computeNormalizedPositions] at hd ⊢
      simp only [apply_ite Prod.fst, apply_ite Prod.snd] at hd ⊢
      simp only [dimsView, dimsData] at hd ⊢
      rw [← hvis, ← hvl, ← hdep, ← hnl, ← hemp, ← hmin, ← hfil, ← hhid, ← ha]
        at hd ⊢
      injection hd with hd1 hd2
      refine congrArg₂ Tree.node rfl ?_
      rw [dimsPositionsCongrF env cs cs' _ _ _ _ _ _ _ _ _ hcf hd2]

/-- Forest version of `dimsPositionsCongr`. -/
theorem dimsPositionsCongrF (env : PosEnv) (fs fs' : Forest) (lc : ℚ)
    (icz : Bool) (emp : Option WorkInfo) (pd : ℕ) (py : ℚ)
    (zr : Option (List ℕ)) (i : ℕ) (acc acc' : PosAcc)
    (hc : coreViewF fs = coreViewF fs')
    (hd : dimsViewF fs =
      dimsViewF (computeNormalizedPositionsForest env fs' lc icz emp pd py zr i acc').1) :
    dimsViewF (computeNormalizedPositionsForest env fs lc icz emp pd py zr i acc).1 =
      dimsViewF (computeNormalizedPositionsForest env fs' lc icz emp pd py zr i acc').1 := by
  cases fs with
  | nil =>
    cases fs' with
    | nil => rfl
    | cons c rest => simp [coreViewF] at hc
  | cons c rest =>
    cases fs' with
    | nil => simp [coreViewF] at hc
    | cons c' rest' =>
      simp only [coreViewF, Forest.cons.injEq] at hc
      obtain ⟨hch, hct⟩ := hc
      obtain ⟨_, _, _, _, hInOut, _, _, _, hminh, _, hnlh⟩ :=
        coreData_inj (coreView_data_eq hch)
      simp only [computeNormalizedPositionsForest] at hd ⊢
      rw [← hInOut, ← hminh, ← hnlh] at hd ⊢
      by_cases hsk : (c.data.isInputOrOutput && c.data.draw.minimized) = true
      · have hcond : ¬ ((!(c.data.isInputOrOutput && c.data.draw.minimized)) = true) := by
          rw [hsk]
          simp
        rw [if_neg hcond] at hd
        rw [if_neg hcond, if_neg hcond]
        simp only [dimsViewF] at hd ⊢
        injection hd with hd1 hd2
        rw [hd1, dimsPositionsCongrF env rest rest' _ _ _ _ _ _ _ _ _ hct hd2]
      · have hskf : (c.data.isInputOrOutput && c.data.draw.minimized) = false := by
          simpa using hsk
        have hcond : (!(c.data.isInputOrOutput && c.data.draw.minimized)) = true := by
          rw [hskf]
          simp
        rw [if_pos hcond] at hd
        rw [if_pos hcond, if_pos hcond]
        simp only [dimsViewF] at hd ⊢
        injection hd with hd1 hd2
        rw [dimsPositionsCongr env c c' _ _ _ _ _ _ _ _ hch hd1,
          dimsPositionsCongrF env rest rest' _ _ _ _ _ _ _ _ _ hct hd2]
end

/-- Editing with the identity changes nothing, whatever the path. -/
theorem modifyAt_id (p : List ℕ) (t : Tree) : modifyAt t p (fun s => s) = t := by
  cases hsub : subtreeAt t p with
  | none => exact modifyAt_invalid p t _ hsub
  | some w => exact modifyAt_fix p t w _ hsub rfl

/-- `numLeaves` at the root of an equal `coreView` pair. -/
theorem coreView_numLeaves {s s' : Tree} (h : coreView s = coreView s') :
    s.data.draw.numLeaves = s'.data.draw.numLeaves :=
  (coreData_inj (coreView_data_eq h)).2.2.2.2.2.2.2.2.2.2

/-- `numLeaves` at the root of an equal `textView` pair. -/
theorem textView_numLeaves {s s' : Tree} (h : textView s = textView s') :
    s.data.draw.numLeaves = s'.data.draw.numLeaves :=
  (textData_inj (textView_data_eq h)).2.2.2.2.2.2.2.2.2.2.1

/-- Depth at the root of an equal `textView` pair. -/
theorem textView_depth {s s' : Tree} (h : textView s = textView s') :
    s.data.depth = s'.data.depth :=
  (textData_inj (textView_data_eq h)).2.2.2.1

/-- On success, the first component of `_computeColumnWidths` is the
tree the column-width walk returns. -/
theorem computeColumnWidths_fst (cfg : Config) (z : Tree)
    (cw : Tree × List Col × List ℚ × ℕ)
    (h : computeColumnWidths cfg z = some cw) :
    cw.1 = (setColumnWidthsFromWidestText cfg z.data.draw.numLeaves z
      ⟨List.replicate (cfg.maxDepth + 1) {},
       List.replicate (cfg.maxDepth + 1) 0, 0⟩).1 := by
  simp only [computeColumnWidths] at h
  split at h
  · exact absurd h (by simp)
  · split at h
    · exact absurd h (by simp)
    · injection h with h2
      rw [← h2]

/-- The column/leaf-width/greatest-depth output of
`_computeColumnWidths` - including whether its member writes throw -
depends only on the column-relevant view of the zoomed element. -/
theorem computeColumnWidths_congr (cfg : Config) (w z : Tree)
    (h : textView w = textView z) :
    (computeColumnWidths cfg w).map (fun q => q.2) =
      (computeColumnWidths cfg z).map (fun q => q.2) := by
  have hdz : w.data.depth = z.data.depth := textView_depth h
  have hnlz : w.data.draw.numLeaves = z.data.draw.numLeaves := textView_numLeaves h
  simp only [computeColumnWidths, hdz, hnlz]
  rcases hA : setColumnWidthsFromWidestText cfg z.data.draw.numLeaves w
      ⟨List.replicate (cfg.maxDepth + 1) {}, List.replicate (cfg.maxDepth + 1) 0, 0⟩
    with ⟨zA, stA⟩
  rcases hB : setColumnWidthsFromWidestText cfg z.data.draw.numLeaves z
      ⟨List.replicate (cfg.maxDepth + 1) {}, List.replicate (cfg.maxDepth + 1) 0, 0⟩
    with ⟨zB, stB⟩
  have hst : stA = stB := by
    have hcall := colStateCongr cfg z.data.draw.numLeaves w z
      ⟨List.replicate (cfg.maxDepth + 1) {}, List.replicate (cfg.maxDepth + 1) 0, 0⟩ h
    rw [hA, hB] at hcall
    exact hcall
  rw [hst]
  dsimp only
  split
  · rfl
  · split
    · rfl
    · rfl

/-- C8: running the geometry pipeline a second time on the model object
a successful first run left behind, with the same zoomed element, again
succeeds - the member writes of `_computeColumnWidths` hit the same
valid indices, because the second run reaches the write with the same
column state - and reproduces the first run's geometry bit for bit: the
collapse-relevant fields (in particular every node's `numLeaves`),
every node's dims, the column widths and locations, the per-depth leaf
text widths, the greatest depth, and the partition-tree width.  The
zoomed element is assumed to denote a node of the model (`subtreeAt`
succeeds), which is what holding a reference to it means. -/
theorem C8_pipeline_idempotent (cfg : Config) (zpath : List ℕ) (t : Tree)
    (s1 : LayoutState) (hz : (subtreeAt t zpath).isSome = true)
    (h1 : layoutPipeline cfg zpath t = some s1) :
    ∃ s2, layoutPipeline cfg zpath s1.tree = some s2 ∧
      coreView s2.tree = coreView s1.tree ∧
      dimsView s2.tree = dimsView s1.tree ∧
      s2.cols = s1.cols ∧
      s2.leafWidthsPx = s1.leafWidthsPx ∧
      s2.greatestDepth = s1.greatestDepth ∧
      s2.partitionTreeWidth = s1.partitionTreeWidth := by
  classical
  -- the first run's column-width stage succeeded
  obtain ⟨cw, hcw⟩ : ∃ cw, pipeCW cfg zpath t = some cw := by
    cases hc : pipeCW cfg zpath t with
    | none =>
      rw [layoutPipeline_none cfg zpath t hc] at h1
      exact absurd h1 (by simp)
    | some cw => exact ⟨cw, rfl⟩
  have hs1 : s1 = pipeState cfg zpath t cw := by
    have h2 := layoutPipeline_eq cfg zpath t cw hcw
    rw [h1] at h2
    injection h2 with h3
  subst hs1
  have hps : (pipeState cfg zpath t cw).tree = (pipeR cfg zpath t cw).1 := rfl
  have hps2 : (pipeState cfg zpath t cw).cols = (pipeLocs cw).2 := rfl
  have hps3 : (pipeState cfg zpath t cw).leafWidthsPx = cw.2.2.1 := rfl
  have hps4 : (pipeState cfg zpath t cw).greatestDepth = cw.2.2.2 := rfl
  have hps5 : (pipeState cfg zpath t cw).partitionTreeWidth = (pipeLocs cw).1 := rfl
  rw [hps, hps2, hps3, hps4, hps5]
  -- the zoomed subtree exists at every stage of run one
  obtain ⟨z0, hz0⟩ : ∃ z, subtreeAt t zpath = some z := by
    cases hsub : subtreeAt t zpath with
    | none => rw [hsub] at hz; exact absurd hz (by simp)
    | some z => exact ⟨z, rfl⟩
  obtain ⟨z1, hz1⟩ : ∃ z, subtreeAt (pipeT1 cfg t) zpath = some z := by
    have hmap : (subtreeAt (pipeT1 cfg t) zpath).map dimsView =
        some (dimsView z0) := by
      rw [← subtreeAt_dimsView, pipeT1, dimsView_computeLeaves cfg t,
        subtreeAt_dimsView, hz0, Option.map_some']
    cases hsub : subtreeAt (pipeT1 cfg t) zpath with
    | none => rw [hsub] at hmap; exact absurd hmap (by simp)
    | some z => exact ⟨z, rfl⟩
  have hsub2 : subtreeAt (pipeT2 cfg zpath t) zpath =
      some (updateTextWidths cfg z1) := by
    rw [pipeT2, subtreeAt_modifyAt, hz1, Option.map_some']
  have hz2eq : pipeZ2 cfg zpath t = updateTextWidths cfg z1 := by
    rw [pipeZ2, hsub2, Option.getD_some]
  have hsub3 : subtreeAt (pipeT3 cfg zpath t cw) zpath = some cw.1 := by
    rw [pipeT3, subtreeAt_modifyAt, hsub2, Option.map_some']
  -- the collapse-relevant view survives the later passes of run one
  have hc21 : coreView (pipeT2 cfg zpath t) = coreView (pipeT1 cfg t) := by
    rw [pipeT2, modifyAt_coreView zpath (pipeT1 cfg t) _ (fun s => s)
      (fun s => coreView_updateTextWidths cfg s), modifyAt_id]
  have hcwfst := computeColumnWidths_fst cfg (pipeZ2 cfg zpath t) cw hcw
  have hcwz : coreView cw.1 = coreView (pipeZ2 cfg zpath t) := by
    rw [hcwfst]
    exact coreView_setColumnWidths cfg (pipeZ2 cfg zpath t).data.draw.numLeaves
      (pipeZ2 cfg zpath t) _
  have hsubc2 : subtreeAt (coreView (pipeT2 cfg zpath t)) zpath =
      some (coreView (updateTextWidths cfg z1)) := by
    rw [subtreeAt_coreView, hsub2, Option.map_some']
  have hc32 : coreView (pipeT3 cfg zpath t cw) = coreView (pipeT2 cfg zpath t) := by
    rw [pipeT3, modifyAt_coreView zpath (pipeT2 cfg zpath t) _
      (fun _ => coreView cw.1) (fun s => rfl)]
    refine modifyAt_fix zpath _ _ _ hsubc2 ?_
    rw [hcwz, hz2eq]
  have hcT3 : coreView (pipeR cfg zpath t cw).1 = coreView (pipeT3 cfg zpath t cw) :=
    coreView_positions (pipeEnv cfg zpath t cw) (pipeT3 cfg zpath t cw) 0 false
      none 0 0 (some zpath) ⟨[], []⟩
  have hcT1 : coreView (pipeR cfg zpath t cw).1 = coreView (pipeT1 cfg t) := by
    rw [hcT3, hc32, hc21]
  -- the column-relevant view also survives the later passes of run one
  have htwz : textView cw.1 = textView (pipeZ2 cfg zpath t) := by
    rw [hcwfst]
    exact textView_setColumnWidths cfg (pipeZ2 cfg zpath t).data.draw.numLeaves
      (pipeZ2 cfg zpath t) _
  have hsubt2 : subtreeAt (textView (pipeT2 cfg zpath t)) zpath =
      some (textView (updateTextWidths cfg z1)) := by
    rw [subtreeAt_textView, hsub2, Option.map_some']
  have htv32 : textView (pipeT3 cfg zpath t cw) = textView (pipeT2 cfg zpath t) := by
    rw [pipeT3, modifyAt_textView zpath (pipeT2 cfg zpath t) _
      (fun _ => textView cw.1) (fun s => rfl)]
    refine modifyAt_fix zpath _ _ _ hsubt2 ?_
    rw [htwz, hz2eq]
  have htvT2 : textView (pipeR cfg zpath t cw).1 = textView (pipeT2 cfg zpath t) := by
    have h0 : textView (pipeR cfg zpath t cw).1 = textView (pipeT3 cfg zpath t cw) :=
      textView_positions (pipeEnv cfg zpath t cw) (pipeT3 cfg zpath t cw) 0 false
        none 0 0 (some zpath) ⟨[], []⟩
    rw [h0, htv32]
  -- run two, stage one: the collapse pass is the identity
  have hLST : LeavesStable cfg (pipeR cfg zpath t cw).1 :=
    leavesStable_congr cfg (pipeT1 cfg t) (pipeR cfg zpath t cw).1 hcT1.symm
      (computeLeaves_stable cfg t)
  have hU1 : computeLeaves cfg (pipeR cfg zpath t cw).1 = (pipeR cfg zpath t cw).1 :=
    computeLeaves_of_stable cfg (pipeR cfg zpath t cw).1 hLST
  -- the zoomed subtree of the run-one output
  obtain ⟨w, hw, hwc⟩ : ∃ w, subtreeAt (pipeR cfg zpath t cw).1 zpath = some w ∧
      coreView w = coreView cw.1 := by
    have hmap : (subtreeAt (pipeR cfg zpath t cw).1 zpath).map coreView =
        some (coreView cw.1) := by
      rw [← subtreeAt_coreView, hcT3, subtreeAt_coreView, hsub3, Option.map_some']
    cases hsub : subtreeAt (pipeR cfg zpath t cw).1 zpath with
    | none => rw [hsub] at hmap; exact absurd hmap (by simp)
    | some w =>
      rw [hsub, Option.map_some'] at hmap
      exact ⟨w, rfl, by injection hmap⟩
  have htw : textView w = textView (updateTextWidths cfg z1) := by
    have hmap1 : (subtreeAt (pipeR cfg zpath t cw).1 zpath).map textView =
        some (textView (updateTextWidths cfg z1)) := by
      rw [← subtreeAt_textView, htvT2, subtreeAt_textView, hsub2, Option.map_some']
    rw [hw, Option.map_some'] at hmap1
    injection hmap1
  -- run two, stage two: the text-width pass is the identity
  have hTSw : TextStable cfg w :=
    textStable_congr cfg (updateTextWidths cfg z1) w htw.symm
      (updateTextWidths_stable cfg z1)
  have hT2r2 : pipeT2 cfg zpath (pipeR cfg zpath t cw).1 = (pipeR cfg zpath t cw).1 := by
    rw [pipeT2, pipeT1, hU1]
    exact modifyAt_fix zpath _ w _ hw (updateTextWidths_of_stable cfg w hTSw)
  have hz2r2 : pipeZ2 cfg zpath (pipeR cfg zpath t cw).1 = w := by
    rw [pipeZ2, hT2r2, hw, Option.getD_some]
  -- run two, stage three: the column computation succeeds again with
  -- the same column state (so the same member-write indices succeed)
  have hmapcw : (computeColumnWidths cfg w).map (fun q => q.2) = some cw.2 := by
    have hcg := computeColumnWidths_congr cfg w (updateTextWidths cfg z1)
      (by rw [htw])
    rw [hcg, ← hz2eq,
      show computeColumnWidths cfg (pipeZ2 cfg zpath t) = some cw from hcw,
      Option.map_some']
  obtain ⟨cw2, hcw2, hcw2snd⟩ : ∃ cw2, computeColumnWidths cfg w = some cw2 ∧
      cw2.2 = cw.2 := by
    cases hc : computeColumnWidths cfg w with
    | none => rw [hc] at hmapcw; exact absurd hmapcw (by simp)
    | some q =>
      rw [hc, Option.map_some'] at hmapcw
      exact ⟨q, rfl, by injection hmapcw⟩
  have hcw2p : pipeCW cfg zpath (pipeR cfg zpath t cw).1 = some cw2 := by
    rw [pipeCW, hz2r2]
    exact hcw2
  have hlocsEq : pipeLocs cw2 = pipeLocs cw := by
    rw [pipeLocs, pipeLocs,
      show cw2.2.1 = cw.2.1 from congrArg (fun q => q.1) hcw2snd]
  -- the tree fed to the run-two position pass
  have hu3 : pipeT3 cfg zpath (pipeR cfg zpath t cw).1 cw2 =
      modifyAt (pipeR cfg zpath t cw).1 zpath (fun _ => cw2.1) := by
    rw [pipeT3, hT2r2]
  have hcw2fst := computeColumnWidths_fst cfg w cw2 hcw2
  have hcw2z : coreView cw2.1 = coreView w := by
    rw [hcw2fst]
    exact coreView_setColumnWidths cfg w.data.draw.numLeaves w _
  have hdw2z : dimsView cw2.1 = dimsView w := by
    rw [hcw2fst]
    exact dimsView_setColumnWidths cfg w.data.draw.numLeaves w _
  have hcu3 : coreView (pipeT3 cfg zpath (pipeR cfg zpath t cw).1 cw2) =
      coreView (pipeR cfg zpath t cw).1 := by
    rw [hu3, modifyAt_coreView zpath (pipeR cfg zpath t cw).1 _
      (fun _ => coreView cw2.1) (fun s => rfl)]
    refine modifyAt_fix zpath _ (coreView w) _ ?_ ?_
    · rw [subtreeAt_coreView, hw, Option.map_some']
    · exact hcw2z
  have hdu3 : dimsView (pipeT3 cfg zpath (pipeR cfg zpath t cw).1 cw2) =
      dimsView (pipeR cfg zpath t cw).1 := by
    rw [hu3, modifyAt_dimsView zpath (pipeR cfg zpath t cw).1 _
      (fun _ => dimsView cw2.1) (fun s => rfl)]
    refine modifyAt_fix zpath _ (dimsView w) _ ?_ ?_
    · rw [subtreeAt_dimsView, hw, Option.map_some']
    · exact hdw2z
  have henvEq : pipeEnv cfg zpath (pipeR cfg zpath t cw).1 cw2 =
      pipeEnv cfg zpath t cw := by
    rw [pipeEnv, pipeEnv, hlocsEq]
    have hroot : (pipeT3 cfg zpath (pipeR cfg zpath t cw).1 cw2).data.draw.numLeaves =
        (pipeT3 cfg zpath t cw).data.draw.numLeaves :=
      coreView_numLeaves (by rw [hcu3, hcT3])
    rw [hroot]
  have hcu3t3 : coreView (pipeT3 cfg zpath (pipeR cfg zpath t cw).1 cw2) =
      coreView (pipeT3 cfg zpath t cw) := by
    rw [hcu3, hcT3]
  -- run two, stage five: the same geometry
  have hr2tree : pipeR cfg zpath (pipeR cfg zpath t cw).1 cw2 =
      computeNormalizedPositions (pipeEnv cfg zpath t cw)
        (pipeT3 cfg zpath (pipeR cfg zpath t cw).1 cw2) 0 false none 0 0
        (some zpath) ⟨[], []⟩ := by
    rw [pipeR, henvEq]
  have hdimsFinal : dimsView (pipeR cfg zpath (pipeR cfg zpath t cw).1 cw2).1 =
      dimsView (pipeR cfg zpath t cw).1 := by
    rw [hr2tree]
    exact dimsPositionsCongr (pipeEnv cfg zpath t cw)
      (pipeT3 cfg zpath (pipeR cfg zpath t cw).1 cw2) (pipeT3 cfg zpath t cw) 0
      false none 0 0 (some zpath) ⟨[], []⟩ ⟨[], []⟩ hcu3t3 hdu3
  have hcoreFinal : coreView (pipeR cfg zpath (pipeR cfg zpath t cw).1 cw2).1 =
      coreView (pipeR cfg zpath t cw).1 := by
    rw [pipeR, coreView_positions, hcu3]
  -- assemble run two
  refine ⟨pipeState cfg zpath (pipeR cfg zpath t cw).1 cw2,
    layoutPipeline_eq cfg zpath (pipeR cfg zpath t cw).1 cw2 hcw2p,
    hcoreFinal, hdimsFinal, ?_, ?_, ?_, ?_⟩
  · exact congrArg (fun q => q.2) hlocsEq
  · exact congrArg (fun q => q.2.1) hcw2snd
  · exact congrArg (fun q => q.2.2) hcw2snd
  · exact congrArg (fun q => q.1) hlocsEq

/-- C8 witness: on the concrete model `c7Tree` zoomed at the depth-1
group "g" the first pipeline run succeeds with `c7State`, and the
second run on its output tree succeeds and reproduces the geometry. -/
theorem C8_pipeline_idempotent_witness :
    (subtreeAt c7Tree [0]).isSome = true ∧
    ∃ s2, layoutPipeline exCfg [0] c7State.tree = some s2 ∧
      coreView s2.tree = coreView c7State.tree ∧
      dimsView s2.tree = dimsView c7State.tree ∧
      s2.cols = c7State.cols ∧
      s2.leafWidthsPx = c7State.leafWidthsPx ∧
      s2.greatestDepth = c7State.greatestDepth ∧
      s2.partitionTreeWidth = c7State.partitionTreeWidth :=
  ⟨rfl, C8_pipeline_idempotent exCfg [0] c7Tree c7State rfl c7_pipeline_eval⟩

/-- One-node unfolding of the position pass in terms of the helper
definitions. -/
theorem positions_unfold (env : PosEnv) (d : NodeData) (cs : Forest) (lc : ℚ)
    (icz : Bool) (emp : Option WorkInfo) (pd : ℕ) (py : ℚ)
    (zr : Option (List ℕ)) (acc : PosAcc) :
    computeNormalizedPositions env (.node d cs) lc icz emp pd py zr acc =
      (.node { d with draw := { d.draw with
           dims := posDims env d cs lc (posEmp env d cs (posIcz icz zr) emp) pd py,
           prevDims := d.draw.dims } }
         (computeNormalizedPositionsForest env cs lc (posIcz icz zr)
           (posEmp env d cs (posIcz icz zr) emp) d.depth
           (posDims env d cs lc (posEmp env d cs (posIcz icz zr) emp) pd py).y zr 0
           (posAccStep d cs (posIcz icz zr) emp acc)).1,
       (computeNormalizedPositionsForest env cs lc (posIcz icz zr)
           (posEmp env d cs (posIcz icz zr) emp) d.depth
           (posDims env d cs lc (posEmp env d cs (posIcz icz zr) emp) pd py).y zr 0
           (posAccStep d cs (posIcz icz zr) emp acc)).2) := by
  simp only [computeNormalizedPositions, posDims, posEmp, posIcz, posAccStep,
    apply_ite Prod.fst, apply_ite Prod.snd]

/-- C6 (amended): the collapse pass assigns a visited visible node that
ends up minimized `numLeaves = 1` regardless of its descendant count,
and the position pass gives every visible node it reaches with no
active minimized ancestor a row height of exactly its own
`numLeaves / rootLeaves`; a minimized subtree root with `N` descendant
leaves therefore occupies one row of height `1 / totalLeaves`, not
`N / totalLeaves`. -/
theorem C6_amended_minimized_row_height (cfg : Config) (env : PosEnv)
    (d : NodeData) (cs : Forest) (lc : ℚ) (icz : Bool) (pd : ℕ) (py : ℚ)
    (zr : Option (List ℕ)) (acc : PosAcc)
    (hvis : isVisible d.draw = true) :
    (computeNormalizedPositions env (.node d cs) lc icz none pd py zr
        acc).1.data.draw.dims.height = d.draw.numLeaves / env.rootLeaves ∧
    ((d.draw.hidden || d.draw.filtered) = false →
      updateMinimized cfg d cs = true →
      (computeLeaves cfg (.node d cs)).data.draw.numLeaves = 1) := by
  constructor
  · rw [positions_unfold]
    simp only [Tree.data]
    have hcases : posEmp env d cs (posIcz icz zr) none = none ∨
        posEmp env d cs (posIcz icz zr) none =
          some ⟨d.depth, colLoc env d.depth / env.treeWidth, d.draw.numLeaves⟩ := by
      simp only [posEmp]
      split
      · split
        · exact Or.inr rfl
        · exact Or.inl rfl
      · exact Or.inl rfl
    rcases hcases with h | h <;>
      · rw [h]
        simp [posDims, hvis]
  · intro hv hm
    rw [computeLeaves_leafish cfg d cs hv (Or.inr hm)]
    rfl

/-- C6 amended witness: on a concrete minimized two-leaf group reached
by the position pass, the height is its `numLeaves` over the root
total, and the collapse pass stores `numLeaves = 1` for it. -/
theorem C6_amended_minimized_row_height_witness :
    (isVisible ({ minimized := true, numLeaves := 1 } : Draw) = true) ∧
    (computeNormalizedPositions ⟨[⟨1, 0⟩], 1, 2⟩
        (.node { name := "m", depth := 1,
                 draw := { minimized := true, numLeaves := 1 } }
          (.cons (.node { name := "a", depth := 2 } .nil) .nil))
        0 true none 0 0 none ⟨[], []⟩).1.data.draw.dims.height = 1 / 2 ∧
    updateMinimized { nodeCount := 1 }
      { name := "m", depth := 1, draw := { minimized := true, numLeaves := 1 } }
      (.cons (.node { name := "a", depth := 2 } .nil) .nil) = true ∧
    (computeLeaves { nodeCount := 1 }
        (.node { name := "m", depth := 1,
                 draw := { minimized := true, numLeaves := 1 } }
          (.cons (.node { name := "a", depth := 2 } .nil) .nil))).data.draw.numLeaves = 1 := by
  have hvis : isVisible ({ minimized := true, numLeaves := 1 } : Draw) = true := by
    norm_num [isVisible]
  have hm : updateMinimized { nodeCount := 1 }
      { name := "m", depth := 1, draw := { minimized := true, numLeaves := 1 } }
      (.cons (.node { name := "a", depth := 2 } .nil) .nil) = true := by
    norm_num +decide [updateMinimized, Forest.length]
  have hmain := C6_amended_minimized_row_height { nodeCount := 1 } ⟨[⟨1, 0⟩], 1, 2⟩
    { name := "m", depth := 1, draw := { minimized := true, numLeaves := 1 } }
    (.cons (.node { name := "a", depth := 2 } .nil) .nil) 0 true 0 0 none
    ⟨[], []⟩ hvis
  refine ⟨hvis, ?_, hm, hmain.2 (by norm_num) hm⟩
  rw [hmain.1]

/-- A sound tree's root count is nonnegative. -/
theorem treeOk_nonneg (t : Tree) (h : TreeOk t) : 0 ≤ t.data.draw.numLeaves := by
  cases t with
  | node d cs =>
    simp only [TreeOk] at h
    by_cases hv : isVisible d.draw = true
    · exact (h.2.1 hv).1
    · have h0 := (h.1 (by simpa using hv)).1
      simp only [Tree.data]
      rw [h0]

/-- A sound forest's leaf sum is nonnegative. -/
theorem sumLeavesF_nonneg (fs : Forest) (h : TreeOkF fs) : 0 ≤ fs.sumLeaves := by
  cases fs with
  | nil => simp [Forest.sumLeaves]
  | cons t ts =>
    simp only [TreeOkF] at h
    simp only [Forest.sumLeaves]
    exact add_nonneg (treeOk_nonneg t h.1) (sumLeavesF_nonneg ts h.2)

/-- A sound forest of invisible roots sums to zero leaves. -/
theorem sumLeavesF_zero (fs : Forest) (hinv : forestRootsInvisible fs)
    (h : TreeOkF fs) : fs.sumLeaves = 0 := by
  cases fs with
  | nil => rfl
  | cons t ts =>
    simp only [TreeOkF] at h
    simp only [forestRootsInvisible] at hinv
    have h0 : t.data.draw.numLeaves = 0 := by
      cases t with
      | node d cs =>
        simp only [TreeOk] at h
        exact (h.1.1 hinv.1).1
    simp only [Forest.sumLeaves, h0, sumLeavesF_zero ts hinv.2 h.2]
    norm_num

/-- The position pass does not change the skip-relevant flags of a
node. -/
theorem positions_flags (env : PosEnv) (c : Tree) (lc : ℚ) (icz : Bool)
    (emp : Option WorkInfo) (pd : ℕ) (py : ℚ) (zr : Option (List ℕ))
    (acc : PosAcc) :
    (computeNormalizedPositions env c lc icz emp pd py zr acc).1.data.isInputOrOutput =
      c.data.isInputOrOutput ∧
    (computeNormalizedPositions env c lc icz emp pd py zr acc).1.data.draw.minimized =
      c.data.draw.minimized := by
  have h := coreData_inj (coreView_data_eq
    (coreView_positions env c lc icz emp pd py zr acc))
  exact ⟨h.2.2.2.2.1, h.2.2.2.2.2.2.2.2.1⟩

/-- A quotient by a positive bound stays within the unit interval. -/
theorem div_unit {a w : ℚ} (hw : 0 < w) (h0 : 0 ≤ a) (h1 : a ≤ w) :
    0 ≤ a / w ∧ a / w ≤ 1 :=
  ⟨div_nonneg h0 hw.le, (div_le_one hw).mpr h1⟩

mutual
/-- Normalized-position bounds: the position pass run on a sound
subtree, with sound columns and counters, writes in-bounds dims at
every node it enters. -/
theorem positionsBoundsTree (env : PosEnv) (t : Tree) (lc : ℚ) (icz : Bool)
    (emp : Option WorkInfo) (pd : ℕ) (py : ℚ) (zr : Option (List ℕ))
    (acc : PosAcc) (hW : 0 < env.treeWidth) (hR : 0 < env.rootLeaves)
    (hcols : ∀ i, 0 ≤ colLoc env i ∧ colLoc env i ≤ env.treeWidth ∧
      (1 ≤ i → colLoc env i + colWidth env i ≤ env.treeWidth))
    (hpy0 : 0 ≤ py) (hpy1 : py ≤ 1) (ht : TreeOk t)
    (hemp : match emp with
      | none => 0 ≤ lc ∧ lc + t.data.draw.numLeaves ≤ env.rootLeaves
      | some w => 0 ≤ lc ∧ 0 ≤ w.numLeaves ∧
          lc + w.numLeaves ≤ env.rootLeaves ∧
          w.dimsX = colLoc env w.depth / env.treeWidth ∧ 1 ≤ w.depth) :
    BoundsOk (computeNormalizedPositions env t lc icz emp pd py zr acc).1 := by
  cases t with
  | node d cs =>
    simp only [TreeOk] at ht
    obtain ⟨htInv, htVis, htF⟩ := ht
    rw [positions_unfold]
    simp only [BoundsOk]
    by_cases hv : isVisible d.draw = true
    case neg =>
      have hv' : isVisible d.draw = false := by simpa using hv
      obtain ⟨hnl0, hsubinv⟩ := htInv hv'
      have hE : posEmp env d cs (posIcz icz zr) emp = emp := by
        simp [posEmp, hv']
      have hD : posDims env d cs lc (posEmp env d cs (posIcz icz zr) emp) pd py =
          { x := colLoc env (pd + 1) / env.treeWidth, y := py,
            width := 1 / 1000000, height := 1 / 1000000 } := by
        simp [posDims, hv']
      rw [hD, hE]
      have hx := div_unit hW (hcols (pd + 1)).1 (hcols (pd + 1)).2.1
      refine ⟨⟨hx.1, hx.2, hpy0, hpy1, by linarith [hpy1], fun _ => by
        linarith [hx.2]⟩, ?_⟩
      refine positionsBoundsForest env cs lc (posIcz icz zr) emp d.depth py zr
        0 _ hW hR hcols hpy0 hpy1 htF (Or.inr ?_)
      cases emp with
      | none =>
        obtain ⟨hlc0, hlcR⟩ := hemp
        simp only [Tree.data] at hlcR
        rw [hnl0] at hlcR
        exact ⟨hlc0, by rw [sumLeavesF_zero cs hsubinv htF]; linarith⟩
      | some w => exact hemp
    case pos =>
      obtain ⟨hnlle, hsum, hdep1⟩ := htVis hv
      cases emp with
      | none =>
        obtain ⟨hlc0, hlcR⟩ := hemp
        simp only [Tree.data] at hlcR
        have hlcle : lc ≤ env.rootLeaves := by linarith
        have hself : (posEmp env d cs (posIcz icz zr) none).getD
            ⟨d.depth, colLoc env d.depth / env.treeWidth, d.draw.numLeaves⟩ =
            ⟨d.depth, colLoc env d.depth / env.treeWidth, d.draw.numLeaves⟩ := by
          simp only [posEmp]
          split
          · split
            · rfl
            · rfl
          · rfl
        have hD : posDims env d cs lc (posEmp env d cs (posIcz icz zr) none) pd py =
            { x := colLoc env d.depth / env.treeWidth,
              y := lc / env.rootLeaves,
              width :=
                if (!cs.isEmpty) && !d.draw.minimized && !d.draw.filtered then
                  colWidth env d.depth / env.treeWidth
                else 1 - colLoc env d.depth / env.treeWidth,
              height := d.draw.numLeaves / env.rootLeaves } := by
          simp only [posDims, hv]
          rw [hself]
          simp
        rw [hD]
        have hx := div_unit hW (hcols d.depth).1 (hcols d.depth).2.1
        have hy := div_unit hR hlc0 hlcle
        refine ⟨⟨hx.1, hx.2, hy.1, hy.2, ?_, fun hd1 => ?_⟩, ?_⟩
        · rw [div_add_div_same]
          have hle : (lc + d.draw.numLeaves) / env.rootLeaves ≤ 1 :=
            (div_le_one hR).mpr hlcR
          linarith
        · by_cases hbr :
            ((!cs.isEmpty) && !d.draw.minimized && !d.draw.filtered) = true
          · rw [if_pos hbr, div_add_div_same]
            have hle := (div_le_one hW).mpr ((hcols d.depth).2.2 hd1)
            linarith
          · rw [if_neg (by simpa using hbr)]
            have hone : colLoc env d.depth / env.treeWidth +
                (1 - colLoc env d.depth / env.treeWidth) = 1 := by ring
            linarith
        · by_cases hcse : cs.isEmpty = true
          · exact positionsBoundsForest env cs lc (posIcz icz zr) _ d.depth _ zr
              0 _ hW hR hcols hy.1 hy.2 htF (Or.inl hcse)
          · have hcse' : cs.isEmpty = false := by simpa using hcse
            have hEcases : posEmp env d cs (posIcz icz zr) none = none ∨
                posEmp env d cs (posIcz icz zr) none =
                  some ⟨d.depth, colLoc env d.depth / env.treeWidth,
                    d.draw.numLeaves⟩ := by
              simp only [posEmp]
              split
              · split
                · exact Or.inr rfl
                · exact Or.inl rfl
              · exact Or.inl rfl
            refine positionsBoundsForest env cs lc (posIcz icz zr) _ d.depth _ zr
              0 _ hW hR hcols hy.1 hy.2 htF (Or.inr ?_)
            rcases hEcases with hE | hE
            · rw [hE]
              exact ⟨hlc0, by linarith⟩
            · rw [hE]
              have hvl : isVisibleLeaf d cs = true := by
                by_contra hvlc
                have hvl' : isVisibleLeaf d cs = false := by simpa using hvlc
                simp [posEmp, hvl'] at hE
              have hminT : d.draw.minimized = true := by
                simp only [isVisibleLeaf, hv, hcse'] at hvl
                simpa using hvl
              exact ⟨hlc0, hnlle, hlcR, rfl, hdep1 hcse' hminT⟩
      | some w =>
        obtain ⟨hlc0, hwnl, hlcR, hdx, hwd⟩ := hemp
        have hE : posEmp env d cs (posIcz icz zr) (some w) = some w := by
          simp [posEmp]
        have hD : posDims env d cs lc (posEmp env d cs (posIcz icz zr) (some w)) pd py =
            { x := colLoc env w.depth / env.treeWidth,
              y := lc / env.rootLeaves,
              width :=
                if (!cs.isEmpty) && !d.draw.minimized && !d.draw.filtered then
                  colWidth env w.depth / env.treeWidth
                else 1 - w.dimsX,
              height := w.numLeaves / env.rootLeaves } := by
          rw [hE]
          simp only [posDims, hv]
          simp [Option.getD]
        rw [hD, hE]
        have hx := div_unit hW (hcols w.depth).1 (hcols w.depth).2.1
        have hy := div_unit hR hlc0 (by linarith)
        refine ⟨⟨hx.1, hx.2, hy.1, hy.2, ?_, fun _ => ?_⟩, ?_⟩
        · rw [div_add_div_same]
          have hle : (lc + w.numLeaves) / env.rootLeaves ≤ 1 :=
            (div_le_one hR).mpr hlcR
          linarith
        · by_cases hbr :
            ((!cs.isEmpty) && !d.draw.minimized && !d.draw.filtered) = true
          · rw [if_pos hbr, div_add_div_same]
            have hle := (div_le_one hW).mpr ((hcols w.depth).2.2 hwd)
            linarith
          · rw [if_neg (by simpa using hbr), hdx]
            have hone : colLoc env w.depth / env.treeWidth +
                (1 - colLoc env w.depth / env.treeWidth) = 1 := by ring
            linarith
        · refine positionsBoundsForest env cs lc (posIcz icz zr) (some w) d.depth
            _ zr 0 _ hW hR hcols hy.1 hy.2 htF (Or.inr ?_)
          exact ⟨hlc0, hwnl, hlcR, hdx, hwd⟩

/-- Forest version of `positionsBoundsTree`. -/
theorem positionsBoundsForest (env : PosEnv) (fs : Forest) (lc : ℚ) (icz : Bool)
    (emp : Option WorkInfo) (pd : ℕ) (py : ℚ) (zr : Option (List ℕ)) (i : ℕ)
    (acc : PosAcc) (hW : 0 < env.treeWidth) (hR : 0 < env.rootLeaves)
    (hcols : ∀ i, 0 ≤ colLoc env i ∧ colLoc env i ≤ env.treeWidth ∧
      (1 ≤ i → colLoc env i + colWidth env i ≤ env.treeWidth))
    (hpy0 : 0 ≤ py) (hpy1 : py ≤ 1) (hf : TreeOkF fs)
    (hemp : fs.isEmpty = true ∨ match emp with
      | none => 0 ≤ lc ∧ lc + fs.sumLeaves ≤ env.rootLeaves
      | some w => 0 ≤ lc ∧ 0 ≤ w.numLeaves ∧
          lc + w.numLeaves ≤ env.rootLeaves ∧
          w.dimsX = colLoc env w.depth / env.treeWidth ∧ 1 ≤ w.depth) :
    BoundsOkF (computeNormalizedPositionsForest env fs lc icz emp pd py zr i acc).1 := by
  cases fs with
  | nil =>
    simp [computeNormalizedPositionsForest, BoundsOkF]
  | cons c rest =>
    simp only [TreeOkF] at hf
    rcases hemp with habs | hpack
    · exact absurd habs (by simp [Forest.isEmpty])
    have hrest0 : 0 ≤ rest.sumLeaves := sumLeavesF_nonneg rest hf.2
    have hc0 : 0 ≤ c.data.draw.numLeaves := treeOk_nonneg c hf.1
    simp only [computeNormalizedPositionsForest]
    by_cases hsk : (c.data.isInputOrOutput && c.data.draw.minimized) = true
    · have hcond : ¬ ((!(c.data.isInputOrOutput && c.data.draw.minimized)) = true) := by
        rw [hsk]
        simp
      rw [if_neg hcond]
      simp only [BoundsOkF]
      constructor
      · intro hfalse
        rw [hsk] at hfalse
        exact absurd hfalse (by simp)
      · refine positionsBoundsForest env rest lc icz emp pd py zr (i + 1) _ hW hR
          hcols hpy0 hpy1 hf.2 (Or.inr ?_)
        cases emp with
        | none =>
          obtain ⟨hlc0, hsumR⟩ := hpack
          simp only [Forest.sumLeaves] at hsumR
          exact ⟨hlc0, by linarith⟩
        | some w => exact hpack
    · have hskf : (c.data.isInputOrOutput && c.data.draw.minimized) = false := by
        simpa using hsk
      have hcond : (!(c.data.isInputOrOutput && c.data.draw.minimized)) = true := by
        rw [hskf]
        simp
      rw [if_pos hcond]
      simp only [BoundsOkF]
      constructor
      · intro _
        refine positionsBoundsTree env c lc icz emp pd py _ _ hW hR hcols hpy0
          hpy1 hf.1 ?_
        cases emp with
        | none =>
          obtain ⟨hlc0, hsumR⟩ := hpack
          simp only [Forest.sumLeaves] at hsumR
          exact ⟨hlc0, by linarith⟩
        | some w => exact hpack
      · cases emp with
        | none =>
          obtain ⟨hlc0, hsumR⟩ := hpack
          simp only [Forest.sumLeaves] at hsumR
          have hred : (if (Option.isNone (none : Option WorkInfo)) = true then
              lc + c.data.draw.numLeaves else lc) = lc + c.data.draw.numLeaves :=
            if_pos rfl
          rw [hred]
          refine positionsBoundsForest env rest (lc + c.data.draw.numLeaves) icz
            none pd py zr (i + 1) _ hW hR hcols hpy0 hpy1 hf.2 (Or.inr ?_)
          exact ⟨by linarith, by linarith⟩
        | some w =>
          have hred : (if (Option.isNone (some w)) = true then
              lc + c.data.draw.numLeaves else lc) = lc :=
            if_neg (by simp)
          rw [hred]
          exact positionsBoundsForest env rest lc icz (some w) pd py zr (i + 1)
            _ hW hR hcols hpy0 hpy1 hf.2 (Or.inr hpack)
end

/-- C3 (amended): with the invariants the earlier passes establish -
positive tree width, positive root leaf count, nonnegative column
locations that stay within the tree width, columns at depth 1 and
beyond fitting inside the tree width, and sound collapse counts
(`TreeOk`, including that the root is not minimized-with-children at
depth 0) - every node the position pass enters receives dims with
`0 ≤ x ≤ 1`, `0 ≤ y ≤ 1`, `y + height ≤ 1 + 1/1000000`, and, for
nodes of depth at least 1, `x + width ≤ 1 + 1/1000000`.  The depth-0
restriction on the last bound is necessary: column 0 is excluded from
the cumulative tree width, so the root's `x + width` is unbounded (see
the counterexample). -/
theorem C3_amended_position_bounds (env : PosEnv) (t : Tree)
    (zr : Option (List ℕ)) (acc : PosAcc) (hW : 0 < env.treeWidth)
    (hR : 0 < env.rootLeaves)
    (hcols : ∀ i, 0 ≤ colLoc env i ∧ colLoc env i ≤ env.treeWidth ∧
      (1 ≤ i → colLoc env i + colWidth env i ≤ env.treeWidth))
    (ht : TreeOk t) (hroot : t.data.draw.numLeaves ≤ env.rootLeaves) :
    BoundsOk (computeNormalizedPositions env t 0 false none 0 0 zr acc).1 :=
  positionsBoundsTree env t 0 false none 0 0 zr acc hW hR hcols le_rfl
    zero_le_one ht ⟨le_rfl, by simpa using hroot⟩

/-- C3 amended witness: a one-leaf model over two columns of total
width 10 satisfies every hypothesis, and the theorem bounds its
computed dims. -/
theorem C3_amended_position_bounds_witness :
    (0 : ℚ) < (⟨[⟨5, 0⟩, ⟨10, 0⟩], 10, 1⟩ : PosEnv).treeWidth ∧
    (0 : ℚ) < (⟨[⟨5, 0⟩, ⟨10, 0⟩], 10, 1⟩ : PosEnv).rootLeaves ∧
    TreeOk (Tree.node { draw := { numLeaves := 1 } } .nil) ∧
    BoundsOk (computeNormalizedPositions (⟨[⟨5, 0⟩, ⟨10, 0⟩], 10, 1⟩ : PosEnv)
      (Tree.node { draw := { numLeaves := 1 } } .nil) 0 false none 0 0 none
      ⟨[], []⟩).1 := by
  have hW : (0 : ℚ) < (⟨[⟨5, 0⟩, ⟨10, 0⟩], 10, 1⟩ : PosEnv).treeWidth := by
    norm_num
  have hR : (0 : ℚ) < (⟨[⟨5, 0⟩, ⟨10, 0⟩], 10, 1⟩ : PosEnv).rootLeaves := by
    norm_num
  have hcols : ∀ i, 0 ≤ colLoc (⟨[⟨5, 0⟩, ⟨10, 0⟩], 10, 1⟩ : PosEnv) i ∧
      colLoc (⟨[⟨5, 0⟩, ⟨10, 0⟩], 10, 1⟩ : PosEnv) i ≤
        (⟨[⟨5, 0⟩, ⟨10, 0⟩], 10, 1⟩ : PosEnv).treeWidth ∧
      (1 ≤ i → colLoc (⟨[⟨5, 0⟩, ⟨10, 0⟩], 10, 1⟩ : PosEnv) i +
        colWidth (⟨[⟨5, 0⟩, ⟨10, 0⟩], 10, 1⟩ : PosEnv) i ≤
        (⟨[⟨5, 0⟩, ⟨10, 0⟩], 10, 1⟩ : PosEnv).treeWidth) := by
    intro i
    match i with
    | 0 =>
      refine ⟨by norm_num [colLoc, List.getD], by norm_num [colLoc, List.getD],
        fun habs => absurd habs (by norm_num)⟩
    | 1 =>
      exact ⟨by norm_num [colLoc, List.getD], by norm_num [colLoc, List.getD],
        fun _ => by norm_num [colLoc, colWidth, List.getD]⟩
    | n + 2 =>
      have h2 : ([⟨5, 0⟩, ⟨10, 0⟩] : List Col).getD (n + 2) {} = {} :=
        List.getD_eq_default _ _ (by simp)
      refine ⟨?_, ?_, fun _ => ?_⟩ <;>
        norm_num [colLoc, colWidth, h2]
  have ht : TreeOk (Tree.node { draw := { numLeaves := 1 } } .nil) := by
    simp only [TreeOk]
    refine ⟨fun hvf => ?_, fun _ => ?_, trivial⟩
    · exact absurd hvf (by norm_num [isVisible])
    · exact ⟨by norm_num, by norm_num [Forest.sumLeaves],
        fun hce => by simp [Forest.isEmpty] at hce⟩
  exact ⟨hW, hR, ht,
    C3_amended_position_bounds (⟨[⟨5, 0⟩, ⟨10, 0⟩], 10, 1⟩ : PosEnv)
      (Tree.node { draw := { numLeaves := 1 } } .nil) none ⟨[], []⟩ hW hR hcols
      ht (by norm_num [Tree.data])⟩

end N2Layout

